import Mathlib

/-!
# Cuba: a self-expanding worker pool

A shallow embedding of `bucket.go`, `handle.go` and `pool.go`.

* The two buckets (`Stack`, `Queue`) are pure functions on their contents.
* A `Pool` value is the pool struct together with the goroutines it has started
  (`workers`); every method body that runs under `pool.mutex` is one pure function,
  and every atomic operation of `runWorker` is one transition of `step`.
* `pool.wg` is a `sync.WaitGroup` with its waiters: `Add` can panic, and the `Wait` of a
  caller of `Finish`/`Abort` is three steps of its own.
* `Sys` adds three history variables (`offered`, `inserted`, `processed`) that the
  code never reads; they only record what happened.
-/

namespace Cuba

variable {D I : Type}

/-! ## bucket.go -/

/-- The type `Stack[D]`: a slice of items, the top of the stack is the last element. -/
structure Stack (D : Type) where
  data : List D
deriving DecidableEq, Repr

/-- The constructor `NewStack`: the zero value, an empty slice. -/
def NewStack : Stack D := { data := [] }

/-- The method `Stack.Push`: `stack.data = append(stack.data, item)`. -/
def Stack.Push (stack : Stack D) (item : D) : Stack D :=
  { data := stack.data ++ [item] }

/-- The method `Stack.PushAll`: `stack.data = append(stack.data, items...)`. -/
def Stack.PushAll (stack : Stack D) (items : List D) : Stack D :=
  { data := stack.data ++ items }

/-- The method `Stack.Pop`: reads `stack.data[len-1]` and reslices to `[:len-1]`.
On an empty slice the index is out of range and Go panics: the result is `none`. -/
def Stack.Pop (stack : Stack D) : Option (D × Stack D) :=
  if stack.data.length = 0 then none
  else
    match stack.data[stack.data.length - 1]? with
    | none => none
    | some item => some (item, { data := stack.data.take (stack.data.length - 1) })

/-- The method `Stack.IsEmpty`: `len(stack.data) == 0`. -/
def Stack.IsEmpty (stack : Stack D) : Bool :=
  stack.data.length == 0

/-- The method `Stack.Empty`: `stack.data = nil`. -/
def Stack.Empty (_stack : Stack D) : Stack D :=
  { data := [] }

/-- Modelled from the spec: the repository's generic `List[D]` (with `NewList`, `Init`,
`PushBack`, `Front`, `Remove`, `Len`) is not among the sources. The spec describes it as
"an ordered sequence supporting O(1) push-to-back and pop-from-front"; it is modelled by
the sequence of its values, front first. -/
structure LinkedList (D : Type) where
  elems : List D
deriving DecidableEq, Repr

/-- Modelled from the spec: `NewList` is missing from the sources; it returns an empty list. -/
def NewList : LinkedList D := { elems := [] }

/-- Modelled from the spec: `List.Init` is missing from the sources; it (re)initialises the
list to the empty sequence. -/
def LinkedList.Init (_l : LinkedList D) : LinkedList D := { elems := [] }

/-- Modelled from the spec: `List.PushBack` is missing from the sources; it appends one value
at the back of the sequence. -/
def LinkedList.PushBack (l : LinkedList D) (v : D) : LinkedList D :=
  { elems := l.elems ++ [v] }

/-- Modelled from the spec: `List.Front` is missing from the sources; it returns the first
element of the sequence, here its position, or `nil` (`none`) when the sequence is empty. -/
def LinkedList.Front (l : LinkedList D) : Option Nat :=
  if l.elems.length = 0 then none else some 0

/-- Modelled from the spec: `List.Remove` is missing from the sources; it unlinks the given
element and returns its value. On `nil`, or on an element that is not in the list, there is
no value to return (`none`, a nil dereference in Go). -/
def LinkedList.Remove (l : LinkedList D) (e : Option Nat) : Option (D × LinkedList D) :=
  match e with
  | none => none
  | some i =>
    match l.elems[i]? with
    | none => none
    | some v => some (v, { elems := l.elems.eraseIdx i })

/-- Modelled from the spec: `List.Len` is missing from the sources; it is the number of
elements of the sequence. -/
def LinkedList.Len (l : LinkedList D) : Nat := l.elems.length

/-- The type `Queue[D]`: a pointer to a `List[D]`. -/
structure Queue (D : Type) where
  data : LinkedList D
deriving DecidableEq, Repr

/-- The constructor `NewQueue`: `NewList[D]().Init()`. -/
def NewQueue : Queue D := { data := (NewList : LinkedList D).Init }

/-- The method `Queue.Push`: `queue.data.PushBack(item)`. -/
def Queue.Push (queue : Queue D) (item : D) : Queue D :=
  { data := queue.data.PushBack item }

/-- The method `Queue.PushAll`: `for _, item := range items { queue.Push(item) }`. -/
def Queue.PushAll (queue : Queue D) (items : List D) : Queue D :=
  items.foldl Queue.Push queue

/-- The method `Queue.Pop`: `queue.data.Remove(queue.data.Front())`. -/
def Queue.Pop (queue : Queue D) : Option (D × Queue D) :=
  match queue.data.Remove queue.data.Front with
  | none => none
  | some (v, l) => some (v, { data := l })

/-- The method `Queue.IsEmpty`: `queue.data.Len() == 0`. -/
def Queue.IsEmpty (queue : Queue D) : Bool :=
  queue.data.Len == 0

/-- The method `Queue.Empty`: `queue.data = NewList[D]().Init()`. -/
def Queue.Empty (_queue : Queue D) : Queue D :=
  { data := (NewList : LinkedList D).Init }

/-- The interface `Bucket[I]` with its two implementations in this repository. -/
inductive Bucket (I : Type) where
  | stack (s : Stack I)
  | queue (q : Queue I)
deriving DecidableEq, Repr

/-- Dynamic dispatch of `Bucket.Push`. -/
def Bucket.Push : Bucket I → I → Bucket I
  | .stack s, item => .stack (s.Push item)
  | .queue q, item => .queue (q.Push item)

/-- Dynamic dispatch of `Bucket.PushAll`. -/
def Bucket.PushAll : Bucket I → List I → Bucket I
  | .stack s, items => .stack (s.PushAll items)
  | .queue q, items => .queue (q.PushAll items)

/-- Dynamic dispatch of `Bucket.Pop`. -/
def Bucket.Pop : Bucket I → Option (I × Bucket I)
  | .stack s => (s.Pop).map (fun r => (r.1, .stack r.2))
  | .queue q => (q.Pop).map (fun r => (r.1, .queue r.2))

/-- Dynamic dispatch of `Bucket.IsEmpty`. -/
def Bucket.IsEmpty : Bucket I → Bool
  | .stack s => s.IsEmpty
  | .queue q => q.IsEmpty

/-- Dynamic dispatch of `Bucket.Empty`. -/
def Bucket.Empty : Bucket I → Bucket I
  | .stack s => .stack s.Empty
  | .queue q => .queue q.Empty

/-- The items a bucket holds, in insertion order (oldest first). -/
def Bucket.contents : Bucket I → List I
  | .stack s => s.data
  | .queue q => q.data.elems

/-! ## handle.go -/

/-- The type `Handle[I]`: the bound item and the staged outbound items. The back pointer
`pool` is left out: the handle of a worker always points to the pool that started it. -/
structure Handle (I : Type) where
  item : I
  items : List I
deriving DecidableEq, Repr

/-- The method `Handle.Item`. -/
def Handle.Item (handle : Handle I) : I := handle.item

/-- The method `Handle.Push`: `handle.items = append(handle.items, item)`. -/
def Handle.Push (handle : Handle I) (item : I) : Handle I :=
  { handle with items := handle.items ++ [item] }

/-! ## pool.go -/

/-- The only error value of the package, `PoolAbortedErr`; a nil error is `none`. -/
inductive PoolError where
  | PoolAbortedErr
deriving DecidableEq, Repr

/-- The constants `PoolRun`, `PoolFinish`, `PoolAbort`, the only values ever stored in
the unexported field `pool.state`. -/
inductive PoolState where
  | PoolRun
  | PoolFinish
  | PoolAbort
deriving DecidableEq, Repr

export PoolState (PoolRun PoolFinish PoolAbort)
export PoolError (PoolAbortedErr)

/-- The type `Task[I]`. A callback can read `handle.Item()` and call `handle.Push` any number
of times; it is given by the items it stages, in order, for the item it is called on. -/
abbrev Task (I : Type) := I → List I

/-- Program counter of one `runWorker` goroutine. -/
inductive Pc (I : Type) where
  /-- at `pool.next()`: about to take the mutex and test `pool.bucket.IsEmpty()` (on entry,
  or again after a wake-up from `cond.Wait`) -/
  | fetch
  /-- suspended in `pool.cond.Wait()`, holding the given ticket of the notify list -/
  | waiting (ticket : Nat)
  /-- `next` returned `(item, true)`: about to run `handle.item = item; pool.task(&handle)` -/
  | gotItem (item : I)
  /-- the task returned: about to run `handle.Sync()` -/
  | flush
  /-- `next` returned `(nil, false)`: about to run `atomic.AddInt32(&pool.numWorkers, -1)` -/
  | retiring
  /-- the counter is decremented: about to run `pool.wg.Done()` -/
  | decremented
  /-- the worker has passed the counter update of `pool.wg.Done()` and touches the pool no
  more; when that update took the counter to zero while callers wait, what is left of its
  `Done` is the release of the waiters, the step `wgRelease` -/
  | exited
deriving DecidableEq, Repr

/-- One `runWorker` goroutine: where it stands, and its local variable `handle`. -/
structure Worker (I : Type) where
  pc : Pc I
  handle : Handle I
deriving DecidableEq, Repr

/-- The type `sync.WaitGroup` of Go's standard library, as far as the pool uses it: `counter`
is the number of outstanding units, `waiters` the number of goroutines blocked in `Wait`,
`released` the number of goroutines released from `Wait` that have not yet resumed. -/
structure WaitGroup where
  counter : Nat
  waiters : Nat
  released : Nat
deriving DecidableEq, Repr

/-- The method `WaitGroup.Add`, its update of the counter. The result is `none` when `Add`
panics: on a negative counter, and on "WaitGroup misuse: Add called concurrently with Wait",
raised when a positive delta finds the counter at zero while goroutines are registered as
waiters. When the update takes the counter to zero with waiters registered, the release of
the waiters is a step of its own, `WaitGroup.release`. -/
def WaitGroup.Add (wg : WaitGroup) (delta : Int) : Option WaitGroup :=
  if (wg.counter : Int) + delta < 0 then none
  else if wg.waiters ≠ 0 ∧ 0 < delta ∧ (wg.counter : Int) + delta = delta then none
  else some { wg with counter := ((wg.counter : Int) + delta).toNat }

/-- The method `WaitGroup.Done`: `wg.Add(-1)`. -/
def WaitGroup.Done (wg : WaitGroup) : Option WaitGroup := wg.Add (-1)

/-- The method `WaitGroup.Wait` up to the point where the caller returns or blocks: with the
counter at zero it returns at once and changes nothing, otherwise the caller is registered
as a waiter and blocks. -/
def WaitGroup.Wait (wg : WaitGroup) : WaitGroup :=
  if wg.counter = 0 then wg else { wg with waiters := wg.waiters + 1 }

/-- The second half of the `Add` that took the counter to zero with waiters registered: the
state is reset and every waiter is released. It is enabled (`some`) only in that window. -/
def WaitGroup.release (wg : WaitGroup) : Option WaitGroup :=
  if wg.counter = 0 ∧ wg.waiters ≠ 0 then
    some { counter := 0, waiters := 0, released := wg.released + wg.waiters }
  else none

/-- A released waiter resumes in `Wait`: it returns when the state is still zero, and panics
("WaitGroup is reused before previous Wait has returned") when the counter was raised in
between. The result is `none` on that panic, and when no released waiter exists. -/
def WaitGroup.resume (wg : WaitGroup) : Option WaitGroup :=
  if wg.released = 0 then none
  else if wg.counter = 0 ∧ wg.waiters = 0 then some { wg with released := wg.released - 1 }
  else none

/-- The type `Pool[I]`, and the goroutines it has started. `mutex` has no field: each function
below that the source runs between `Lock` and `Unlock` is one indivisible step. `cond` is the
number of tickets its notify list has handed out, `wg` is the wait group. -/
structure Pool (I : Type) where
  bucket : Bucket I
  cond : Nat
  numWorkers : Int
  maxWorkers : Int
  state : PoolState
  task : Task I
  wg : WaitGroup
  workers : List (Worker I)

/-- The values of Go's `int32`. -/
def IsInt32 (z : Int) : Prop := -2147483648 ≤ z ∧ z < 2147483648

instance (z : Int) : Decidable (IsInt32 z) := by
  unfold IsInt32; infer_instance

/-- Two's complement wrap-around of `int32` arithmetic. -/
def wrapInt32 (z : Int) : Int := (z + 2147483648) % 4294967296 - 2147483648

/-- The function `atomic.AddInt32`, returning the new value. -/
def AddInt32 (v delta : Int) : Int := wrapInt32 (v + delta)

/-- The constructor `New`; `numCPU` is the value of `runtime.NumCPU()`. -/
def New (numCPU : Int) (task : Task I) (bucket : Bucket I) : Pool I :=
  { bucket := bucket, cond := 0, numWorkers := 0, maxWorkers := numCPU, state := PoolRun,
    task := task, wg := { counter := 0, waiters := 0, released := 0 }, workers := [] }

/-- The method `Pool.SetMaxWorkers`. -/
def Pool.SetMaxWorkers (pool : Pool I) (n : Int) : Pool I :=
  { pool with maxWorkers := n }

/-- The handle a worker starts with: `Handle[I]{pool: pool}`, the other fields zero. -/
def Worker.fresh [Inhabited I] : Worker I :=
  { pc := .fetch, handle := { item := default, items := [] } }

/-- The three statements `atomic.AddInt32(&pool.numWorkers, 1); pool.wg.Add(1);
go pool.runWorker()`. The result is `none` when `pool.wg.Add(1)` panics; the panic is not
recovered anywhere in the package, so it ends the program and no goroutine is started. -/
def Pool.spawn [Inhabited I] (pool : Pool I) : Option (Pool I) :=
  match pool.wg.Add 1 with
  | none => none
  | some wg =>
    some { pool with
      numWorkers := AddInt32 pool.numWorkers 1
      wg := wg
      workers := pool.workers ++ [Worker.fresh] }

/-- Wake a worker suspended in `cond.Wait()` if its ticket is selected. -/
def Worker.wakeIf (sel : Nat → Bool) (w : Worker I) : Worker I :=
  match w.pc with
  | .waiting t => if sel t then { w with pc := .fetch } else w
  | _ => w

/-- The lowest ticket among the suspended workers: the goroutine that has waited longest. -/
def oldestWaiter : List (Worker I) → Option Nat
  | [] => none
  | w :: ws =>
    match w.pc, oldestWaiter ws with
    | .waiting t, some u => some (min t u)
    | .waiting t, none => some t
    | _, r => r

/-- The call `pool.cond.Signal()`: wakes one goroutine waiting on the condition, if there is
any (the runtime's notify list serves tickets in the order they were taken). -/
def Pool.Signal (pool : Pool I) : Pool I :=
  match oldestWaiter pool.workers with
  | none => pool
  | some t => { pool with workers := pool.workers.map (Worker.wakeIf (fun u => u == t)) }

/-- The call `pool.cond.Broadcast()`: wakes all goroutines waiting on the condition. -/
def Pool.Broadcast (pool : Pool I) : Pool I :=
  { pool with workers := pool.workers.map (Worker.wakeIf (fun _ => true)) }

/-- The method `Pool.Push`: the pool it leaves and the error it returns. The result is `none`
when the call panics in `pool.wg.Add(1)`. -/
def Pool.Push [Inhabited I] (pool : Pool I) (item : I) : Option (Pool I × Option PoolError) :=
  if pool.state = PoolAbort then some (pool, some PoolAbortedErr)
  else
    match (if pool.numWorkers < pool.maxWorkers then pool.spawn else some pool) with
    | none => none
    | some pool1 =>
      let pool2 := { pool1 with bucket := pool1.bucket.Push item }
      some (pool2.Signal, none)

/-- The loop of `Pool.PushAll`: `for i := 0; i < len(items); i++`, leaving at the first
iteration where `numWorkers >= maxWorkers`, spawning one worker otherwise. The first argument
is the number of iterations left. -/
def Pool.spawnLoop [Inhabited I] : Nat → Pool I → Option (Pool I)
  | 0, pool => some pool
  | k + 1, pool =>
    if pool.numWorkers ≥ pool.maxWorkers then some pool
    else
      match pool.spawn with
      | none => none
      | some pool1 => Pool.spawnLoop k pool1

/-- The method `Pool.PushAll`: the pool it leaves and the error it returns. The result is
`none` when the call panics in `pool.wg.Add(1)`. -/
def Pool.PushAll [Inhabited I] (pool : Pool I) (items : List I) :
    Option (Pool I × Option PoolError) :=
  if pool.state = PoolAbort then some (pool, some PoolAbortedErr)
  else
    match Pool.spawnLoop items.length pool with
    | none => none
    | some pool1 =>
      let pool2 := { pool1 with bucket := pool1.bucket.PushAll items }
      some (pool2.Broadcast, none)

/-- The method `Pool.Finish` up to `pool.mutex.Unlock()`; the caller then calls
`pool.wg.Wait()`, the steps `wgWait` and `wgResume`. -/
def Pool.Finish (pool : Pool I) : Pool I :=
  ({ pool with state := PoolFinish }).Broadcast

/-- The method `Pool.Abort` up to `pool.mutex.Unlock()`; the caller then calls
`pool.wg.Wait()`, the steps `wgWait` and `wgResume`. -/
def Pool.Abort (pool : Pool I) : Pool I :=
  ({ pool with state := PoolAbort }).Broadcast

/-- A call of `pool.wg.Wait()` returns at once exactly when the counter of the wait group is
zero, and a caller blocked in it is released only when the counter has reached zero. -/
def Pool.waitReturns (pool : Pool I) : Bool := pool.wg.counter == 0

/-- What one pass through the body of `Pool.next` ends in. -/
inductive NextResult (I : Type) where
  /-- `return item, true` -/
  | item (x : I)
  /-- `return nil, false` -/
  | noMoreWork
  /-- the goroutine suspends in `pool.cond.Wait()` -/
  | wait
deriving DecidableEq, Repr

/-- The method `Pool.next`, from taking the mutex (or waking up inside the loop) to the point
where the goroutine returns or suspends in `cond.Wait()`. The result is `none` when
`pool.bucket.Pop()` panics. -/
def Pool.next (pool : Pool I) : Option (NextResult I × Pool I) :=
  if pool.bucket.IsEmpty then
    if pool.state = PoolFinish ∨ pool.state = PoolAbort then some (.noMoreWork, pool)
    else some (.wait, pool)
  else
    match pool.bucket.Pop with
    | none => none
    | some (item, bucket) => some (.item item, { pool with bucket := bucket })

/-- The method `Handle.Sync`: `handle.pool.PushAll(handle.items)` with the error dropped,
then `handle.items = handle.items[:0]`. The result is `none` when `PushAll` panics. -/
def Handle.Sync [Inhabited I] (handle : Handle I) (pool : Pool I) :
    Option (Handle I × Pool I) :=
  match pool.PushAll handle.items with
  | none => none
  | some r => some ({ handle with items := [] }, r.1)

/-- The two statements `handle.item = item; pool.task(&handle)` of `runWorker`. -/
def Handle.runTask (task : Task I) (handle : Handle I) (item : I) : Handle I :=
  (task ({ handle with item := item } : Handle I).Item).foldl Handle.Push
    { handle with item := item }

/-! ## The pool and its goroutines as a transition system -/

/-- The pool together with three history variables: `offered` lists every item handed to
`Pool.Push`/`Pool.PushAll` from outside or to `Handle.Push` by a task; `inserted` lists the
items accepted into the bucket, in the order they entered it; `processed` lists the items the
task was called on, in call order. -/
structure Sys (I : Type) where
  pool : Pool I
  offered : List I
  inserted : List I
  processed : List I

/-- The indivisible steps: calls from outside the pool, and the steps of worker number `w`
(its position in `pool.workers`). -/
inductive Action (I : Type) where
  /-- a caller runs `pool.Push(item)` -/
  | push (item : I)
  /-- a caller runs `pool.PushAll(items)` -/
  | pushAll (items : List I)
  /-- a caller runs the locked part of `pool.Finish()` -/
  | finish
  /-- a caller runs the locked part of `pool.Abort()` -/
  | abort
  /-- worker `w` runs `pool.next()` until it returns or suspends -/
  | next (w : Nat)
  /-- worker `w` binds the item and runs the task -/
  | task (w : Nat)
  /-- worker `w` runs `handle.Sync()` -/
  | sync (w : Nat)
  /-- worker `w` runs `atomic.AddInt32(&pool.numWorkers, -1)` -/
  | dec (w : Nat)
  /-- worker `w` runs the counter update of `pool.wg.Done()` -/
  | wgDone (w : Nat)
  /-- a caller of `Finish()` or `Abort()` that has released the mutex runs `pool.wg.Wait()`
  until it returns at once or blocks; the callers are not counted, the step is enabled in
  every state that is not `PoolRun` -/
  | wgWait
  /-- the worker whose `Done` took the counter to zero releases the blocked callers -/
  | wgRelease
  /-- a released caller resumes in `pool.wg.Wait()` and returns from `Finish()`/`Abort()` -/
  | wgResume
deriving DecidableEq, Repr

/-- Replace worker `w`. -/
def Pool.setWorker (pool : Pool I) (w : Nat) (wk : Worker I) : Pool I :=
  { pool with workers := pool.workers.set w wk }

/-- The initial system: a pool made by `New` on an empty bucket, then `SetMaxWorkers(m)`. -/
def Sys.init (numCPU : Int) (task : Task I) (bucket : Bucket I) (m : Int) : Sys I :=
  { pool := (New numCPU task bucket).SetMaxWorkers m, offered := [], inserted := [],
    processed := [] }

/-- One step of the system; `none` when the step is not enabled (no such worker, or the
worker is not at that statement) or when it panics: a panic is not recovered and ends the
program. -/
def step [Inhabited I] (s : Sys I) : Action I → Option (Sys I)
  | .push item =>
    match s.pool.Push item with
    | none => none
    | some r =>
      some { s with
        pool := r.1
        offered := s.offered ++ [item]
        inserted := if r.2 = none then s.inserted ++ [item] else s.inserted }
  | .pushAll items =>
    match s.pool.PushAll items with
    | none => none
    | some r =>
      some { s with
        pool := r.1
        offered := s.offered ++ items
        inserted := if r.2 = none then s.inserted ++ items else s.inserted }
  | .finish => some { s with pool := s.pool.Finish }
  | .abort => some { s with pool := s.pool.Abort }
  | .next w =>
    match s.pool.workers[w]? with
    | none => none
    | some wk =>
      match wk.pc with
      | .fetch =>
        match s.pool.next with
        | none => none
        | some (.item x, pool) =>
          some { s with pool := pool.setWorker w { wk with pc := .gotItem x } }
        | some (.noMoreWork, pool) =>
          some { s with pool := pool.setWorker w { wk with pc := .retiring } }
        | some (.wait, pool) =>
          some { s with
            pool := ({ pool with cond := pool.cond + 1 }).setWorker w
              { wk with pc := .waiting pool.cond } }
      | _ => none
  | .task w =>
    match s.pool.workers[w]? with
    | none => none
    | some wk =>
      match wk.pc with
      | .gotItem x =>
        some { s with
          pool := s.pool.setWorker w
            { pc := .flush, handle := wk.handle.runTask s.pool.task x }
          offered := s.offered ++ s.pool.task x
          processed := s.processed ++ [x] }
      | _ => none
  | .sync w =>
    match s.pool.workers[w]? with
    | none => none
    | some wk =>
      match wk.pc with
      | .flush =>
        match wk.handle.Sync s.pool with
        | none => none
        | some r =>
          some { s with
            pool := r.2.setWorker w { pc := .fetch, handle := r.1 }
            inserted :=
              if s.pool.state = PoolAbort then s.inserted
              else s.inserted ++ wk.handle.items }
      | _ => none
  | .dec w =>
    match s.pool.workers[w]? with
    | none => none
    | some wk =>
      match wk.pc with
      | .retiring =>
        some { s with
          pool := ({ s.pool with numWorkers := AddInt32 s.pool.numWorkers (-1) }).setWorker w
            { wk with pc := .decremented } }
      | _ => none
  | .wgDone w =>
    match s.pool.workers[w]? with
    | none => none
    | some wk =>
      match wk.pc with
      | .decremented =>
        match s.pool.wg.Done with
        | none => none
        | some wg =>
          some { s with
            pool := ({ s.pool with wg := wg }).setWorker w { wk with pc := .exited } }
      | _ => none
  | .wgWait =>
    if s.pool.state = PoolRun then none
    else some { s with pool := { s.pool with wg := s.pool.wg.Wait } }
  | .wgRelease =>
    match s.pool.wg.release with
    | none => none
    | some wg => some { s with pool := { s.pool with wg := wg } }
  | .wgResume =>
    match s.pool.wg.resume with
    | none => none
    | some wg => some { s with pool := { s.pool with wg := wg } }

/-- Run a schedule: the steps of the list, one after the other. -/
def run [Inhabited I] (s : Sys I) : List (Action I) → Option (Sys I)
  | [] => some s
  | a :: as =>
    match step s a with
    | none => none
    | some s1 => run s1 as

/-! ## Sequences of bucket operations -/

/-- An operation of a caller on a queue. -/
inductive QueueOp (D : Type) where
  | push (item : D)
  | pushAll (items : List D)
  | pop
deriving DecidableEq, Repr

/-- The values an operation inserts, in the order it inserts them. -/
def QueueOp.inserts : QueueOp D → List D
  | .push item => [item]
  | .pushAll items => items
  | .pop => []

/-- All values a sequence of operations inserts, in insertion order. -/
def QueueOp.inserted (ops : List (QueueOp D)) : List D :=
  ops.flatMap QueueOp.inserts

/-- Run a sequence of operations on a queue: the values returned by the `Pop` calls, in call
order, and the final queue; `none` when a `Pop` fails. -/
def Queue.exec : Queue D → List (QueueOp D) → Option (List D × Queue D)
  | q, [] => some ([], q)
  | q, .push item :: ops => Queue.exec (q.Push item) ops
  | q, .pushAll items :: ops => Queue.exec (q.PushAll items) ops
  | q, .pop :: ops =>
    match q.Pop with
    | none => none
    | some (v, q1) => (Queue.exec q1 ops).map (fun r => (v :: r.1, r.2))

/-- Every `Pop` of the sequence is called on a queue for which `IsEmpty()` is false. -/
def Queue.popsGuarded : Queue D → List (QueueOp D) → Bool
  | _, [] => true
  | q, .push item :: ops => Queue.popsGuarded (q.Push item) ops
  | q, .pushAll items :: ops => Queue.popsGuarded (q.PushAll items) ops
  | q, .pop :: ops =>
    !q.IsEmpty &&
      match q.Pop with
      | none => false
      | some (_, q1) => Queue.popsGuarded q1 ops

/-- Pop `n` times: the values returned, in call order, and the stack left; `none` when a
`Pop` fails. -/
def Stack.popN : Nat → Stack D → Option (List D × Stack D)
  | 0, s => some ([], s)
  | n + 1, s =>
    match s.Pop with
    | none => none
    | some (x, s1) => (Stack.popN n s1).map (fun r => (x :: r.1, r.2))

/-! ## Counting workers, schedules, invariants -/

/-- The worker is counted in `numWorkers`: started and not yet decremented. -/
def Pc.isLive : Pc I → Bool
  | .decremented => false
  | .exited => false
  | _ => true

/-- The worker is counted in the wait group: started and not yet done. -/
def Pc.isOutstanding : Pc I → Bool
  | .exited => false
  | _ => true

/-- The worker is still inside the loop of `runWorker`: it has not decided to retire. -/
def Pc.isActive : Pc I → Bool
  | .fetch => true
  | .waiting _ => true
  | .gotItem _ => true
  | .flush => true
  | _ => false

/-- The worker holds a popped item on which the task invocation is about to run or runs. -/
def Pc.inTask : Pc I → Bool
  | .gotItem _ => true
  | _ => false

/-- One or zero, as the worker's program counter satisfies the test or not. -/
def Worker.ind (f : Pc I → Bool) (w : Worker I) : Nat := if f w.pc then 1 else 0

/-- The item a worker has popped and not yet passed to the task. -/
def Worker.popped (w : Worker I) : List I :=
  match w.pc with
  | .gotItem x => [x]
  | _ => []

/-- The items a worker holds: the popped item not yet passed to the task, and the items staged
on its handle and not yet flushed. -/
def Worker.held (w : Worker I) : Multiset I := (w.popped : Multiset I) + (w.handle.items : Multiset I)

/-- Sum of a measure over the workers. -/
def total {M : Type} [AddCommMonoid M] (f : Worker I → M) (ws : List (Worker I)) : M :=
  (ws.map f).sum

/-- The popped items not yet passed to the task, by worker number. -/
def inFlight (ws : List (Worker I)) : List I := ws.flatMap Worker.popped

/-- The items staged on handles and not yet flushed, by worker number. -/
def stagedItems (ws : List (Worker I)) : List I := ws.flatMap (fun w => w.handle.items)

/-- The action is a call of `Push` or `PushAll` from outside the pool. -/
def Action.isPush : Action I → Bool
  | .push _ => true
  | .pushAll _ => true
  | _ => false

/-- The action is a call from outside the pool. -/
def Action.isExternal : Action I → Bool
  | .push _ => true
  | .pushAll _ => true
  | .finish => true
  | .abort => true
  | _ => false

/-- A schedule in which `Abort` is never called and every `Push`/`PushAll` from outside
comes before the first `Finish`; the flag says whether `Finish` has been called already. -/
def drains : Bool → List (Action I) → Bool
  | _, [] => true
  | fin, a :: as =>
    match a with
    | .abort => false
    | .finish => drains true as
    | .push _ => !fin && drains fin as
    | .pushAll _ => !fin && drains fin as
    | _ => drains fin as

/-- Bookkeeping invariant of the pool with maximum `m`: the two counters agree with the
goroutines, the live count is within the maximum, and only a worker about to flush has
staged items. -/
structure Inv (m : Int) (s : Sys I) : Prop where
  max_eq : s.pool.maxWorkers = m
  num_eq : s.pool.numWorkers = (total (Worker.ind Pc.isLive) s.pool.workers : Nat)
  num_le : s.pool.numWorkers ≤ max m 0
  wg_eq : s.pool.wg.counter = total (Worker.ind Pc.isOutstanding) s.pool.workers
  staged : ∀ w ∈ s.pool.workers, w.pc ≠ .flush → w.handle.items = []

/-- Invariant of a draining schedule: no abort has happened, every offered item is processed,
held by a worker or in the bucket, no worker retires while the pool runs, and a non-empty
bucket has a worker that will fetch again. -/
structure DrainInv (s : Sys I) : Prop where
  not_aborted : s.pool.state ≠ PoolAbort
  items : (s.offered : Multiset I) =
    (s.processed : Multiset I) + total Worker.held s.pool.workers + (s.pool.bucket.contents : Multiset I)
  running : s.pool.state = PoolRun → ∀ w ∈ s.pool.workers, w.pc.isActive = true
  covered : s.pool.bucket.contents ≠ [] → 0 < total (Worker.ind Pc.isActive) s.pool.workers

/-- The bucket is the FIFO variant. -/
def Bucket.isQueue : Bucket I → Bool
  | .stack _ => false
  | .queue _ => true

/-- The effect of an accepted `Push` or `PushAll` of `items` on the pool: `j` fresh workers
are started without passing the maximum, some suspended workers are woken, the bucket gains
the items, the rest is unchanged. -/
structure Pushed [Inhabited I] (pool : Pool I) (items : List I) (j : Nat) (pool1 : Pool I) :
    Prop where
  state_ne : pool.state ≠ PoolAbort
  state_eq : pool1.state = pool.state
  max_eq : pool1.maxWorkers = pool.maxWorkers
  task_eq : pool1.task = pool.task
  num_eq : pool1.numWorkers = pool.numWorkers + (j : Nat)
  wg_eq : pool1.wg.counter = pool.wg.counter + j
  workers_eq : ∃ sel,
    pool1.workers = (pool.workers ++ List.replicate j Worker.fresh).map (Worker.wakeIf sel)
  bound : j = 0 ∨ pool.numWorkers + (j : Nat) ≤ pool.maxWorkers
  progress : items ≠ [] → pool.numWorkers < pool.maxWorkers → 0 < j
  contents : pool1.bucket.contents = pool.bucket.contents ++ items
  kind : pool1.bucket.isQueue = pool.bucket.isQueue

/-- The steps of the system, one case per way a step can go, with the successor state
written out. -/
inductive StepSpec [Inhabited I] (s : Sys I) : Action I → Sys I → Prop where
  | pushOk (x : I) (j : Nat) (p1 : Pool I) (h : Pushed s.pool [x] j p1) :
    StepSpec s (.push x)
      { s with pool := p1, offered := s.offered ++ [x], inserted := s.inserted ++ [x] }
  | pushRejected (x : I) (h : s.pool.state = PoolAbort) :
    StepSpec s (.push x) { s with offered := s.offered ++ [x] }
  | pushAllOk (xs : List I) (j : Nat) (p1 : Pool I) (h : Pushed s.pool xs j p1) :
    StepSpec s (.pushAll xs)
      { s with pool := p1, offered := s.offered ++ xs, inserted := s.inserted ++ xs }
  | pushAllRejected (xs : List I) (h : s.pool.state = PoolAbort) :
    StepSpec s (.pushAll xs) { s with offered := s.offered ++ xs }
  | finish :
    StepSpec s .finish
      { s with pool := { s.pool with
          state := PoolFinish
          workers := s.pool.workers.map (Worker.wakeIf (fun _ => true)) } }
  | abort :
    StepSpec s .abort
      { s with pool := { s.pool with
          state := PoolAbort
          workers := s.pool.workers.map (Worker.wakeIf (fun _ => true)) } }
  | nextItem (w : Nat) (wk : Worker I) (x : I) (b : Bucket I)
      (hw : s.pool.workers[w]? = some wk) (hpc : wk.pc = .fetch)
      (hpop : s.pool.bucket.Pop = some (x, b)) :
    StepSpec s (.next w)
      { s with pool := { s.pool with
          bucket := b
          workers := s.pool.workers.set w { wk with pc := .gotItem x } } }
  | nextRetire (w : Nat) (wk : Worker I)
      (hw : s.pool.workers[w]? = some wk) (hpc : wk.pc = .fetch)
      (hempty : s.pool.bucket.contents = []) (hstate : s.pool.state ≠ PoolRun) :
    StepSpec s (.next w)
      { s with pool := { s.pool with
          workers := s.pool.workers.set w { wk with pc := .retiring } } }
  | nextWait (w : Nat) (wk : Worker I)
      (hw : s.pool.workers[w]? = some wk) (hpc : wk.pc = .fetch)
      (hempty : s.pool.bucket.contents = []) (hstate : s.pool.state = PoolRun) :
    StepSpec s (.next w)
      { s with pool := { s.pool with
          cond := s.pool.cond + 1
          workers := s.pool.workers.set w { wk with pc := .waiting s.pool.cond } } }
  | task (w : Nat) (wk : Worker I) (x : I)
      (hw : s.pool.workers[w]? = some wk) (hpc : wk.pc = .gotItem x) :
    StepSpec s (.task w)
      { s with
        pool := { s.pool with
          workers := s.pool.workers.set w
            { pc := .flush
              handle := { item := x, items := wk.handle.items ++ s.pool.task x } } }
        offered := s.offered ++ s.pool.task x
        processed := s.processed ++ [x] }
  | syncOk (w : Nat) (wk : Worker I) (j : Nat) (p1 : Pool I)
      (hw : s.pool.workers[w]? = some wk) (hpc : wk.pc = .flush)
      (h : Pushed s.pool wk.handle.items j p1) :
    StepSpec s (.sync w)
      { s with
        pool := { p1 with
          workers := p1.workers.set w
            { pc := .fetch, handle := { wk.handle with items := [] } } }
        inserted := s.inserted ++ wk.handle.items }
  | syncRejected (w : Nat) (wk : Worker I)
      (hw : s.pool.workers[w]? = some wk) (hpc : wk.pc = .flush)
      (h : s.pool.state = PoolAbort) :
    StepSpec s (.sync w)
      { s with pool := { s.pool with
          workers := s.pool.workers.set w
            { pc := .fetch, handle := { wk.handle with items := [] } } } }
  | dec (w : Nat) (wk : Worker I)
      (hw : s.pool.workers[w]? = some wk) (hpc : wk.pc = .retiring) :
    StepSpec s (.dec w)
      { s with pool := { s.pool with
          numWorkers := AddInt32 s.pool.numWorkers (-1)
          workers := s.pool.workers.set w { wk with pc := .decremented } } }
  | wgDone (w : Nat) (wk : Worker I)
      (hw : s.pool.workers[w]? = some wk) (hpc : wk.pc = .decremented)
      (hwg : s.pool.wg.counter ≠ 0) :
    StepSpec s (.wgDone w)
      { s with pool := { s.pool with
          wg := { s.pool.wg with counter := s.pool.wg.counter - 1 }
          workers := s.pool.workers.set w { wk with pc := .exited } } }
  | wgWait (wg : WaitGroup) (hc : wg.counter = s.pool.wg.counter)
      (hstate : s.pool.state ≠ PoolRun) :
    StepSpec s .wgWait { s with pool := { s.pool with wg := wg } }
  | wgRelease (wg : WaitGroup) (hc : wg.counter = s.pool.wg.counter) :
    StepSpec s .wgRelease { s with pool := { s.pool with wg := wg } }
  | wgResume (wg : WaitGroup) (hc : wg.counter = s.pool.wg.counter) :
    StepSpec s .wgResume { s with pool := { s.pool with wg := wg } }

/-- Order invariant of a queue served by at most one worker: the items entered the bucket in
the order processed, then in flight, then still queued. -/
structure FifoInv (s : Sys I) : Prop where
  queue : s.pool.bucket.isQueue = true
  order : s.inserted = s.processed ++ inFlight s.pool.workers ++ s.pool.bucket.contents

/-- Discovery invariant of a pool served by at most one worker, after the pushes `ext` from
outside: what entered the bucket or is staged is `ext` followed by the items the task staged
for each processed item, in processing order. -/
structure DiscoveryInv (task : Task I) (ext : List I) (s : Sys I) : Prop where
  task_eq : s.pool.task = task
  found : s.inserted ++ stagedItems s.pool.workers = ext ++ s.processed.flatMap task

/-- Order invariant of a stack served by at most one worker once the pushes are over, for a
task that stages nothing: processed, in flight and the stack read from its top make up the
fixed sequence `target`. -/
structure LifoInv (target : List I) (s : Sys I) : Prop where
  stack : s.pool.bucket.isQueue = false
  no_stage : ∀ x, s.pool.task x = []
  unstaged : ∀ w ∈ s.pool.workers, w.handle.items = []
  order : s.processed ++ inFlight s.pool.workers ++ s.pool.bucket.contents.reverse = target

/-- The step is a worker step or `Finish`: no push from outside, no abort. -/
def Action.isQuiet : Action I → Bool
  | .push _ => false
  | .pushAll _ => false
  | .abort => false
  | _ => true

/-! ## Concrete schedules -/

/-- A task on numbers: below two it stages the successor, otherwise nothing. -/
def countUp : Task Nat := fun n => if n < 2 then [n + 1] else []

/-- A task that never stages an item. -/
def noStage : Task Nat := fun _ => []

/-- A schedule on a stack with two workers: two items pushed at once, both workers run,
`Finish` is called while they work, the staged items are drained, both workers retire. -/
def drainSchedule : List (Action Nat) :=
  [.pushAll [0, 5], .next 0, .next 1, .task 0, .finish, .task 1, .sync 1, .sync 0, .next 1,
   .next 0, .task 1, .sync 1, .next 1, .task 1, .sync 1, .next 1, .dec 0, .dec 1, .wgDone 1,
   .wgDone 0]

/-- The state a schedule ends in, or the given state when the schedule cannot run. -/
def finalState [Inhabited I] (s : Sys I) (tr : List (Action I)) : Sys I :=
  (run s tr).getD s

/-- A queue pool with two workers, two items pushed, the first one fetched. -/
def abortStart : Sys Nat :=
  finalState (Sys.init 4 noStage (.queue NewQueue) 2) [.push 1, .push 2, .next 0]

/-- The state right after `Abort()` was called in `abortStart`. -/
def abortCalled : Sys Nat := finalState abortStart [.abort]

/-- A schedule after the abort, without `Finish`. -/
def abortSchedule : List (Action Nat) := [.task 0, .push 3, .sync 0, .abort, .next 1]

/-- The state `abortSchedule` leads to from `abortCalled`. -/
def abortLater : Sys Nat := finalState abortCalled abortSchedule

/-- A stack pool with a maximum of zero workers, after `Push(7)` and `Finish()`. -/
def zeroWorkers : Sys Nat :=
  finalState (Sys.init 4 noStage (.stack NewStack) 0) [.push 7, .finish]

/-- A queue pool on which `Abort()` and then `Finish()` were called. -/
def abortThenFinish : Sys Nat :=
  finalState (Sys.init 4 noStage (.queue NewQueue) 2) [.abort, .finish]

/-- The task of the scenario: an item shorter than two characters stages the item followed by
`a` and the item followed by `b`. -/
def abTask : Task String :=
  fun item => if item.length < 2 then [item ++ "a", item ++ "b"] else []

/-- One round of a worker: fetch, run the task, flush. -/
def workerRound (w : Nat) : List (Action String) := [.next w, .task w, .sync w]

/-- A schedule of the scenario: `Push("")`, one round, `Finish()`, six more rounds, then the
worker finds the queue empty and retires. -/
def abSchedule : List (Action String) :=
  [.push ""] ++ workerRound 0 ++ [.finish] ++ workerRound 0 ++ workerRound 0 ++ workerRound 0
    ++ workerRound 0 ++ workerRound 0 ++ workerRound 0 ++ [.next 0, .dec 0, .wgDone 0]

/-- A schedule on a stack with one worker in which the worker runs between the two pushes. -/
def eagerSchedule : List (Action Nat) :=
  [.push 1, .next 0, .task 0, .sync 0, .push 2, .finish, .next 0, .task 0, .sync 0, .next 0,
   .dec 0, .wgDone 0]

/-- The state `eagerSchedule` ends in. -/
def eagerFinal : Sys Nat :=
  finalState (Sys.init 4 noStage (.stack NewStack) 1) eagerSchedule

/-- A schedule after three pushes on a stack with one worker: the worker drains the stack,
`Finish` is called on the way, the worker retires. -/
def lateSchedule : List (Action Nat) :=
  [.next 0, .task 0, .finish, .sync 0, .next 0, .task 0, .sync 0, .next 0, .task 0, .sync 0,
   .next 0, .dec 0, .wgDone 0]

/-- A running pool over a stack that holds one item, no worker started, maximum four. -/
def stackPool : Pool Nat := New 4 noStage (.stack { data := [7] })

/-- A running pool over an empty queue, no worker started, maximum two. -/
def queuePool : Pool Nat := (New 4 noStage (.queue NewQueue)).SetMaxWorkers 2

/-! ## Repeated pushes, and more concrete schedules -/

/-- Call `Push` on each item of the list, in order, with no other step in between: the pool
after the last call and the error the last call returned (nil when there is no call); `none`
when one of the calls panics. -/
def Pool.pushEach [Inhabited I] (pool : Pool I) : List I → Option (Pool I × Option PoolError)
  | [] => some (pool, none)
  | [x] => pool.Push x
  | x :: y :: rest =>
    match pool.Push x with
    | none => none
    | some r => Pool.pushEach r.1 (y :: rest)

/-- A queue pool on which `Finish()` and then `Abort()` were called. -/
def finishThenAbort : Sys Nat :=
  finalState (Sys.init 4 noStage (.queue NewQueue) 2) [.finish, .abort]

/-- A schedule on a queue with one worker: the worker processes the first item, `Finish()` is
called, the worker finds the queue empty and decides to retire; before it decrements the
counter, `Push(2)` arrives from outside; then the worker decrements and is done. -/
def strandSchedule : List (Action Nat) :=
  [.push 1, .next 0, .task 0, .sync 0, .finish, .next 0, .push 2, .dec 0, .wgDone 0]

/-- The state just before the late `Push(2)` of `strandSchedule`. -/
def strandBefore : Sys Nat :=
  finalState (Sys.init 4 noStage (.queue NewQueue) 1)
    [.push 1, .next 0, .task 0, .sync 0, .finish, .next 0]

/-- The state `strandSchedule` ends in. -/
def strandFinal : Sys Nat :=
  finalState (Sys.init 4 noStage (.queue NewQueue) 1) strandSchedule

/-- A stack pool with two workers in which `Finish()` has returned: two items were pushed and
processed, both workers have retired. -/
def finishedSchedule : List (Action Nat) :=
  [.pushAll [1, 2], .next 0, .next 1, .task 0, .task 1, .sync 0, .sync 1, .finish, .next 0,
   .next 1, .dec 0, .dec 1, .wgDone 0, .wgDone 1]

/-- The state `finishedSchedule` ends in. -/
def finishedFinal : Sys Nat :=
  finalState (Sys.init 4 noStage (.stack NewStack) 2) finishedSchedule

/-- A schedule on a stack in which worker 0 processes `0`, flushes the staged `1`, and fetches
it. -/
def secondFetch : List (Action Nat) :=
  [.push 0, .next 0, .task 0, .sync 0, .next 0]

/-- The state `secondFetch` ends in: worker 0 holds the item `1` for the task. -/
def secondFetchFinal : Sys Nat :=
  finalState (Sys.init 4 countUp (.stack NewStack) 1) secondFetch

/-- A schedule on a queue with one worker: the worker processes the item, `Finish()` is called
and its caller blocks in `wg.Wait()`; the worker finds the queue empty, retires, decrements
the live-worker counter and runs the counter update of `wg.Done()`, which takes the wait
group to zero; the blocked caller is not yet released. -/
def misuseSchedule : List (Action Nat) :=
  [.push 1, .next 0, .task 0, .sync 0, .finish, .wgWait, .next 0, .dec 0, .wgDone 0]

/-- The state `misuseSchedule` ends in. -/
def misuseState : Sys Nat :=
  finalState (Sys.init 4 noStage (.queue NewQueue) 1) misuseSchedule

/-! ## The buckets -/

theorem Stack.Pop_Push (s : Stack D) (x : D) : (s.Push x).Pop = some (x, s) := by
  simp [Stack.Pop, Stack.Push]

theorem Stack.foldl_Push (xs : List D) (s : Stack D) :
    xs.foldl Stack.Push s = s.PushAll xs := by
  induction xs generalizing s with
  | nil => simp [Stack.PushAll]
  | cons x xs ih => simp [ih, Stack.PushAll, Stack.Push]

theorem Stack.popN_PushAll (xs : List D) (s : Stack D) :
    Stack.popN xs.length (s.PushAll xs) = some (xs.reverse, s) := by
  induction xs using List.reverseRecOn generalizing s with
  | nil => simp [Stack.popN, Stack.PushAll]
  | append_singleton xs x ih =>
    have h : s.PushAll (xs ++ [x]) = (s.PushAll xs).Push x := by
      simp [Stack.PushAll, Stack.Push]
    simp [Stack.popN, h, Stack.Pop_Push, ih]

theorem Queue.PushAll_elems (xs : List D) (q : Queue D) :
    (q.PushAll xs).data.elems = q.data.elems ++ xs := by
  unfold Queue.PushAll
  induction xs generalizing q with
  | nil => simp
  | cons x xs ih => simp [ih, Queue.Push, LinkedList.PushBack]

theorem Queue.Pop_eq (q : Queue D) :
    q.Pop = match q.data.elems with
      | [] => none
      | x :: rest => some (x, { data := { elems := rest } }) := by
  cases q with
  | mk data =>
    cases data with
    | mk elems =>
      cases elems <;> simp [Queue.Pop, LinkedList.Remove, LinkedList.Front]

theorem Queue.exec_elems (ops : List (QueueOp D)) (q : Queue D) (out : List D) (q1 : Queue D)
    (h : Queue.exec q ops = some (out, q1)) :
    q.data.elems ++ QueueOp.inserted ops = out ++ q1.data.elems := by
  induction ops generalizing q out with
  | nil => simp [Queue.exec] at h; obtain ⟨rfl, rfl⟩ := h; simp [QueueOp.inserted]
  | cons op ops ih =>
    cases op with
    | push item =>
      simp only [Queue.exec] at h
      have := ih _ _ h
      simpa [QueueOp.inserted, QueueOp.inserts, Queue.Push, LinkedList.PushBack] using this
    | pushAll items =>
      simp only [Queue.exec] at h
      have := ih _ _ h
      simpa [QueueOp.inserted, QueueOp.inserts, Queue.PushAll_elems] using this
    | pop =>
      simp only [Queue.exec, Queue.Pop_eq] at h
      cases hq : q.data.elems with
      | nil => simp [hq] at h
      | cons x rest =>
        simp only [hq] at h
        cases hr : Queue.exec { data := { elems := rest } } ops with
        | none => simp [hr] at h
        | some r =>
          simp [hr] at h
          obtain ⟨rfl, rfl⟩ := h
          have := ih _ _ hr
          simpa [QueueOp.inserted, QueueOp.inserts] using this

theorem Queue.exec_of_guarded (ops : List (QueueOp D)) (q : Queue D)
    (h : Queue.popsGuarded q ops = true) : ∃ r, Queue.exec q ops = some r := by
  induction ops generalizing q with
  | nil => exact ⟨_, rfl⟩
  | cons op ops ih =>
    cases op with
    | push item => exact ih _ h
    | pushAll items => exact ih _ h
    | pop =>
      simp only [Queue.popsGuarded, Bool.and_eq_true] at h
      simp only [Queue.exec]
      cases hp : q.Pop with
      | none => simp [hp] at h
      | some r =>
        simp only [hp] at h
        obtain ⟨r1, hr1⟩ := ih _ h.2
        exact ⟨(r.1 :: r1.1, r1.2), by simp [hr1]⟩

/-- C8: on a queue, for every interleaving of `Push`, `PushAll` and `Pop` in which `Pop` is
only called on a non-empty queue, every call succeeds, the values returned by `Pop` are a
prefix of the values inserted, in insertion order, and `IsEmpty()` is true exactly when every
inserted value has been popped. -/
theorem C8_queue_fifo (ops : List (QueueOp D))
    (h : Queue.popsGuarded (NewQueue : Queue D) ops = true) :
    ∃ out q, Queue.exec (NewQueue : Queue D) ops = some (out, q) ∧
      out ++ q.data.elems = QueueOp.inserted ops ∧
      out <+: QueueOp.inserted ops ∧
      (q.IsEmpty = true ↔ out = QueueOp.inserted ops) := by
  obtain ⟨⟨out, q⟩, hr⟩ := Queue.exec_of_guarded ops _ h
  have he := Queue.exec_elems ops _ out q hr
  simp only [NewQueue, NewList, LinkedList.Init, List.nil_append] at he
  refine ⟨out, q, hr, he.symm, ⟨q.data.elems, he.symm⟩, ?_⟩
  rw [he]
  simp [Queue.IsEmpty, LinkedList.Len]

theorem C8_queue_fifo_witness :
    Queue.popsGuarded (NewQueue : Queue Nat) [.push 1, .pushAll [2, 3], .pop, .push 4, .pop] = true ∧
    ∃ out q, Queue.exec (NewQueue : Queue Nat) [.push 1, .pushAll [2, 3], .pop, .push 4, .pop]
        = some (out, q) ∧
      out ++ q.data.elems = QueueOp.inserted [.push 1, .pushAll [2, 3], .pop, .push 4, .pop] ∧
      out <+: QueueOp.inserted [.push 1, .pushAll [2, 3], .pop, .push 4, .pop] ∧
      (q.IsEmpty = true ↔ out = QueueOp.inserted [.push 1, .pushAll [2, 3], .pop, .push 4, .pop]) :=
  ⟨by decide, C8_queue_fifo _ (by decide)⟩

/-- C9: for every stack `s` and items `x1..xn` inserted in that order, by `n` calls of `Push`
or by one `PushAll`, the next `n` calls of `Pop` return `xn, ..., x1` and leave exactly `s`;
in particular `Pop` right after `Push(x)` returns `x` and restores `s`. -/
theorem C9_stack_lifo (s : Stack D) (xs : List D) (x : D) :
    Stack.popN xs.length (xs.foldl Stack.Push s) = some (xs.reverse, s) ∧
    Stack.popN xs.length (s.PushAll xs) = some (xs.reverse, s) ∧
    (s.Push x).Pop = some (x, s) := by
  refine ⟨?_, Stack.popN_PushAll xs s, Stack.Pop_Push s x⟩
  rw [Stack.foldl_Push]; exact Stack.popN_PushAll xs s

/-! ## Machine integers and the condition variable -/

theorem wrapInt32_of_isInt32 {z : Int} (h : IsInt32 z) : wrapInt32 z = z := by
  unfold IsInt32 at h
  unfold wrapInt32
  omega

@[simp] theorem Worker.wakeIf_handle (sel : Nat → Bool) (w : Worker I) :
    (w.wakeIf sel).handle = w.handle := by
  unfold Worker.wakeIf
  split
  · split <;> rfl
  · rfl

theorem Worker.wakeIf_pc (sel : Nat → Bool) (w : Worker I) :
    (w.wakeIf sel).pc = w.pc ∨ ((∃ t, w.pc = .waiting t) ∧ (w.wakeIf sel).pc = .fetch) := by
  unfold Worker.wakeIf
  split
  · rename_i t ht
    split
    · exact Or.inr ⟨⟨t, ht⟩, rfl⟩
    · exact Or.inl rfl
  · exact Or.inl rfl

theorem Worker.wakeIf_of_not_waiting (sel : Nat → Bool) (w : Worker I)
    (h : ∀ t, w.pc ≠ .waiting t) : w.wakeIf sel = w := by
  unfold Worker.wakeIf
  split
  · rename_i t ht; exact absurd ht (h t)
  · rfl

/-- What `Signal` and `Broadcast` do to the pool: they wake some of the suspended workers and
touch nothing else. -/
theorem Pool.Signal_eq (pool : Pool I) :
    ∃ sel, pool.Signal = { pool with workers := pool.workers.map (Worker.wakeIf sel) } := by
  unfold Pool.Signal
  split
  · refine ⟨fun _ => false, ?_⟩
    have : pool.workers.map (Worker.wakeIf (fun _ => false)) = pool.workers := by
      conv_rhs => rw [← List.map_id pool.workers]
      apply List.map_congr_left
      intro w _
      unfold Worker.wakeIf
      split <;> simp
    rw [this]
  · exact ⟨_, rfl⟩

theorem Pool.Broadcast_eq (pool : Pool I) :
    pool.Broadcast = { pool with workers := pool.workers.map (Worker.wakeIf (fun _ => true)) } :=
  rfl

/-! ## `Push` and `PushAll` on one pool state -/

theorem Bucket.contents_Push (b : Bucket I) (x : I) :
    (b.Push x).contents = b.contents ++ [x] := by
  cases b <;> simp [Bucket.Push, Bucket.contents, Stack.Push, Queue.Push, LinkedList.PushBack]

theorem Bucket.contents_PushAll (b : Bucket I) (xs : List I) :
    (b.PushAll xs).contents = b.contents ++ xs := by
  cases b <;> simp [Bucket.PushAll, Bucket.contents, Stack.PushAll, Queue.PushAll_elems]

theorem Bucket.IsEmpty_iff (b : Bucket I) : b.IsEmpty = true ↔ b.contents = [] := by
  cases b <;>
    simp [Bucket.IsEmpty, Bucket.contents, Stack.IsEmpty, Queue.IsEmpty, LinkedList.Len]

/-! ## The wait group -/

theorem WaitGroup.Add_one (wg : WaitGroup) :
    wg.Add 1 = if wg.waiters ≠ 0 ∧ wg.counter = 0 then none
      else some { wg with counter := wg.counter + 1 } := by
  unfold WaitGroup.Add
  have h0 : ¬ ((wg.counter : Int) + 1 < 0) := by omega
  rw [if_neg h0]
  by_cases hw : wg.waiters ≠ 0 ∧ wg.counter = 0
  · have : wg.waiters ≠ 0 ∧ (0 : Int) < 1 ∧ (wg.counter : Int) + 1 = 1 :=
      ⟨hw.1, by omega, by omega⟩
    rw [if_pos this, if_pos hw]
  · have : ¬ (wg.waiters ≠ 0 ∧ (0 : Int) < 1 ∧ (wg.counter : Int) + 1 = 1) := by
      intro h; exact hw ⟨h.1, by omega⟩
    rw [if_neg this, if_neg hw]
    have e : ((wg.counter : Int) + 1).toNat = wg.counter + 1 := by omega
    rw [e]

theorem WaitGroup.Done_eq (wg : WaitGroup) :
    wg.Done = if wg.counter = 0 then none
      else some { wg with counter := wg.counter - 1 } := by
  unfold WaitGroup.Done WaitGroup.Add
  by_cases h0 : wg.counter = 0
  · have : (wg.counter : Int) + -1 < 0 := by omega
    rw [if_pos this, if_pos h0]
  · have h1 : ¬ ((wg.counter : Int) + -1 < 0) := by omega
    have h2 : ¬ (wg.waiters ≠ 0 ∧ (0 : Int) < -1 ∧ (wg.counter : Int) + -1 = -1) := by
      intro h; omega
    rw [if_neg h1, if_neg h2, if_neg h0]
    have e : ((wg.counter : Int) + -1).toNat = wg.counter - 1 := by omega
    rw [e]

/-- Outside the window in which the counter is zero and callers wait, a spawn starts one
worker. -/
theorem Pool.spawn_of_safe [Inhabited I] (pool : Pool I)
    (hsafe : pool.wg.waiters = 0 ∨ pool.wg.counter ≠ 0) :
    pool.spawn = some { pool with
      numWorkers := AddInt32 pool.numWorkers 1
      wg := { pool.wg with counter := pool.wg.counter + 1 }
      workers := pool.workers ++ [Worker.fresh] } := by
  unfold Pool.spawn
  have : ¬ (pool.wg.waiters ≠ 0 ∧ pool.wg.counter = 0) := by
    intro h; rcases hsafe with h1 | h1
    · exact h.1 h1
    · exact h1 h.2
  rw [WaitGroup.Add_one, if_neg this]

/-- In the window in which the counter is zero and callers wait, a spawn panics. -/
theorem Pool.spawn_of_misuse [Inhabited I] (pool : Pool I)
    (hw : pool.wg.waiters ≠ 0) (hc : pool.wg.counter = 0) : pool.spawn = none := by
  unfold Pool.spawn
  rw [WaitGroup.Add_one, if_pos ⟨hw, hc⟩]

theorem Pool.spawnLoop_of_full [Inhabited I] (k : Nat) (p : Pool I)
    (h : p.numWorkers ≥ p.maxWorkers) : Pool.spawnLoop k p = some p := by
  cases k with
  | zero => rfl
  | succ k => unfold Pool.spawnLoop; rw [if_pos h]

/-- The spawn loop of `PushAll` starts `min k (max 0 (m - n))` workers, outside the window in
which `wg.Add` panics. -/
theorem Pool.spawnLoop_eq [Inhabited I] (k : Nat) (pool : Pool I)
    (hn : IsInt32 pool.numWorkers) (hm : IsInt32 pool.maxWorkers)
    (hsafe : pool.wg.waiters = 0 ∨ pool.wg.counter ≠ 0) :
    Pool.spawnLoop k pool =
      some { pool with
        numWorkers := pool.numWorkers + (min k (max 0 (pool.maxWorkers - pool.numWorkers)).toNat : Nat)
        wg := { pool.wg with
          counter := pool.wg.counter + min k (max 0 (pool.maxWorkers - pool.numWorkers)).toNat }
        workers := pool.workers ++
          List.replicate (min k (max 0 (pool.maxWorkers - pool.numWorkers)).toNat) Worker.fresh } := by
  induction k generalizing pool with
  | zero => simp [Pool.spawnLoop]
  | succ k ih =>
    unfold Pool.spawnLoop
    by_cases hge : pool.numWorkers ≥ pool.maxWorkers
    · have h0 : (max 0 (pool.maxWorkers - pool.numWorkers)).toNat = 0 := by omega
      simp [hge, h0]
    · have hw : AddInt32 pool.numWorkers 1 = pool.numWorkers + 1 := by
        unfold AddInt32
        apply wrapInt32_of_isInt32
        unfold IsInt32 at *
        omega
      rw [if_neg hge, Pool.spawn_of_safe pool hsafe]
      show Pool.spawnLoop k _ = _
      refine (ih _ ?_ ?_ ?_).trans ?_
      · simp only [hw]; unfold IsInt32 at *; omega
      · exact hm
      · exact Or.inr (by simp)
      · simp only [hw]
        have e : min (k + 1) (max 0 (pool.maxWorkers - pool.numWorkers)).toNat
            = min k (max 0 (pool.maxWorkers - (pool.numWorkers + 1))).toNat + 1 := by omega
        rw [e]
        congr 2
        · push_cast; omega
        · congr 1; omega
        · simp [List.replicate_succ]

/-- Whenever the spawn loop returns, it has started some number `j` of workers without passing
the maximum, and at least one when there was room and an iteration to run. -/
theorem Pool.spawnLoop_some [Inhabited I] (k : Nat) (pool p1 : Pool I)
    (hn : IsInt32 pool.numWorkers) (hm : IsInt32 pool.maxWorkers)
    (h : Pool.spawnLoop k pool = some p1) :
    ∃ j : Nat, (j = 0 ∨ pool.numWorkers + (j : Nat) ≤ pool.maxWorkers) ∧
      (0 < k → pool.numWorkers < pool.maxWorkers → 0 < j) ∧
      p1 = { pool with
        numWorkers := pool.numWorkers + (j : Nat)
        wg := { pool.wg with counter := pool.wg.counter + j }
        workers := pool.workers ++ List.replicate j Worker.fresh } := by
  by_cases hsafe : pool.wg.waiters = 0 ∨ pool.wg.counter ≠ 0
  · rw [Pool.spawnLoop_eq k pool hn hm hsafe] at h
    refine ⟨min k (max 0 (pool.maxWorkers - pool.numWorkers)).toNat, ?_, ?_, (Option.some.inj h).symm⟩
    · omega
    · intro hk hlt; omega
  · have hw : pool.wg.waiters ≠ 0 := fun h0 => hsafe (Or.inl h0)
    have hc : pool.wg.counter = 0 := by
      by_contra h0; exact hsafe (Or.inr h0)
    cases k with
    | zero =>
      simp only [Pool.spawnLoop, Option.some.injEq] at h
      exact ⟨0, Or.inl rfl, fun hk => absurd hk (by omega), by subst h; simp⟩
    | succ k =>
      by_cases hge : pool.numWorkers ≥ pool.maxWorkers
      · rw [Pool.spawnLoop_of_full _ _ hge] at h
        exact ⟨0, Or.inl rfl, fun _ hlt => absurd hlt (by omega),
          by rw [← Option.some.inj h]; simp⟩
      · unfold Pool.spawnLoop at h
        rw [if_neg hge, Pool.spawn_of_misuse pool hw hc] at h
        cases h

/-- Outside the window in which `wg.Add` panics, the spawn loop returns. -/
theorem Pool.spawnLoop_isSome [Inhabited I] (k : Nat) (pool : Pool I)
    (hsafe : pool.wg.waiters = 0 ∨ pool.wg.counter ≠ 0) :
    ∃ p, Pool.spawnLoop k pool = some p := by
  induction k generalizing pool with
  | zero => exact ⟨pool, rfl⟩
  | succ k ih =>
    unfold Pool.spawnLoop
    by_cases hge : pool.numWorkers ≥ pool.maxWorkers
    · exact ⟨pool, by rw [if_pos hge]⟩
    · rw [if_neg hge, Pool.spawn_of_safe pool hsafe]
      exact ih _ (Or.inr (by simp))

theorem Pool.Push_aborted [Inhabited I] (pool : Pool I) (x : I) (hs : pool.state = PoolAbort) :
    pool.Push x = some (pool, some PoolAbortedErr) := by
  simp [Pool.Push, hs]

theorem Pool.PushAll_aborted [Inhabited I] (pool : Pool I) (xs : List I)
    (hs : pool.state = PoolAbort) :
    pool.PushAll xs = some (pool, some PoolAbortedErr) := by
  simp [Pool.PushAll, hs]

/-- In a state that is not `PoolAbort` a `Push` that returns has returned nil. -/
theorem Pool.Push_returns_nil [Inhabited I] (pool : Pool I) (x : I)
    (hs : pool.state ≠ PoolAbort) (r : Pool I × Option PoolError)
    (h : pool.Push x = some r) : r.2 = none := by
  unfold Pool.Push at h
  rw [if_neg hs] at h
  split at h
  · cases h
  · simp only [Option.some.injEq] at h
    rw [← h]

/-- In a state that is not `PoolAbort` a `PushAll` that returns has returned nil. -/
theorem Pool.PushAll_returns_nil [Inhabited I] (pool : Pool I) (xs : List I)
    (hs : pool.state ≠ PoolAbort) (r : Pool I × Option PoolError)
    (h : pool.PushAll xs = some r) : r.2 = none := by
  unfold Pool.PushAll at h
  rw [if_neg hs] at h
  split at h
  · cases h
  · simp only [Option.some.injEq] at h
    rw [← h]

/-- C2: `Push` and `PushAll` return `PoolAbortedErr` exactly when the lifecycle state is
`PoolAbort`, and then the pool (bucket, live-worker count, lifecycle state, wait group,
goroutines) is unchanged. In every other state a call that returns has returned nil, and the
call does return unless `wg.Add` panics, which takes the wait group at zero with callers
waiting. -/
theorem C2_push_rejected_iff_aborting [Inhabited I] (pool : Pool I) (item : I)
    (items : List I) :
    ((pool.Push item).map Prod.snd = some (some PoolAbortedErr) ↔ pool.state = PoolAbort) ∧
    ((pool.PushAll items).map Prod.snd = some (some PoolAbortedErr) ↔
      pool.state = PoolAbort) ∧
    (∀ p, pool.Push item = some (p, some PoolAbortedErr) → p = pool) ∧
    (∀ p, pool.PushAll items = some (p, some PoolAbortedErr) → p = pool) ∧
    (pool.state = PoolAbort →
      pool.Push item = some (pool, some PoolAbortedErr) ∧
      pool.PushAll items = some (pool, some PoolAbortedErr)) ∧
    (pool.state ≠ PoolAbort →
      (∀ r, pool.Push item = some r → r.2 = none) ∧
      (∀ r, pool.PushAll items = some r → r.2 = none)) ∧
    (pool.state ≠ PoolAbort → (pool.wg.waiters = 0 ∨ pool.wg.counter ≠ 0) →
      (pool.Push item).map Prod.snd = some none ∧
      (pool.PushAll items).map Prod.snd = some none) := by
  by_cases h : pool.state = PoolAbort
  · have h1 := Pool.Push_aborted pool item h
    have h2 := Pool.PushAll_aborted pool items h
    refine ⟨by simp [h1, h], by simp [h2, h], ?_, ?_, fun _ => ⟨h1, h2⟩,
      fun hne => absurd h hne, fun hne => absurd h hne⟩
    · intro p hp; rw [h1] at hp; simp at hp; exact hp.symm
    · intro p hp; rw [h2] at hp; simp at hp; exact hp.symm
  · have n1 := Pool.Push_returns_nil pool item h
    have n2 := Pool.PushAll_returns_nil pool items h
    refine ⟨?_, ?_, ?_, ?_, fun he => absurd he h, fun _ => ⟨n1, n2⟩, ?_⟩
    · constructor
      · intro he
        cases hp : pool.Push item with
        | none => simp [hp] at he
        | some r => have := n1 r hp; simp [hp, this] at he
      · intro he; exact absurd he h
    · constructor
      · intro he
        cases hp : pool.PushAll items with
        | none => simp [hp] at he
        | some r => have := n2 r hp; simp [hp, this] at he
      · intro he; exact absurd he h
    · intro p hp; have := n1 _ hp; simp at this
    · intro p hp; have := n2 _ hp; simp at this
    · intro _ hsafe
      constructor
      · unfold Pool.Push
        rw [if_neg h]
        by_cases hlt : pool.numWorkers < pool.maxWorkers
        · rw [if_pos hlt, Pool.spawn_of_safe pool hsafe]; rfl
        · rw [if_neg hlt]; rfl
      · obtain ⟨p, hp⟩ := Pool.spawnLoop_isSome items.length pool hsafe
        unfold Pool.PushAll
        rw [if_neg h, hp]; rfl

/-- The spawn loop panics exactly when it has a round to run, the count is below the maximum
and the wait group is at zero with a waiter registered. -/
theorem Pool.spawnLoop_eq_none_iff [Inhabited I] (k : Nat) (pool : Pool I) :
    Pool.spawnLoop k pool = none ↔
      0 < k ∧ pool.numWorkers < pool.maxWorkers ∧
      pool.wg.waiters ≠ 0 ∧ pool.wg.counter = 0 := by
  cases k with
  | zero => simp [Pool.spawnLoop]
  | succ k =>
    unfold Pool.spawnLoop
    by_cases hge : pool.numWorkers ≥ pool.maxWorkers
    · have hlt : ¬ pool.numWorkers < pool.maxWorkers := by omega
      simp [hge, hlt]
    · have hlt : pool.numWorkers < pool.maxWorkers := by omega
      rw [if_neg hge]
      by_cases hmis : pool.wg.waiters ≠ 0 ∧ pool.wg.counter = 0
      · rw [Pool.spawn_of_misuse pool hmis.1 hmis.2]
        simp [hlt, hmis.1, hmis.2]
      · have hsafe : pool.wg.waiters = 0 ∨ pool.wg.counter ≠ 0 := by
          by_cases h0 : pool.wg.waiters = 0
          · exact Or.inl h0
          · exact Or.inr (fun hc => hmis ⟨h0, hc⟩)
        rw [Pool.spawn_of_safe pool hsafe]
        obtain ⟨p, hp⟩ := Pool.spawnLoop_isSome k
          ({ pool with
            numWorkers := AddInt32 pool.numWorkers 1
            wg := { pool.wg with counter := pool.wg.counter + 1 }
            workers := pool.workers ++ [Worker.fresh] } : Pool I) (Or.inr (by simp))
        constructor
        · intro h
          have h1 : Pool.spawnLoop k
              ({ pool with
                numWorkers := AddInt32 pool.numWorkers 1
                wg := { pool.wg with counter := pool.wg.counter + 1 }
                workers := pool.workers ++ [Worker.fresh] } : Pool I) = none := h
          rw [hp] at h1
          cases h1
        · intro h
          exact absurd ⟨h.2.2.1, h.2.2.2⟩ hmis

/-- The method `Push` panics exactly when the state is not `PoolAbort`, the count is below the
maximum, and the wait group is at zero with a waiter registered. -/
theorem Pool.Push_eq_none_iff [Inhabited I] (pool : Pool I) (x : I) :
    pool.Push x = none ↔
      pool.state ≠ PoolAbort ∧ pool.numWorkers < pool.maxWorkers ∧
      pool.wg.waiters ≠ 0 ∧ pool.wg.counter = 0 := by
  unfold Pool.Push
  by_cases hs : pool.state = PoolAbort
  · simp [hs]
  · rw [if_neg hs]
    by_cases hlt : pool.numWorkers < pool.maxWorkers
    · rw [if_pos hlt]
      by_cases hmis : pool.wg.waiters ≠ 0 ∧ pool.wg.counter = 0
      · rw [Pool.spawn_of_misuse pool hmis.1 hmis.2]
        simp [hs, hlt, hmis.1, hmis.2]
      · have hsafe : pool.wg.waiters = 0 ∨ pool.wg.counter ≠ 0 := by
          by_cases h0 : pool.wg.waiters = 0
          · exact Or.inl h0
          · exact Or.inr (fun hc => hmis ⟨h0, hc⟩)
        rw [Pool.spawn_of_safe pool hsafe]
        constructor
        · intro h; cases h
        · intro h; exact absurd ⟨h.2.2.1, h.2.2.2⟩ hmis
    · rw [if_neg hlt]
      constructor
      · intro h; cases h
      · intro h; exact absurd h.2.1 hlt

/-- The method `PushAll` panics exactly when the state is not `PoolAbort`, the list is not
empty, the count is below the maximum, and the wait group is at zero with a waiter
registered. -/
theorem Pool.PushAll_eq_none_iff [Inhabited I] (pool : Pool I) (xs : List I) :
    pool.PushAll xs = none ↔
      pool.state ≠ PoolAbort ∧ xs ≠ [] ∧ pool.numWorkers < pool.maxWorkers ∧
      pool.wg.waiters ≠ 0 ∧ pool.wg.counter = 0 := by
  unfold Pool.PushAll
  by_cases hs : pool.state = PoolAbort
  · simp [hs]
  · rw [if_neg hs]
    have hk := Pool.spawnLoop_eq_none_iff xs.length pool
    cases hp : Pool.spawnLoop xs.length pool with
    | none =>
      have := hk.mp hp
      simp only [true_iff]
      exact ⟨hs, List.length_pos.mp this.1, this.2⟩
    | some p1 =>
      constructor
      · intro h; cases h
      · intro h
        have := hk.mpr ⟨List.length_pos.mpr h.2.1, h.2.2⟩
        rw [hp] at this
        cases this

/-- Whenever `Push(x)` returns in a state that is not `PoolAbort`, it returns nil, the bucket
has gained exactly `x` after the items it held, the lifecycle state is as it was, and one
worker was started (count, wait group and goroutines each grow by one) when the count was
below the maximum, and none otherwise. -/
theorem Pool.Push_returned [Inhabited I] (pool : Pool I) (x : I)
    (hn : IsInt32 pool.numWorkers) (hm : IsInt32 pool.maxWorkers)
    (hs : pool.state ≠ PoolAbort) (r : Pool I × Option PoolError)
    (h : pool.Push x = some r) :
    r.2 = none ∧
    r.1.bucket = pool.bucket.Push x ∧
    r.1.bucket.contents = pool.bucket.contents ++ [x] ∧
    r.1.state = pool.state ∧
    r.1.maxWorkers = pool.maxWorkers ∧
    (pool.numWorkers < pool.maxWorkers →
      r.1.numWorkers = pool.numWorkers + 1 ∧
      r.1.wg = { pool.wg with counter := pool.wg.counter + 1 } ∧
      r.1.workers.length = pool.workers.length + 1 ∧
      r.1.workers.getLast? = some Worker.fresh) ∧
    (¬ pool.numWorkers < pool.maxWorkers →
      r.1.numWorkers = pool.numWorkers ∧
      r.1.wg = pool.wg ∧
      r.1.workers.length = pool.workers.length) := by
  have hw : pool.numWorkers < pool.maxWorkers →
      AddInt32 pool.numWorkers 1 = pool.numWorkers + 1 := by
    intro hlt
    unfold AddInt32
    apply wrapInt32_of_isInt32
    unfold IsInt32 at *
    omega
  have hnone := (Pool.Push_eq_none_iff pool x).not.mp (by rw [h]; simp)
  unfold Pool.Push at h
  rw [if_neg hs] at h
  by_cases hlt : pool.numWorkers < pool.maxWorkers
  · have hsafe : pool.wg.waiters = 0 ∨ pool.wg.counter ≠ 0 := by
      by_cases h0 : pool.wg.waiters = 0
      · exact Or.inl h0
      · exact Or.inr (fun hc => hnone ⟨hs, hlt, h0, hc⟩)
    rw [if_pos hlt, Pool.spawn_of_safe pool hsafe] at h
    simp only [Option.some.injEq] at h
    obtain ⟨sel, he⟩ := Pool.Signal_eq
      ({ pool with
          bucket := pool.bucket.Push x
          numWorkers := AddInt32 pool.numWorkers 1
          wg := { pool.wg with counter := pool.wg.counter + 1 }
          workers := pool.workers ++ [Worker.fresh] } : Pool I)
    rw [he] at h
    rw [← h]
    simp [hw hlt, hlt, Bucket.contents_Push, List.getLast?_map, Worker.wakeIf, Worker.fresh]
  · rw [if_neg hlt] at h
    simp only [Option.some.injEq] at h
    obtain ⟨sel, he⟩ := Pool.Signal_eq ({ pool with bucket := pool.bucket.Push x } : Pool I)
    rw [he] at h
    rw [← h]
    simp [hlt, Bucket.contents_Push]

/-- Whenever `PushAll(xs)` returns in a state that is not `PoolAbort`, with live-worker count
`n` and maximum `m`, it returns nil, the bucket has gained all of `xs` in one step, and
exactly `min(len(xs), max(0, m - n))` workers were started: never more than `len(xs)`, never
past the maximum. -/
theorem Pool.PushAll_returned [Inhabited I] (pool : Pool I) (xs : List I)
    (hn : IsInt32 pool.numWorkers) (hm : IsInt32 pool.maxWorkers)
    (hs : pool.state ≠ PoolAbort) (r : Pool I × Option PoolError)
    (h : pool.PushAll xs = some r) :
    r.2 = none ∧
    r.1.bucket = pool.bucket.PushAll xs ∧
    r.1.bucket.contents = pool.bucket.contents ++ xs ∧
    r.1.state = pool.state ∧
    r.1.maxWorkers = pool.maxWorkers ∧
    r.1.workers.length = pool.workers.length +
      min xs.length (max 0 (pool.maxWorkers - pool.numWorkers)).toNat ∧
    r.1.wg.counter = pool.wg.counter +
      min xs.length (max 0 (pool.maxWorkers - pool.numWorkers)).toNat ∧
    r.1.wg.waiters = pool.wg.waiters ∧
    r.1.numWorkers = pool.numWorkers +
      (min xs.length (max 0 (pool.maxWorkers - pool.numWorkers)).toNat : Nat) ∧
    r.1.workers.length ≤ pool.workers.length + xs.length ∧
    r.1.numWorkers ≤ max pool.numWorkers pool.maxWorkers := by
  have hnone := (Pool.PushAll_eq_none_iff pool xs).not.mp (by rw [h]; simp)
  have hloop : Pool.spawnLoop xs.length pool =
      some { pool with
        numWorkers := pool.numWorkers +
          (min xs.length (max 0 (pool.maxWorkers - pool.numWorkers)).toNat : Nat)
        wg := { pool.wg with
          counter := pool.wg.counter +
            min xs.length (max 0 (pool.maxWorkers - pool.numWorkers)).toNat }
        workers := pool.workers ++
          List.replicate (min xs.length (max 0 (pool.maxWorkers - pool.numWorkers)).toNat)
            Worker.fresh } := by
    by_cases hsafe : pool.wg.waiters = 0 ∨ pool.wg.counter ≠ 0
    · exact Pool.spawnLoop_eq xs.length pool hn hm hsafe
    · have hw : pool.wg.waiters ≠ 0 := fun h0 => hsafe (Or.inl h0)
      have hc : pool.wg.counter = 0 := by
        by_contra hc0
        exact hsafe (Or.inr hc0)
      have hj : min xs.length (max 0 (pool.maxWorkers - pool.numWorkers)).toNat = 0 := by
        by_cases hx : xs = []
        · simp [hx]
        · have hge : ¬ pool.numWorkers < pool.maxWorkers :=
            fun hlt => hnone ⟨hs, hx, hlt, hw, hc⟩
          have : (max 0 (pool.maxWorkers - pool.numWorkers)).toNat = 0 := by omega
          rw [this]; simp
      rw [hj]
      by_cases hx : xs = []
      · subst hx
        simp [Pool.spawnLoop]
      · have hge : pool.numWorkers ≥ pool.maxWorkers := by
          by_contra hlt
          exact hnone ⟨hs, hx, by omega, hw, hc⟩
        rw [Pool.spawnLoop_of_full _ pool hge]
        simp
  unfold Pool.PushAll at h
  rw [if_neg hs, hloop] at h
  simp only [Option.some.injEq, Pool.Broadcast_eq] at h
  rw [← h]
  simp only [Bucket.contents_PushAll, List.length_map, List.length_append,
    List.length_replicate]
  refine ⟨trivial, trivial, trivial, trivial, trivial, trivial, trivial, trivial, trivial,
    ?_, ?_⟩ <;> omega

/-- C5 at its failing state: on a queue with a maximum of one worker, the worker has processed
its item, `Finish()` was called and its caller is blocked in `wg.Wait()`; the worker has
retired, decremented the live-worker counter and taken the wait group to zero in `wg.Done()`,
and has not yet released the caller. The state is `PoolFinish`, not `PoolAbort`, and the
count is below the maximum, but `Push(2)` does not return nil: it panics in `wg.Add(1)`, adds
nothing to the bucket and starts no worker. This is the only way the claim fails: `Push`
panics exactly when the state is not `PoolAbort`, the count is below the maximum and the wait
group is at zero with a waiter registered, and whenever it returns in a state that is not
`PoolAbort` it has returned nil, appended exactly the item, kept the lifecycle state, and
started one worker when the count was below the maximum and none otherwise. -/
theorem C5_push_panics_while_finish_waits :
    run (Sys.init 4 noStage (.queue NewQueue) 1) misuseSchedule = some misuseState ∧
    misuseState.pool.state = PoolFinish ∧
    misuseState.pool.numWorkers = 0 ∧
    misuseState.pool.maxWorkers = 1 ∧
    misuseState.pool.wg = { counter := 0, waiters := 1, released := 0 } ∧
    misuseState.pool.workers.map (fun w => w.pc) = [.exited] ∧
    misuseState.pool.Push 2 = none ∧
    step misuseState (.push 2) = none ∧
    (∀ (I : Type) [Inhabited I] (pool : Pool I) (x : I),
      pool.Push x = none ↔
        pool.state ≠ PoolAbort ∧ pool.numWorkers < pool.maxWorkers ∧
        pool.wg.waiters ≠ 0 ∧ pool.wg.counter = 0) ∧
    (∀ (I : Type) [Inhabited I] (pool : Pool I) (x : I) (r : Pool I × Option PoolError),
      IsInt32 pool.numWorkers → IsInt32 pool.maxWorkers → pool.state ≠ PoolAbort →
      pool.Push x = some r →
        r.2 = none ∧
        r.1.bucket.contents = pool.bucket.contents ++ [x] ∧
        r.1.state = pool.state ∧
        (pool.numWorkers < pool.maxWorkers →
          r.1.numWorkers = pool.numWorkers + 1 ∧
          r.1.workers.length = pool.workers.length + 1) ∧
        (¬ pool.numWorkers < pool.maxWorkers →
          r.1.numWorkers = pool.numWorkers ∧
          r.1.workers.length = pool.workers.length)) := by
  refine ⟨by rfl, by decide, by decide, by decide, by decide, by decide, by rfl, by rfl, ?_, ?_⟩
  · intro I _ pool x
    exact Pool.Push_eq_none_iff pool x
  · intro I _ pool x r hn hm hs h
    obtain ⟨h1, _, h3, h4, _, h6, h7⟩ := Pool.Push_returned pool x hn hm hs r h
    exact ⟨h1, h3, h4, fun hlt => ⟨(h6 hlt).1, (h6 hlt).2.2.1⟩,
      fun hge => ⟨(h7 hge).1, (h7 hge).2.2⟩⟩

/-- C6 at its failing state: in the state of `misuseSchedule` (state `PoolFinish`, count zero
below the maximum one, wait group at zero with the caller of `Finish()` still registered as
a waiter) `PushAll` of a non-empty list does not return nil: the first round of its spawn
loop panics in `wg.Add(1)`, nothing is added to the bucket and no worker is started. This is
the only way the claim fails: `PushAll` panics exactly when the state is not `PoolAbort`, the
list is not empty, the count is below the maximum and the wait group is at zero with a waiter
registered, and whenever it returns in a state that is not `PoolAbort` it has returned nil,
appended the whole list and started exactly `min(len(xs), max(0, m - n))` workers. -/
theorem C6_pushAll_panics_while_finish_waits :
    run (Sys.init 4 noStage (.queue NewQueue) 1) misuseSchedule = some misuseState ∧
    misuseState.pool.state = PoolFinish ∧
    misuseState.pool.numWorkers = 0 ∧
    misuseState.pool.maxWorkers = 1 ∧
    misuseState.pool.wg = { counter := 0, waiters := 1, released := 0 } ∧
    Pool.spawnLoop 2 misuseState.pool = none ∧
    misuseState.pool.PushAll [2, 3] = none ∧
    step misuseState (.pushAll [2, 3]) = none ∧
    (∀ (I : Type) [Inhabited I] (pool : Pool I) (xs : List I),
      pool.PushAll xs = none ↔
        pool.state ≠ PoolAbort ∧ xs ≠ [] ∧ pool.numWorkers < pool.maxWorkers ∧
        pool.wg.waiters ≠ 0 ∧ pool.wg.counter = 0) ∧
    (∀ (I : Type) [Inhabited I] (pool : Pool I) (xs : List I) (r : Pool I × Option PoolError),
      IsInt32 pool.numWorkers → IsInt32 pool.maxWorkers → pool.state ≠ PoolAbort →
      pool.PushAll xs = some r →
        r.2 = none ∧
        r.1.bucket.contents = pool.bucket.contents ++ xs ∧
        r.1.state = pool.state ∧
        r.1.workers.length = pool.workers.length +
          min xs.length (max 0 (pool.maxWorkers - pool.numWorkers)).toNat ∧
        r.1.numWorkers = pool.numWorkers +
          (min xs.length (max 0 (pool.maxWorkers - pool.numWorkers)).toNat : Nat)) := by
  refine ⟨by rfl, by decide, by decide, by decide, by decide, by rfl, by rfl, by rfl, ?_, ?_⟩
  · intro I _ pool xs
    exact Pool.PushAll_eq_none_iff pool xs
  · intro I _ pool xs r hn hm hs h
    obtain ⟨h1, _, h3, h4, _, h6, _, _, h8, _, _⟩ := Pool.PushAll_returned pool xs hn hm hs r h
    exact ⟨h1, h3, h4, h6, h8⟩

/-! ## Sums over the workers -/

section Totals
variable {M : Type} [AddCommMonoid M]

theorem total_nil (f : Worker I → M) : total f ([] : List (Worker I)) = 0 := rfl

theorem total_append (f : Worker I → M) (ws vs : List (Worker I)) :
    total f (ws ++ vs) = total f ws + total f vs := by
  simp [total]

theorem total_replicate (f : Worker I → M) (j : Nat) (w : Worker I) :
    total f (List.replicate j w) = j • f w := by
  simp [total]

theorem total_map (f : Worker I → M) (g : Worker I → Worker I) (ws : List (Worker I))
    (h : ∀ w, f (g w) = f w) : total f (ws.map g) = total f ws := by
  unfold total
  rw [List.map_map]
  congr 1
  apply List.map_congr_left
  intro w _
  exact h w

theorem total_set (f : Worker I → M) (ws : List (Worker I)) (i : Nat) (a b : Worker I)
    (h : ws[i]? = some a) : total f (ws.set i b) + f a = total f ws + f b := by
  induction ws generalizing i with
  | nil => simp at h
  | cons w ws ih =>
    cases i with
    | zero =>
      simp at h
      subst h
      simp only [total, List.set_cons_zero, List.map_cons, List.sum_cons]
      abel
    | succ i =>
      simp at h
      have := ih i h
      simp only [total, List.set_cons_succ, List.map_cons, List.sum_cons] at this ⊢
      rw [add_assoc, this, add_assoc]

end Totals

theorem ind_wakeIf (f : Pc I → Bool) (sel : Nat → Bool)
    (hf : ∀ t, f (.waiting t) = f .fetch) (w : Worker I) :
    (w.wakeIf sel).ind f = w.ind f := by
  obtain ⟨pc, hd⟩ := w
  cases pc with
  | waiting t =>
    by_cases hs : sel t = true <;> simp [Worker.wakeIf, Worker.ind, hs, hf]
  | _ => rfl

theorem popped_wakeIf (sel : Nat → Bool) (w : Worker I) :
    (w.wakeIf sel).popped = w.popped := by
  obtain ⟨pc, hd⟩ := w
  cases pc with
  | waiting t =>
    by_cases hs : sel t = true <;> simp [Worker.wakeIf, Worker.popped, hs]
  | _ => rfl

theorem held_wakeIf (sel : Nat → Bool) (w : Worker I) :
    (w.wakeIf sel).held = w.held := by
  unfold Worker.held
  rw [popped_wakeIf, Worker.wakeIf_handle]

theorem total_ind_le_length (f : Pc I → Bool) (ws : List (Worker I)) :
    total (Worker.ind f) ws ≤ ws.length := by
  induction ws with
  | nil => simp [total]
  | cons w ws ih =>
    simp only [total, List.map_cons, List.sum_cons, List.length_cons] at ih ⊢
    have : w.ind f ≤ 1 := by unfold Worker.ind; split <;> omega
    omega

theorem total_ind_mono (f g : Pc I → Bool) (h : ∀ pc, f pc = true → g pc = true)
    (ws : List (Worker I)) : total (Worker.ind f) ws ≤ total (Worker.ind g) ws := by
  induction ws with
  | nil => simp [total]
  | cons w ws ih =>
    simp only [total, List.map_cons, List.sum_cons] at ih ⊢
    have : w.ind f ≤ w.ind g := by
      unfold Worker.ind
      by_cases hf : f w.pc = true
      · simp [hf, h _ hf]
      · simp [hf]
    omega

theorem total_ind_pos_of_mem (f : Pc I → Bool) (ws : List (Worker I)) (w : Worker I)
    (hw : w ∈ ws) (hf : f w.pc = true) : 0 < total (Worker.ind f) ws := by
  induction ws with
  | nil => simp at hw
  | cons v ws ih =>
    simp only [total, List.map_cons, List.sum_cons] at ih ⊢
    rcases List.mem_cons.mp hw with rfl | h
    · simp [Worker.ind, hf]
    · have := ih h; omega

theorem exists_of_total_ind_pos (f : Pc I → Bool) (ws : List (Worker I))
    (h : 0 < total (Worker.ind f) ws) : ∃ w ∈ ws, f w.pc = true := by
  induction ws with
  | nil => simp [total] at h
  | cons v ws ih =>
    simp only [total, List.map_cons, List.sum_cons] at ih h
    by_cases hv : f v.pc = true
    · exact ⟨v, List.mem_cons_self _ _, hv⟩
    · have : v.ind f = 0 := by simp [Worker.ind, hv]
      obtain ⟨w, hw, hfw⟩ := ih (by omega)
      exact ⟨w, List.mem_cons_of_mem _ hw, hfw⟩

/-! ## The steps, case by case -/

theorem Bucket.isQueue_Push (b : Bucket I) (x : I) : (b.Push x).isQueue = b.isQueue := by
  cases b <;> rfl

theorem Bucket.isQueue_PushAll (b : Bucket I) (xs : List I) :
    (b.PushAll xs).isQueue = b.isQueue := by
  cases b <;> rfl

/-- The spawn test of `Push` is one round of the spawn loop of `PushAll`. -/
theorem Pool.spawnLoop_one [Inhabited I] (pool : Pool I) :
    Pool.spawnLoop 1 pool = if pool.numWorkers < pool.maxWorkers then pool.spawn else some pool := by
  unfold Pool.spawnLoop
  by_cases hlt : pool.numWorkers < pool.maxWorkers
  · have hge : ¬ pool.numWorkers ≥ pool.maxWorkers := by omega
    rw [if_neg hge, if_pos hlt]
    cases pool.spawn <;> rfl
  · have hge : pool.numWorkers ≥ pool.maxWorkers := by omega
    rw [if_pos hge, if_neg hlt]

/-- The pool after a spawn loop that returned, with the new bucket and some workers woken. -/
theorem pushed_of_spawnLoop [Inhabited I] (xs : List I) (k : Nat) (pool p1 : Pool I)
    (hn : IsInt32 pool.numWorkers) (hm : IsInt32 pool.maxWorkers)
    (hs : pool.state ≠ PoolAbort) (h : Pool.spawnLoop k pool = some p1)
    (hk : xs ≠ [] → 0 < k) (b : Bucket I) (hb : b.contents = pool.bucket.contents ++ xs)
    (hq : b.isQueue = pool.bucket.isQueue) (sel : Nat → Bool) :
    ∃ j, Pushed pool xs j
      { p1 with bucket := b, workers := p1.workers.map (Worker.wakeIf sel) } := by
  obtain ⟨j, hj1, hj2, rfl⟩ := Pool.spawnLoop_some k pool p1 hn hm h
  refine ⟨j, ?_⟩
  constructor
  · exact hs
  · rfl
  · rfl
  · rfl
  · rfl
  · rfl
  · exact ⟨sel, rfl⟩
  · exact hj1
  · intro hne hlt; exact hj2 (hk hne) hlt
  · exact hb
  · exact hq

theorem Pool.Push_pushed [Inhabited I] (pool : Pool I) (x : I)
    (hn : IsInt32 pool.numWorkers) (hm : IsInt32 pool.maxWorkers)
    (hs : pool.state ≠ PoolAbort) (r : Pool I × Option PoolError)
    (h : pool.Push x = some r) :
    ∃ j, Pushed pool [x] j r.1 := by
  unfold Pool.Push at h
  rw [if_neg hs, ← Pool.spawnLoop_one] at h
  cases hp : Pool.spawnLoop 1 pool with
  | none => simp [hp] at h
  | some p1 =>
    simp only [hp, Option.some.injEq] at h
    obtain ⟨sel, he⟩ := Pool.Signal_eq { p1 with bucket := p1.bucket.Push x }
    rw [he] at h
    have hb1 : p1.bucket = pool.bucket := by
      obtain ⟨j, _, _, rfl⟩ := Pool.spawnLoop_some 1 pool p1 hn hm hp
      rfl
    rw [← h]
    exact pushed_of_spawnLoop [x] 1 pool p1 hn hm hs hp (fun _ => Nat.one_pos) _
      (by simp [hb1, Bucket.contents_Push]) (by simp [hb1, Bucket.isQueue_Push]) sel

theorem Pool.PushAll_pushed [Inhabited I] (pool : Pool I) (xs : List I)
    (hn : IsInt32 pool.numWorkers) (hm : IsInt32 pool.maxWorkers)
    (hs : pool.state ≠ PoolAbort) (r : Pool I × Option PoolError)
    (h : pool.PushAll xs = some r) :
    ∃ j, Pushed pool xs j r.1 := by
  unfold Pool.PushAll at h
  rw [if_neg hs] at h
  cases hp : Pool.spawnLoop xs.length pool with
  | none => simp [hp] at h
  | some p1 =>
    simp only [hp, Option.some.injEq, Pool.Broadcast_eq] at h
    have hb1 : p1.bucket = pool.bucket := by
      obtain ⟨j, _, _, rfl⟩ := Pool.spawnLoop_some _ pool p1 hn hm hp
      rfl
    rw [← h]
    exact pushed_of_spawnLoop xs xs.length pool p1 hn hm hs hp
      (fun hne => List.length_pos.mpr hne) _
      (by simp [hb1, Bucket.contents_PushAll]) (by simp [hb1, Bucket.isQueue_PushAll]) _

/-- What `Pop` returns on each bucket: the newest item of a stack, the oldest of a queue. -/
theorem Bucket.Pop_spec (b : Bucket I) (x : I) (b1 : Bucket I) (h : b.Pop = some (x, b1)) :
    b1.isQueue = b.isQueue ∧
    (b.isQueue = true → b.contents = x :: b1.contents) ∧
    (b.isQueue = false → b.contents = b1.contents ++ [x]) := by
  cases b with
  | stack s =>
    simp only [Bucket.Pop, Stack.Pop] at h
    by_cases he : s.data.length = 0
    · simp [he] at h
    · simp only [he, if_false] at h
      cases hg : s.data[s.data.length - 1]? with
      | none => simp [hg] at h
      | some y =>
        simp [hg] at h
        obtain ⟨rfl, rfl⟩ := h
        refine ⟨rfl, by simp [Bucket.isQueue], fun _ => ?_⟩
        simp only [Bucket.contents]
        have h1 : s.data.length - 1 < s.data.length := by omega
        have h2 := List.take_append_drop (s.data.length - 1) s.data
        rw [List.drop_eq_getElem_cons h1] at h2
        have h3 : s.data[s.data.length - 1] = y := by
          rw [List.getElem?_eq_getElem h1] at hg
          exact Option.some.inj hg
        have h4 : List.drop (s.data.length - 1 + 1) s.data = [] := by
          apply List.drop_eq_nil_of_le; omega
        rw [h3, h4] at h2
        exact h2.symm
  | queue q =>
    simp only [Bucket.Pop, Queue.Pop_eq] at h
    cases hq : q.data.elems with
    | nil => simp [hq] at h
    | cons y rest =>
      simp [hq] at h
      obtain ⟨rfl, rfl⟩ := h
      exact ⟨rfl, fun _ => by simp [Bucket.contents, hq], by simp [Bucket.isQueue]⟩

/-- On a non-empty bucket `Pop` does not panic. -/
theorem Bucket.Pop_isSome (b : Bucket I) (h : b.contents ≠ []) : ∃ r, b.Pop = some r := by
  cases b with
  | stack s =>
    simp only [Bucket.contents] at h
    have hl : s.data.length ≠ 0 := by
      intro h0; exact h (List.length_eq_zero.mp h0)
    have h1 : s.data.length - 1 < s.data.length := by omega
    simp [Bucket.Pop, Stack.Pop, hl, List.getElem?_eq_getElem h1]
  | queue q =>
    simp only [Bucket.contents] at h
    simp only [Bucket.Pop, Queue.Pop_eq]
    cases hq : q.data.elems with
    | nil => exact absurd hq h
    | cons y rest => simp

theorem step_spec [Inhabited I] (s s1 : Sys I) (a : Action I)
    (hn : IsInt32 s.pool.numWorkers) (hm : IsInt32 s.pool.maxWorkers)
    (h : step s a = some s1) : StepSpec s a s1 := by
  cases a with
  | push x =>
    simp only [step] at h
    cases hp : s.pool.Push x with
    | none => simp [hp] at h
    | some r =>
      simp only [hp, Option.some.injEq] at h
      subst h
      by_cases hs : s.pool.state = PoolAbort
      · rw [Pool.Push_aborted _ _ hs, Option.some.injEq] at hp
        subst hp
        simpa using StepSpec.pushRejected x hs
      · obtain ⟨j, hj⟩ := Pool.Push_pushed s.pool x hn hm hs r hp
        have he : r.2 = none := Pool.Push_returns_nil s.pool x hs r hp
        simpa [he] using StepSpec.pushOk x j _ hj
  | pushAll xs =>
    simp only [step] at h
    cases hp : s.pool.PushAll xs with
    | none => simp [hp] at h
    | some r =>
      simp only [hp, Option.some.injEq] at h
      subst h
      by_cases hs : s.pool.state = PoolAbort
      · rw [Pool.PushAll_aborted _ _ hs, Option.some.injEq] at hp
        subst hp
        simpa using StepSpec.pushAllRejected xs hs
      · obtain ⟨j, hj⟩ := Pool.PushAll_pushed s.pool xs hn hm hs r hp
        have he : r.2 = none := Pool.PushAll_returns_nil s.pool xs hs r hp
        simpa [he] using StepSpec.pushAllOk xs j _ hj
  | finish =>
    simp only [step, Option.some.injEq] at h
    subst h
    exact StepSpec.finish
  | abort =>
    simp only [step, Option.some.injEq] at h
    subst h
    exact StepSpec.abort
  | next w =>
    simp only [step] at h
    cases hw : s.pool.workers[w]? with
    | none => simp [hw] at h
    | some wk =>
      simp only [hw] at h
      cases hpc : wk.pc with
      | fetch =>
        simp only [hpc] at h
        by_cases he : s.pool.bucket.IsEmpty = true
        · have hc := (Bucket.IsEmpty_iff _).mp he
          by_cases hst : s.pool.state = PoolRun
          · have hnf : ¬ (s.pool.state = PoolFinish ∨ s.pool.state = PoolAbort) := by
              rw [hst]; decide
            simp only [Pool.next, he, if_true, hnf, if_false, Option.some.injEq] at h
            subst h
            have := StepSpec.nextWait w wk hw hpc hc hst
            simpa [Pool.setWorker] using this
          · have hfa : s.pool.state = PoolFinish ∨ s.pool.state = PoolAbort := by
              cases hx : s.pool.state <;> simp_all
            simp [Pool.next, he, hfa] at h
            subst h
            have := StepSpec.nextRetire w wk hw hpc hc hst
            simpa [Pool.setWorker] using this
        · have hc : s.pool.bucket.contents ≠ [] := fun hc => he ((Bucket.IsEmpty_iff _).mpr hc)
          obtain ⟨⟨x, b⟩, hp⟩ := Bucket.Pop_isSome _ hc
          simp [Pool.next, he, hp] at h
          subst h
          have := StepSpec.nextItem w wk x b hw hpc hp
          simpa [Pool.setWorker] using this
      | _ => simp [hpc] at h
  | task w =>
    simp only [step] at h
    cases hw : s.pool.workers[w]? with
    | none => simp [hw] at h
    | some wk =>
      simp only [hw] at h
      cases hpc : wk.pc with
      | gotItem x =>
        simp only [hpc, Option.some.injEq] at h
        subst h
        have hr : wk.handle.runTask s.pool.task x
            = { item := x, items := wk.handle.items ++ s.pool.task x } := by
          unfold Handle.runTask
          simp only [Handle.Item]
          generalize s.pool.task x = ys
          generalize wk.handle.items = zs
          induction ys generalizing zs with
          | nil => simp
          | cons y ys ih => simp [Handle.Push, ih]
        rw [hr]
        exact StepSpec.task w wk x hw hpc
      | _ => simp [hpc] at h
  | sync w =>
    simp only [step] at h
    cases hw : s.pool.workers[w]? with
    | none => simp [hw] at h
    | some wk =>
      simp only [hw] at h
      cases hpc : wk.pc with
      | flush =>
        simp only [hpc, Handle.Sync] at h
        cases hp : s.pool.PushAll wk.handle.items with
        | none => simp [hp] at h
        | some r =>
          simp only [hp, Option.some.injEq] at h
          subst h
          by_cases hs : s.pool.state = PoolAbort
          · rw [Pool.PushAll_aborted _ _ hs, Option.some.injEq] at hp
            subst hp
            simp only [hs, if_true]
            exact StepSpec.syncRejected w wk hw hpc hs
          · obtain ⟨j, hj⟩ := Pool.PushAll_pushed s.pool wk.handle.items hn hm hs r hp
            simp only [hs, if_false]
            exact StepSpec.syncOk w wk j _ hw hpc hj
      | _ => simp [hpc] at h
  | dec w =>
    simp only [step] at h
    cases hw : s.pool.workers[w]? with
    | none => simp [hw] at h
    | some wk =>
      simp only [hw] at h
      cases hpc : wk.pc with
      | retiring =>
        simp only [hpc, Option.some.injEq] at h
        subst h
        exact StepSpec.dec w wk hw hpc
      | _ => simp [hpc] at h
  | wgDone w =>
    simp only [step] at h
    cases hw : s.pool.workers[w]? with
    | none => simp [hw] at h
    | some wk =>
      simp only [hw] at h
      cases hpc : wk.pc with
      | decremented =>
        simp only [hpc, WaitGroup.Done_eq] at h
        by_cases h0 : s.pool.wg.counter = 0
        · simp [h0] at h
        · simp only [h0, if_false, Option.some.injEq] at h
          subst h
          exact StepSpec.wgDone w wk hw hpc h0
      | _ => simp [hpc] at h
  | wgWait =>
    simp only [step] at h
    by_cases hs : s.pool.state = PoolRun
    · simp [hs] at h
    · simp only [hs, if_false, Option.some.injEq] at h
      subst h
      refine StepSpec.wgWait _ ?_ hs
      unfold WaitGroup.Wait
      split <;> rfl
  | wgRelease =>
    simp only [step] at h
    cases hr : s.pool.wg.release with
    | none => simp [hr] at h
    | some wg =>
      simp only [hr, Option.some.injEq] at h
      subst h
      refine StepSpec.wgRelease _ ?_
      unfold WaitGroup.release at hr
      split at hr
      · rename_i hc
        simp only [Option.some.injEq] at hr
        rw [← hr]; exact hc.1.symm
      · simp at hr
  | wgResume =>
    simp only [step] at h
    cases hr : s.pool.wg.resume with
    | none => simp [hr] at h
    | some wg =>
      simp only [hr, Option.some.injEq] at h
      subst h
      refine StepSpec.wgResume _ ?_
      unfold WaitGroup.resume at hr
      split at hr
      · simp at hr
      · split at hr
        · simp only [Option.some.injEq] at hr
          rw [← hr]
        · simp at hr

/-! ## The bookkeeping invariant -/

theorem total_ind_set (f : Pc I → Bool) (ws : List (Worker I)) (i : Nat) (a b : Worker I)
    (h : ws[i]? = some a) (hf : f b.pc = f a.pc) :
    total (Worker.ind f) (ws.set i b) = total (Worker.ind f) ws := by
  have := total_set (Worker.ind f) ws i a b h
  have e : b.ind f = a.ind f := by simp [Worker.ind, hf]
  omega

theorem Pushed.total_ind [Inhabited I] {pool p1 : Pool I} {xs : List I} {j : Nat}
    (h : Pushed pool xs j p1) (f : Pc I → Bool) (hf : f .fetch = true)
    (hw : ∀ t, f (.waiting t) = true) :
    total (Worker.ind f) p1.workers = total (Worker.ind f) pool.workers + j := by
  obtain ⟨sel, he⟩ := h.workers_eq
  rw [he, total_map _ _ _ (ind_wakeIf f sel (fun t => by rw [hw, hf])), total_append,
    total_replicate]
  simp [Worker.ind, Worker.fresh, hf]

theorem Pushed.total_held [Inhabited I] {pool p1 : Pool I} {xs : List I} {j : Nat}
    (h : Pushed pool xs j p1) :
    total Worker.held p1.workers = total Worker.held pool.workers := by
  obtain ⟨sel, he⟩ := h.workers_eq
  rw [he, total_map _ _ _ (held_wakeIf sel), total_append, total_replicate]
  simp [Worker.held, Worker.fresh, Worker.popped]

theorem Pushed.getElem [Inhabited I] {pool p1 : Pool I} {xs : List I} {j : Nat}
    (h : Pushed pool xs j p1) {i : Nat} {wk : Worker I} (hw : pool.workers[i]? = some wk)
    (hnw : ∀ t, wk.pc ≠ .waiting t) : p1.workers[i]? = some wk := by
  obtain ⟨sel, he⟩ := h.workers_eq
  have hi : i < pool.workers.length := by
    rcases Nat.lt_or_ge i pool.workers.length with h1 | h1
    · exact h1
    · rw [List.getElem?_eq_none h1] at hw; cases hw
  rw [he, List.getElem?_map, List.getElem?_append_left hi, hw]
  simp [Worker.wakeIf_of_not_waiting sel wk hnw]

theorem Pushed.forall_mem [Inhabited I] {pool p1 : Pool I} {xs : List I} {j : Nat}
    (h : Pushed pool xs j p1) (P : Worker I → Prop) (hP : ∀ w ∈ pool.workers, P w)
    (hfresh : P Worker.fresh) (hwake : ∀ w sel, P w → P (w.wakeIf sel)) :
    ∀ w ∈ p1.workers, P w := by
  obtain ⟨sel, he⟩ := h.workers_eq
  intro w hw
  rw [he, List.mem_map] at hw
  obtain ⟨v, hv, rfl⟩ := hw
  apply hwake
  rcases List.mem_append.mp hv with h1 | h1
  · exact hP v h1
  · rw [List.eq_of_mem_replicate h1]; exact hfresh

theorem forall_mem_set {P : Worker I → Prop} {ws : List (Worker I)} (i : Nat) (b : Worker I)
    (hP : ∀ w ∈ ws, P w) (hb : P b) : ∀ w ∈ ws.set i b, P w := by
  intro w hw
  rcases List.mem_or_eq_of_mem_set hw with h | h
  · exact hP w h
  · rw [h]; exact hb

theorem forall_mem_wake {P : Worker I → Prop} {ws : List (Worker I)} (sel : Nat → Bool)
    (hP : ∀ w ∈ ws, P w) (hwake : ∀ w, P w → P (w.wakeIf sel)) :
    ∀ w ∈ ws.map (Worker.wakeIf sel), P w := by
  intro w hw
  rw [List.mem_map] at hw
  obtain ⟨v, hv, rfl⟩ := hw
  exact hwake v (hP v hv)

theorem staged_wakeIf (sel : Nat → Bool) (w : Worker I)
    (h : w.pc ≠ .flush → w.handle.items = []) :
    (w.wakeIf sel).pc ≠ .flush → (w.wakeIf sel).handle.items = [] := by
  intro hne
  rw [Worker.wakeIf_handle]
  apply h
  intro hf
  apply hne
  rw [Worker.wakeIf_of_not_waiting sel w (by intro t ht; rw [hf] at ht; cases ht)]
  exact hf

theorem Inv.isInt32 {m : Int} {s : Sys I} (hm : IsInt32 m) (hi : Inv m s) :
    IsInt32 s.pool.numWorkers ∧ IsInt32 s.pool.maxWorkers := by
  have h1 := hi.num_eq
  have h2 := hi.num_le
  have h3 := hi.max_eq
  unfold IsInt32 at *
  omega

theorem Inv.at_init (numCPU : Int) (task : Task I) (bucket : Bucket I) (m : Int) :
    Inv m (Sys.init numCPU task bucket m) := by
  constructor <;> simp [Sys.init, New, Pool.SetMaxWorkers, total]

/-- A worker step that changes neither counter keeps the bookkeeping invariant. -/
theorem Inv.of_set {m : Int} {s : Sys I} (hi : Inv m s) (w : Nat) (wk b : Worker I)
    (hw : s.pool.workers[w]? = some wk) (hlive : b.pc.isLive = wk.pc.isLive)
    (hout : b.pc.isOutstanding = wk.pc.isOutstanding)
    (hstg : b.pc ≠ .flush → b.handle.items = [])
    (bucket : Bucket I) (cond : Nat) (off ins proc : List I) :
    Inv m { pool := { s.pool with
              bucket := bucket, cond := cond, workers := s.pool.workers.set w b },
            offered := off, inserted := ins, processed := proc } := by
  constructor
  · exact hi.max_eq
  · dsimp only
    rw [total_ind_set Pc.isLive _ _ _ _ hw hlive]
    exact hi.num_eq
  · exact hi.num_le
  · dsimp only
    rw [total_ind_set Pc.isOutstanding _ _ _ _ hw hout]
    exact hi.wg_eq
  · exact forall_mem_set _ _ hi.staged hstg

/-- The bookkeeping invariant is kept by every step. -/
theorem Inv.preserved_step [Inhabited I] {m : Int} {s s1 : Sys I} {a : Action I} (hm : IsInt32 m)
    (hi : Inv m s) (h : step s a = some s1) : Inv m s1 := by
  obtain ⟨hn32, hm32⟩ := hi.isInt32 hm
  have hmax := hi.max_eq
  have hnum := hi.num_eq
  have hle := hi.num_le
  have hwg := hi.wg_eq
  have hst := hi.staged
  have pushCase : ∀ (xs : List I) (j : Nat) (p1 : Pool I) (off ins : List I),
      Pushed s.pool xs j p1 →
      Inv m { s with pool := p1, offered := off, inserted := ins } := by
    intro xs j p1 off ins hp
    constructor
    · simp [hp.max_eq, hmax]
    · simp only [hp.num_eq, hp.total_ind Pc.isLive rfl (fun _ => rfl), hnum]
      push_cast; ring
    · have := hp.bound
      simp only [hp.num_eq]
      omega
    · simp only [hp.wg_eq, hp.total_ind Pc.isOutstanding rfl (fun _ => rfl), hwg]
    · exact hp.forall_mem _ hst (fun _ => rfl) (fun w sel hw => staged_wakeIf sel w hw)
  have wakeCase : ∀ (st : PoolState),
      Inv m { s with pool := { s.pool with
        state := st, workers := s.pool.workers.map (Worker.wakeIf (fun _ => true)) } } := by
    intro st
    constructor
    · exact hmax
    · simp only [total_map _ _ _ (ind_wakeIf Pc.isLive _ (fun _ => rfl)), hnum]
    · exact hle
    · simp only [total_map _ _ _ (ind_wakeIf Pc.isOutstanding _ (fun _ => rfl)), hwg]
    · exact forall_mem_wake _ hst (fun w hw => staged_wakeIf _ w hw)
  have hmem : ∀ {w : Nat} {wk : Worker I}, s.pool.workers[w]? = some wk → wk ∈ s.pool.workers :=
    fun hw => List.getElem?_mem hw
  cases step_spec s s1 a hn32 hm32 h with
  | pushOk x j p1 hp => exact pushCase _ _ _ _ _ hp
  | pushRejected x hs => exact ⟨hmax, hnum, hle, hwg, hst⟩
  | pushAllOk xs j p1 hp => exact pushCase _ _ _ _ _ hp
  | pushAllRejected xs hs => exact ⟨hmax, hnum, hle, hwg, hst⟩
  | finish => exact wakeCase _
  | abort => exact wakeCase _
  | nextItem w wk x b hw hpc hpop =>
    refine hi.of_set w wk _ hw ?_ ?_ ?_ _ _ _ _ _
    · simp [hpc, Pc.isLive]
    · simp [hpc, Pc.isOutstanding]
    · exact fun _ => hst wk (hmem hw) (by simp [hpc])
  | nextRetire w wk hw hpc he hs =>
    refine hi.of_set w wk _ hw ?_ ?_ ?_ _ _ _ _ _
    · simp [hpc, Pc.isLive]
    · simp [hpc, Pc.isOutstanding]
    · exact fun _ => hst wk (hmem hw) (by simp [hpc])
  | nextWait w wk hw hpc he hs =>
    refine hi.of_set w wk _ hw ?_ ?_ ?_ _ _ _ _ _
    · simp [hpc, Pc.isLive]
    · simp [hpc, Pc.isOutstanding]
    · exact fun _ => hst wk (hmem hw) (by simp [hpc])
  | task w wk x hw hpc =>
    refine hi.of_set w wk _ hw ?_ ?_ ?_ _ _ _ _ _
    · simp [hpc, Pc.isLive]
    · simp [hpc, Pc.isOutstanding]
    · exact fun hne => absurd rfl hne
  | syncOk w wk j p1 hw hpc hp =>
    have hw1 := hp.getElem hw (by intro t ht; rw [hpc] at ht; cases ht)
    have hb := pushCase _ _ _ s.offered s.inserted hp
    refine hb.of_set w wk _ hw1 ?_ ?_ ?_ _ _ _ _ _
    · simp [hpc, Pc.isLive]
    · simp [hpc, Pc.isOutstanding]
    · exact fun _ => rfl
  | syncRejected w wk hw hpc hs =>
    refine hi.of_set w wk _ hw ?_ ?_ ?_ _ _ _ _ _
    · simp [hpc, Pc.isLive]
    · simp [hpc, Pc.isOutstanding]
    · exact fun _ => rfl
  | dec w wk hw hpc =>
    have ht := total_set (Worker.ind Pc.isLive) _ w wk { wk with pc := .decremented } hw
    simp only [Worker.ind, hpc, Pc.isLive] at ht
    simp at ht
    have hadd : AddInt32 s.pool.numWorkers (-1) = s.pool.numWorkers - 1 := by
      unfold AddInt32
      apply wrapInt32_of_isInt32
      unfold IsInt32 at *
      omega
    constructor
    · exact hmax
    · dsimp only
      rw [hadd, hnum]
      omega
    · dsimp only
      rw [hadd]; omega
    · dsimp only
      rw [total_ind_set Pc.isOutstanding _ _ _ _ hw (by simp [hpc, Pc.isOutstanding])]
      exact hwg
    · exact forall_mem_set _ _ hst (fun _ => hst wk (hmem hw) (by simp [hpc]))
  | wgDone w wk hw hpc h0 =>
    have ht := total_set (Worker.ind Pc.isOutstanding) _ w wk { wk with pc := .exited } hw
    simp only [Worker.ind, hpc, Pc.isOutstanding] at ht
    simp at ht
    constructor
    · exact hmax
    · dsimp only
      rw [total_ind_set Pc.isLive _ _ _ _ hw (by simp [hpc, Pc.isLive])]
      exact hnum
    · exact hle
    · simp only [hwg, ← ht]; omega
    · exact forall_mem_set _ _ hst (fun _ => hst wk (hmem hw) (by simp [hpc]))
  | wgWait wg hc hstate => exact ⟨hmax, hnum, hle, hc.trans hwg, hst⟩
  | wgRelease wg hc => exact ⟨hmax, hnum, hle, hc.trans hwg, hst⟩
  | wgResume wg hc => exact ⟨hmax, hnum, hle, hc.trans hwg, hst⟩

theorem Inv.preserved_run [Inhabited I] {m : Int} (hm : IsInt32 m) (tr : List (Action I)) {s s1 : Sys I}
    (hi : Inv m s) (h : run s tr = some s1) : Inv m s1 := by
  induction tr generalizing s with
  | nil => simp [Cuba.run] at h; subst h; exact hi
  | cons a as ih =>
    simp only [Cuba.run] at h
    cases hs : Cuba.step s a with
    | none => simp [hs] at h
    | some s2 =>
      simp only [hs] at h
      exact ih (hi.preserved_step hm hs) h

/-! ## Draining schedules -/

theorem total_held_set_count [DecidableEq I] (ws : List (Worker I)) (i : Nat) (a b : Worker I)
    (h : ws[i]? = some a) (x : I) :
    Multiset.count x (total Worker.held (ws.set i b)) + (a.popped.count x + a.handle.items.count x)
      = Multiset.count x (total Worker.held ws) + (b.popped.count x + b.handle.items.count x) := by
  have := congrArg (Multiset.count x) (total_set Worker.held ws i a b h)
  simpa only [Multiset.count_add, Worker.held, Multiset.coe_count] using this

theorem isActive_wakeIf (sel : Nat → Bool) (w : Worker I) (h : w.pc.isActive = true) :
    (w.wakeIf sel).pc.isActive = true := by
  rcases Worker.wakeIf_pc sel w with h1 | ⟨_, h1⟩
  · rw [h1]; exact h
  · rw [h1]; rfl

theorem isActive_isLive (pc : Pc I) (h : pc.isActive = true) : pc.isLive = true := by
  cases pc <;> simp_all [Pc.isActive, Pc.isLive]

theorem isActive_isOutstanding (pc : Pc I) (h : pc.isActive = true) :
    pc.isOutstanding = true := by
  cases pc <;> simp_all [Pc.isActive, Pc.isOutstanding]

/-- An accepted push in a draining schedule keeps the draining invariant, when it comes from
outside while the pool runs or from a worker that goes on to fetch. -/
theorem DrainInv.pushed [Inhabited I] {m : Int} {s : Sys I} (hm1 : 1 ≤ m) (hi : Inv m s)
    (hd : DrainInv s) (xs : List I) (j : Nat) (p1 : Pool I) (ins : List I)
    (hp : Pushed s.pool xs j p1) (hrun : s.pool.state = PoolRun) :
    DrainInv { s with pool := p1, offered := s.offered ++ xs, inserted := ins } := by
  have hact : ∀ w ∈ p1.workers, w.pc.isActive = true :=
    hp.forall_mem _ (hd.running hrun) rfl (fun w sel hw => isActive_wakeIf sel w hw)
  constructor
  · dsimp only; rw [hp.state_eq]; exact hd.not_aborted
  · classical
    dsimp only
    rw [Multiset.ext]
    intro a
    have h1 := congrArg (Multiset.count a) hd.items
    simp only [Multiset.count_add, Multiset.coe_count, List.count_append, hp.total_held,
      hp.contents] at h1 ⊢
    omega
  · intro _; exact hact
  · intro hne
    dsimp only at hne ⊢
    rw [hp.total_ind Pc.isActive rfl (fun _ => rfl)]
    rw [hp.contents] at hne
    by_cases hj : 0 < j
    · omega
    · by_cases hx : xs = []
      · subst hx
        have := hd.covered (by simpa using hne)
        omega
      · have hge : ¬ s.pool.numWorkers < s.pool.maxWorkers := fun hlt => hj (hp.progress hx hlt)
        have h1 := hi.num_eq
        have h2 := hi.max_eq
        have hpos : 0 < total (Worker.ind Pc.isLive) s.pool.workers := by omega
        obtain ⟨w, hw, _⟩ := exists_of_total_ind_pos _ _ hpos
        have := total_ind_pos_of_mem Pc.isActive _ w hw (hd.running hrun w hw)
        omega

/-- The draining invariant is kept by every step that is not an abort and not a push from
outside after `Finish` was called. -/
theorem DrainInv.kept_step [Inhabited I] {m : Int} {s s1 : Sys I} {a : Action I} (hm1 : 1 ≤ m)
    (hm : IsInt32 m) (hi : Inv m s) (hd : DrainInv s) (ha : a ≠ .abort)
    (hpush : a.isPush = true → s.pool.state = PoolRun) (h : step s a = some s1) :
    DrainInv s1 := by
  classical
  obtain ⟨hn32, hm32⟩ := hi.isInt32 hm
  have hmem : ∀ {w : Nat} {wk : Worker I}, s.pool.workers[w]? = some wk → wk ∈ s.pool.workers :=
    fun hw => List.getElem?_mem hw
  have hitems := hd.items
  have setCase : ∀ (w : Nat) (wk b : Worker I) (bucket : Bucket I) (cond : Nat) (n : Int)
      (wg : WaitGroup) (off ins proc : List I),
      s.pool.workers[w]? = some wk →
      (s.pool.state = PoolRun → wk.pc.isActive = true → b.pc.isActive = true) →
      (∀ x, off.count x + wk.popped.count x + wk.handle.items.count x
          + s.processed.count x + s.pool.bucket.contents.count x
        = s.offered.count x + proc.count x + b.popped.count x + b.handle.items.count x
          + bucket.contents.count x) →
      (bucket.contents ≠ [] → b.pc.isActive = true ∨
        (wk.pc.isActive = false ∧ s.pool.bucket.contents ≠ [])) →
      DrainInv { pool := { s.pool with
                   bucket := bucket, cond := cond, numWorkers := n, wg := wg,
                   workers := s.pool.workers.set w b },
                 offered := off, inserted := ins, processed := proc } := by
    intro w wk b bucket cond n wg off ins proc hw hrun hcount hcov
    constructor
    · exact hd.not_aborted
    · dsimp only
      rw [Multiset.ext]
      intro x
      have h1 := congrArg (Multiset.count x) hitems
      have h2 := total_held_set_count _ w wk b hw x
      have h3 := hcount x
      simp only [Multiset.count_add, Multiset.coe_count] at h1 ⊢
      omega
    · intro hr
      dsimp only at hr ⊢
      exact forall_mem_set _ _ (hd.running hr) (hrun hr (hd.running hr wk (hmem hw)))
    · intro hne
      dsimp only at hne ⊢
      have ht := total_set (Worker.ind Pc.isActive) _ w wk b hw
      rcases hcov hne with hb | ⟨hwk, hold⟩
      · have e1 : b.ind Pc.isActive = 1 := by simp [Worker.ind, hb]
        by_cases hwa : wk.pc.isActive = true
        · have e2 : wk.ind Pc.isActive = 1 := by simp [Worker.ind, hwa]
          have := total_ind_pos_of_mem Pc.isActive _ wk (hmem hw) hwa
          omega
        · have e2 : wk.ind Pc.isActive = 0 := by simp [Worker.ind, hwa]
          omega
      · have e2 : wk.ind Pc.isActive = 0 := by simp [Worker.ind, hwk]
        have := hd.covered hold
        omega
  cases step_spec s s1 a hn32 hm32 h with
  | pushOk x j p1 hp => exact hd.pushed hm1 hi [x] j p1 _ hp (hpush rfl)
  | pushRejected x hs => exact absurd hs hd.not_aborted
  | pushAllOk xs j p1 hp => exact hd.pushed hm1 hi xs j p1 _ hp (hpush rfl)
  | pushAllRejected xs hs => exact absurd hs hd.not_aborted
  | finish =>
    constructor
    · simp
    · dsimp only
      rw [total_map _ _ _ (held_wakeIf _)]
      exact hitems
    · intro hr; simp at hr
    · intro hne
      dsimp only at hne ⊢
      rw [total_map _ _ _ (ind_wakeIf Pc.isActive _ (fun _ => rfl))]
      exact hd.covered hne
  | abort => exact absurd rfl ha
  | nextItem w wk x b hw hpc hpop =>
    obtain ⟨_, hq, hs⟩ := Bucket.Pop_spec _ _ _ hpop
    refine setCase w wk _ b _ _ _ _ _ _ hw (fun _ _ => rfl) ?_ (fun _ => Or.inl rfl)
    intro y
    have hc : s.pool.bucket.contents.count y = [x].count y + b.contents.count y := by
      cases hk : s.pool.bucket.isQueue with
      | true => rw [hq hk, ← List.singleton_append, List.count_append]
      | false => rw [hs hk, List.count_append]; omega
    simp only [Worker.popped, hpc, hc, List.count_nil]
    omega
  | nextRetire w wk hw hpc he hs =>
    refine setCase w wk _ _ _ _ _ _ _ _ hw (fun hr _ => absurd hr hs) ?_
      (fun h => absurd he h)
    intro y; simp only [Worker.popped, hpc]; omega
  | nextWait w wk hw hpc he hs =>
    refine setCase w wk _ _ _ _ _ _ _ _ hw (fun _ _ => rfl) ?_ (fun _ => Or.inl rfl)
    intro y; simp only [Worker.popped, hpc]; omega
  | task w wk x hw hpc =>
    refine setCase w wk _ _ _ _ _ _ _ _ hw (fun _ _ => rfl) ?_ (fun _ => Or.inl rfl)
    intro y
    simp only [Worker.popped, hpc, List.count_append, List.count_nil]
    omega
  | syncOk w wk j p1 hw hpc hp =>
    have hw1 := hp.getElem hw (by intro t ht; rw [hpc] at ht; cases ht)
    constructor
    · dsimp only; rw [hp.state_eq]; exact hd.not_aborted
    · dsimp only
      rw [Multiset.ext]
      intro y
      have h1 := congrArg (Multiset.count y) hitems
      have h2 := total_held_set_count _ w wk
        { pc := .fetch, handle := { wk.handle with items := [] } } hw1 y
      simp only [Multiset.count_add, Multiset.coe_count, hp.total_held, hp.contents,
        List.count_append, Worker.popped, hpc, List.count_nil] at h1 h2 ⊢
      omega
    · intro hr
      dsimp only at hr ⊢
      rw [hp.state_eq] at hr
      exact forall_mem_set _ _
        (hp.forall_mem _ (hd.running hr) rfl (fun w sel hw => isActive_wakeIf sel w hw)) rfl
    · intro _
      dsimp only
      have ht := total_set (Worker.ind Pc.isActive) _ w wk
        { pc := .fetch, handle := { wk.handle with items := [] } } hw1
      simp only [Worker.ind, hpc, Pc.isActive] at ht
      have := total_ind_pos_of_mem Pc.isActive _ wk (List.getElem?_mem hw1)
        (by simp [hpc, Pc.isActive])
      simp at ht
      omega
  | syncRejected w wk hw hpc hs => exact absurd hs hd.not_aborted
  | dec w wk hw hpc =>
    refine setCase w wk _ _ _ _ _ _ _ _ hw ?_ ?_ (fun h => Or.inr ⟨by simp [hpc, Pc.isActive], h⟩)
    · intro _ hb; simp [hpc, Pc.isActive] at hb
    · intro y; simp only [Worker.popped, hpc]; omega
  | wgDone w wk hw hpc h0 =>
    refine setCase w wk _ _ _ _ _ _ _ _ hw ?_ ?_ (fun h => Or.inr ⟨by simp [hpc, Pc.isActive], h⟩)
    · intro _ hb; simp [hpc, Pc.isActive] at hb
    · intro y; simp only [Worker.popped, hpc]; omega
  | wgWait wg hc hstate => exact ⟨hd.not_aborted, hd.items, hd.running, hd.covered⟩
  | wgRelease wg hc => exact ⟨hd.not_aborted, hd.items, hd.running, hd.covered⟩
  | wgResume wg hc => exact ⟨hd.not_aborted, hd.items, hd.running, hd.covered⟩

/-! ## The lifecycle state along a schedule -/

theorem Pool.Signal_state (pool : Pool I) : pool.Signal.state = pool.state := by
  obtain ⟨sel, he⟩ := Pool.Signal_eq pool
  rw [he]

theorem Pool.spawn_state [Inhabited I] (pool p1 : Pool I) (h : pool.spawn = some p1) :
    p1.state = pool.state := by
  unfold Pool.spawn at h
  split at h
  · cases h
  · simp only [Option.some.injEq] at h
    rw [← h]

theorem Pool.spawnLoop_state [Inhabited I] (k : Nat) (pool p1 : Pool I)
    (h : Pool.spawnLoop k pool = some p1) : p1.state = pool.state := by
  induction k generalizing pool with
  | zero =>
    simp only [Pool.spawnLoop, Option.some.injEq] at h
    rw [← h]
  | succ k ih =>
    unfold Pool.spawnLoop at h
    split at h
    · simp only [Option.some.injEq] at h
      rw [← h]
    · cases hp : pool.spawn with
      | none => simp [hp] at h
      | some p2 =>
        simp only [hp] at h
        exact (ih p2 h).trans (Pool.spawn_state pool p2 hp)

theorem Pool.Push_state [Inhabited I] (pool : Pool I) (x : I) (r : Pool I × Option PoolError)
    (h : pool.Push x = some r) : r.1.state = pool.state := by
  unfold Pool.Push at h
  split at h
  · simp only [Option.some.injEq] at h
    rw [← h]
  · rw [← Pool.spawnLoop_one] at h
    cases hp : Pool.spawnLoop 1 pool with
    | none => simp [hp] at h
    | some p1 =>
      simp only [hp, Option.some.injEq] at h
      rw [← h]
      simp only [Pool.Signal_state]
      exact Pool.spawnLoop_state 1 pool p1 hp

theorem Pool.PushAll_state [Inhabited I] (pool : Pool I) (xs : List I)
    (r : Pool I × Option PoolError) (h : pool.PushAll xs = some r) :
    r.1.state = pool.state := by
  unfold Pool.PushAll at h
  split at h
  · simp only [Option.some.injEq] at h
    rw [← h]
  · cases hp : Pool.spawnLoop xs.length pool with
    | none => simp [hp] at h
    | some p1 =>
      simp only [hp, Option.some.injEq] at h
      rw [← h]
      simp only [Pool.Broadcast]
      exact Pool.spawnLoop_state _ pool p1 hp

/-- Only `Finish` and `Abort` write the lifecycle state. -/
theorem step_state [Inhabited I] {s s1 : Sys I} {a : Action I} (h : step s a = some s1)
    (hf : a ≠ .finish) (ha : a ≠ .abort) : s1.pool.state = s.pool.state := by
  cases a with
  | push x =>
    simp only [step] at h
    cases hp : s.pool.Push x with
    | none => simp [hp] at h
    | some r =>
      simp only [hp, Option.some.injEq] at h
      subst h
      exact Pool.Push_state _ _ r hp
  | pushAll xs =>
    simp only [step] at h
    cases hp : s.pool.PushAll xs with
    | none => simp [hp] at h
    | some r =>
      simp only [hp, Option.some.injEq] at h
      subst h
      exact Pool.PushAll_state _ _ r hp
  | finish => exact absurd rfl hf
  | abort => exact absurd rfl ha
  | next w =>
    simp only [step] at h
    cases hw : s.pool.workers[w]? with
    | none => simp [hw] at h
    | some wk =>
      simp only [hw] at h
      cases hpc : wk.pc with
      | fetch =>
        simp only [hpc] at h
        cases hn : s.pool.next with
        | none => simp [hn] at h
        | some r =>
          obtain ⟨res, p⟩ := r
          have hp : p.state = s.pool.state := by
            unfold Pool.next at hn
            split at hn
            · split at hn <;> (simp at hn; rw [← hn.2])
            · split at hn
              · simp at hn
              · simp at hn; rw [← hn.2]
          cases res <;> (simp [hn] at h; subst h; simpa [Pool.setWorker] using hp)
      | _ => simp [hpc] at h
  | task w =>
    simp only [step] at h
    cases hw : s.pool.workers[w]? with
    | none => simp [hw] at h
    | some wk =>
      simp only [hw] at h
      cases hpc : wk.pc with
      | gotItem x => simp [hpc] at h; subst h; rfl
      | _ => simp [hpc] at h
  | sync w =>
    simp only [step] at h
    cases hw : s.pool.workers[w]? with
    | none => simp [hw] at h
    | some wk =>
      simp only [hw] at h
      cases hpc : wk.pc with
      | flush =>
        simp only [hpc, Handle.Sync] at h
        cases hp : s.pool.PushAll wk.handle.items with
        | none => simp [hp] at h
        | some r =>
          simp only [hp, Option.some.injEq] at h
          subst h
          simpa [Pool.setWorker] using Pool.PushAll_state _ _ r hp
      | _ => simp [hpc] at h
  | dec w =>
    simp only [step] at h
    cases hw : s.pool.workers[w]? with
    | none => simp [hw] at h
    | some wk =>
      simp only [hw] at h
      cases hpc : wk.pc with
      | retiring => simp [hpc] at h; subst h; rfl
      | _ => simp [hpc] at h
  | wgDone w =>
    simp only [step] at h
    cases hw : s.pool.workers[w]? with
    | none => simp [hw] at h
    | some wk =>
      simp only [hw] at h
      cases hpc : wk.pc with
      | decremented =>
        simp only [hpc, WaitGroup.Done_eq] at h
        by_cases h0 : s.pool.wg.counter = 0
        · simp [h0] at h
        · simp [h0] at h; subst h; rfl
      | _ => simp [hpc] at h
  | wgWait =>
    simp only [step] at h
    split at h
    · cases h
    · simp only [Option.some.injEq] at h
      subst h; rfl
  | wgRelease =>
    simp only [step] at h
    split at h
    · cases h
    · simp only [Option.some.injEq] at h
      subst h; rfl
  | wgResume =>
    simp only [step] at h
    split at h
    · cases h
    · simp only [Option.some.injEq] at h
      subst h; rfl

theorem step_abort_state [Inhabited I] {s s1 : Sys I} (h : step s .abort = some s1) :
    s1.pool.state = PoolAbort := by
  simp only [step, Option.some.injEq] at h
  subst h
  rfl

theorem run_state_abort [Inhabited I] (tr : List (Action I)) {s s1 : Sys I}
    (hs : s.pool.state = PoolAbort) (hnf : Action.finish ∉ tr) (h : run s tr = some s1) :
    s1.pool.state = PoolAbort := by
  induction tr generalizing s with
  | nil => simp [run] at h; subst h; exact hs
  | cons a as ih =>
    simp only [run] at h
    cases hst : step s a with
    | none => simp [hst] at h
    | some s2 =>
      simp only [hst] at h
      have hne : a ≠ .finish := fun he => hnf (by simp [he])
      have has : Action.finish ∉ as := fun hm => hnf (List.mem_cons_of_mem _ hm)
      by_cases hab : a = .abort
      · subst hab
        exact ih (step_abort_state hst) has h
      · exact ih ((step_state hst hne hab).trans hs) has h

/-- A draining schedule keeps both invariants. -/
theorem DrainInv.kept_run [Inhabited I] {m : Int} (hm1 : 1 ≤ m) (hm : IsInt32 m)
    (tr : List (Action I)) (fin : Bool) {s s1 : Sys I} (hi : Inv m s) (hd : DrainInv s)
    (hfin : fin = false → s.pool.state = PoolRun) (htr : drains fin tr = true)
    (h : run s tr = some s1) : DrainInv s1 := by
  induction tr generalizing s fin with
  | nil => simp [Cuba.run] at h; subst h; exact hd
  | cons a as ih =>
    simp only [Cuba.run] at h
    cases hst : Cuba.step s a with
    | none => simp [hst] at h
    | some s2 =>
      simp only [hst] at h
      have hi2 := hi.preserved_step hm hst
      cases a with
      | abort => simp [drains] at htr
      | finish =>
        simp only [drains] at htr
        exact ih true hi2 (hd.kept_step hm1 hm hi (by simp) (by simp [Action.isPush]) hst)
          (by simp) htr h
      | push x =>
        simp only [drains, Bool.and_eq_true, Bool.not_eq_true'] at htr
        have hr := hfin htr.1
        exact ih fin hi2 (hd.kept_step hm1 hm hi (by simp) (fun _ => hr) hst)
          (fun _ => (step_state hst (by simp) (by simp)).trans hr) htr.2 h
      | pushAll xs =>
        simp only [drains, Bool.and_eq_true, Bool.not_eq_true'] at htr
        have hr := hfin htr.1
        exact ih fin hi2 (hd.kept_step hm1 hm hi (by simp) (fun _ => hr) hst)
          (fun _ => (step_state hst (by simp) (by simp)).trans hr) htr.2 h
      | next w =>
        simp only [drains] at htr
        exact ih fin hi2 (hd.kept_step hm1 hm hi (by simp) (by simp [Action.isPush]) hst)
          (fun hf => (step_state hst (by simp) (by simp)).trans (hfin hf)) htr h
      | task w =>
        simp only [drains] at htr
        exact ih fin hi2 (hd.kept_step hm1 hm hi (by simp) (by simp [Action.isPush]) hst)
          (fun hf => (step_state hst (by simp) (by simp)).trans (hfin hf)) htr h
      | sync w =>
        simp only [drains] at htr
        exact ih fin hi2 (hd.kept_step hm1 hm hi (by simp) (by simp [Action.isPush]) hst)
          (fun hf => (step_state hst (by simp) (by simp)).trans (hfin hf)) htr h
      | dec w =>
        simp only [drains] at htr
        exact ih fin hi2 (hd.kept_step hm1 hm hi (by simp) (by simp [Action.isPush]) hst)
          (fun hf => (step_state hst (by simp) (by simp)).trans (hfin hf)) htr h
      | wgDone w =>
        simp only [drains] at htr
        exact ih fin hi2 (hd.kept_step hm1 hm hi (by simp) (by simp [Action.isPush]) hst)
          (fun hf => (step_state hst (by simp) (by simp)).trans (hfin hf)) htr h
      | wgWait =>
        simp only [drains] at htr
        exact ih fin hi2 (hd.kept_step hm1 hm hi (by simp) (by simp [Action.isPush]) hst)
          (fun hf => (step_state hst (by simp) (by simp)).trans (hfin hf)) htr h
      | wgRelease =>
        simp only [drains] at htr
        exact ih fin hi2 (hd.kept_step hm1 hm hi (by simp) (by simp [Action.isPush]) hst)
          (fun hf => (step_state hst (by simp) (by simp)).trans (hfin hf)) htr h
      | wgResume =>
        simp only [drains] at htr
        exact ih fin hi2 (hd.kept_step hm1 hm hi (by simp) (by simp [Action.isPush]) hst)
          (fun hf => (step_state hst (by simp) (by simp)).trans (hfin hf)) htr h

theorem total_held_eq_zero (ws : List (Worker I))
    (h : ∀ w ∈ ws, w.pc = .exited ∧ w.handle.items = []) : total Worker.held ws = 0 := by
  induction ws with
  | nil => rfl
  | cons w ws ih =>
    have hw := h w (List.mem_cons_self _ _)
    have := ih (fun v hv => h v (List.mem_cons_of_mem _ hv))
    simp only [total, List.map_cons, List.sum_cons] at this ⊢
    rw [this]
    simp [Worker.held, Worker.popped, hw.1, hw.2]

/-- When the wait group is at zero every goroutine has returned. -/
theorem Inv.all_exited {m : Int} {s : Sys I} (hi : Inv m s) (hwg : s.pool.wg.counter = 0) :
    ∀ w ∈ s.pool.workers, w.pc = .exited := by
  intro w hw
  by_contra hne
  have : w.pc.isOutstanding = true := by
    cases hpc : w.pc <;> simp_all [Pc.isOutstanding]
  have := total_ind_pos_of_mem Pc.isOutstanding _ w hw this
  have := hi.wg_eq
  omega

/-- C1 (amended): for a pool made by `New` on an empty stack or queue with a maximum of at
least one worker, and every schedule in which `Abort` is not called and all `Push`/`PushAll`
calls from outside come before `Finish()`: when `Finish()` returns (the state is `PoolFinish`
and the wait group is at zero) the bucket is empty, every goroutine has returned, and the
items passed to the task are, counted with repetitions, exactly the items ever pushed from
outside or staged by a task. -/
theorem C1_finish_drains_exactly_once [Inhabited I] (numCPU : Int) (task : Task I)
    (bucket : Bucket I) (m : Int) (tr : List (Action I)) (s : Sys I)
    (hb : bucket = .stack NewStack ∨ bucket = .queue NewQueue)
    (hm1 : 1 ≤ m) (hm : IsInt32 m)
    (htr : drains false tr = true)
    (h : run (Sys.init numCPU task bucket m) tr = some s)
    (_hfin : s.pool.state = PoolFinish) (hret : s.pool.waitReturns = true) :
    s.pool.bucket.IsEmpty = true ∧
    (∀ w ∈ s.pool.workers, w.pc = .exited) ∧
    s.processed.Perm s.offered := by
  have hi0 := Inv.at_init numCPU task bucket m
  have hd0 : DrainInv (Sys.init numCPU task bucket m) := by
    constructor
    · simp [Sys.init, New, Pool.SetMaxWorkers]
    · rcases hb with rfl | rfl <;>
        simp [Sys.init, New, Pool.SetMaxWorkers, total, Bucket.contents, NewStack, NewQueue,
          NewList, LinkedList.Init]
    · intro _ w hw; simp [Sys.init, New, Pool.SetMaxWorkers] at hw
    · intro hne
      rcases hb with rfl | rfl <;>
        simp [Sys.init, New, Pool.SetMaxWorkers, Bucket.contents, NewStack, NewQueue,
          NewList, LinkedList.Init] at hne
  have hi := hi0.preserved_run hm tr h
  have hd := hd0.kept_run hm1 hm tr false hi0 (fun _ => rfl) htr h
  have hwg : s.pool.wg.counter = 0 := by simpa [Pool.waitReturns] using hret
  have hex := hi.all_exited hwg
  have hempty : s.pool.bucket.contents = [] := by
    by_contra hne
    obtain ⟨w, hw, hact⟩ := exists_of_total_ind_pos _ _ (hd.covered hne)
    rw [hex w hw] at hact
    simp [Pc.isActive] at hact
  have hheld : total Worker.held s.pool.workers = 0 :=
    total_held_eq_zero _ (fun w hw => ⟨hex w hw, hi.staged w hw (by rw [hex w hw]; simp)⟩)
  refine ⟨(Bucket.IsEmpty_iff _).mpr hempty, hex, ?_⟩
  have := hd.items
  rw [hheld, hempty] at this
  simp only [add_zero, Multiset.coe_nil] at this
  exact (Multiset.coe_eq_coe.mp this).symm

/-! ## Draining, the worker bound, and pushes after an abort -/

theorem C1_finish_drains_exactly_once_witness :
    drains false drainSchedule = true ∧
    run (Sys.init 4 countUp (.stack NewStack) 2) drainSchedule
      = some (finalState (Sys.init 4 countUp (.stack NewStack) 2) drainSchedule) ∧
    (finalState (Sys.init 4 countUp (.stack NewStack) 2) drainSchedule).offered = [0, 5, 1, 2] ∧
    ((finalState (Sys.init 4 countUp (.stack NewStack) 2) drainSchedule).pool.bucket.IsEmpty
        = true ∧
      (∀ w ∈ (finalState (Sys.init 4 countUp (.stack NewStack) 2) drainSchedule).pool.workers,
        w.pc = .exited) ∧
      (finalState (Sys.init 4 countUp (.stack NewStack) 2) drainSchedule).processed.Perm
        (finalState (Sys.init 4 countUp (.stack NewStack) 2) drainSchedule).offered) :=
  ⟨by decide, by rfl, by decide,
   C1_finish_drains_exactly_once 4 countUp (.stack NewStack) 2 drainSchedule _ (Or.inl rfl)
     (by decide) (by decide) (by decide) (by rfl) (by decide) (by decide)⟩

/-- C1 as stated fails for a maximum of zero workers: after `Push(7)` and `Finish()` the wait
group is at zero, so `Finish()` returns, while the item is still in the bucket and the task
was never called. -/
theorem C1_fails_with_zero_workers :
    drains false ([.push 7, .finish] : List (Action Nat)) = true ∧
    run (Sys.init 4 noStage (.stack NewStack) 0) [.push 7, .finish] = some zeroWorkers ∧
    zeroWorkers.pool.state = PoolFinish ∧
    zeroWorkers.pool.waitReturns = true ∧
    zeroWorkers.pool.bucket.IsEmpty = false ∧
    zeroWorkers.pool.bucket.contents = [7] ∧
    zeroWorkers.offered = [7] ∧
    zeroWorkers.processed = [] :=
  ⟨by decide, by rfl, by decide, by decide, by decide, by decide, by decide, by decide⟩

/-- C4: with a maximum `m >= 0` set before the first push and not changed afterwards, in every
state reached by any schedule of `Push`, `PushAll`, `Finish`, `Abort` and worker steps the
live-worker counter is between zero and `m`, it counts exactly the goroutines that have not
yet decremented it, and at most `m` workers hold an item for the task at once. -/
theorem C4_live_workers_within_maximum [Inhabited I] (numCPU : Int) (task : Task I)
    (bucket : Bucket I) (m : Int) (tr : List (Action I)) (s : Sys I)
    (hm0 : 0 ≤ m) (hm : IsInt32 m)
    (h : run (Sys.init numCPU task bucket m) tr = some s) :
    0 ≤ s.pool.numWorkers ∧ s.pool.numWorkers ≤ m ∧ s.pool.maxWorkers = m ∧
    s.pool.numWorkers = (total (Worker.ind Pc.isLive) s.pool.workers : Nat) ∧
    ((total (Worker.ind Pc.inTask) s.pool.workers : Nat) : Int) ≤ m ∧
    ((total (Worker.ind Pc.isActive) s.pool.workers : Nat) : Int) ≤ m := by
  have hi := (Inv.at_init numCPU task bucket m).preserved_run hm tr h
  have h1 := hi.num_eq
  have h2 := hi.num_le
  have h3 := total_ind_mono Pc.inTask Pc.isLive
    (fun pc hpc => by cases pc <;> simp_all [Pc.inTask, Pc.isLive]) s.pool.workers
  have h4 := total_ind_mono Pc.isActive Pc.isLive (fun pc hpc => isActive_isLive pc hpc)
    s.pool.workers
  refine ⟨?_, ?_, hi.max_eq, h1, ?_, ?_⟩ <;> omega

theorem C4_live_workers_within_maximum_witness :
    (0 : Int) ≤ 2 ∧ IsInt32 2 ∧
    run (Sys.init 4 countUp (.stack NewStack) 2) [.pushAll [0, 5, 6], .next 0, .next 1, .push 9]
      = some (finalState (Sys.init 4 countUp (.stack NewStack) 2)
          [.pushAll [0, 5, 6], .next 0, .next 1, .push 9]) ∧
    (finalState (Sys.init 4 countUp (.stack NewStack) 2)
      [.pushAll [0, 5, 6], .next 0, .next 1, .push 9]).pool.numWorkers ≤ 2 :=
  ⟨by decide, by decide, by rfl,
   (C4_live_workers_within_maximum 4 countUp (.stack NewStack) 2
      [.pushAll [0, 5, 6], .next 0, .next 1, .push 9] _ (by decide) (by decide) (by rfl)).2.1⟩

/-- C3 (amended): once `Abort()` has run, after any schedule of `Push`, `PushAll`, `Abort` and
worker steps that contains no later `Finish()`, every `Push` and `PushAll` returns
`PoolAbortedErr` and leaves the pool, its bucket included, unchanged. -/
theorem C3_rejects_until_finish [Inhabited I] (s0 s1 s : Sys I) (tr : List (Action I))
    (x : I) (xs : List I)
    (h0 : step s0 .abort = some s1) (hnf : Action.finish ∉ tr) (h : run s1 tr = some s) :
    s.pool.state = PoolAbort ∧
    s.pool.Push x = some (s.pool, some PoolAbortedErr) ∧
    s.pool.PushAll xs = some (s.pool, some PoolAbortedErr) ∧
    (s.pool.Push x).map (fun r => r.1.bucket) = some s.pool.bucket ∧
    (s.pool.PushAll xs).map (fun r => r.1.bucket) = some s.pool.bucket := by
  have hs := run_state_abort tr (step_abort_state h0) hnf h
  refine ⟨hs, Pool.Push_aborted _ _ hs, Pool.PushAll_aborted _ _ hs, ?_, ?_⟩
  · rw [Pool.Push_aborted _ _ hs]; rfl
  · rw [Pool.PushAll_aborted _ _ hs]; rfl

theorem C3_rejects_until_finish_witness :
    step abortStart .abort = some abortCalled ∧
    Action.finish ∉ abortSchedule ∧
    run abortCalled abortSchedule = some abortLater ∧
    (abortLater.pool.state = PoolAbort ∧
      abortLater.pool.Push 4 = some (abortLater.pool, some PoolAbortedErr) ∧
      abortLater.pool.PushAll [4, 5] = some (abortLater.pool, some PoolAbortedErr) ∧
      (abortLater.pool.Push 4).map (fun r => r.1.bucket) = some abortLater.pool.bucket ∧
      (abortLater.pool.PushAll [4, 5]).map (fun r => r.1.bucket)
        = some abortLater.pool.bucket) :=
  ⟨by rfl, by decide, by rfl,
   C3_rejects_until_finish abortStart abortCalled abortLater abortSchedule 4 [4, 5]
     (by rfl) (by decide) (by rfl)⟩

/-- C3 as stated fails: a `Finish()` after the `Abort()` sets the state to `PoolFinish`, and
the next `Push` is accepted and lands in the bucket. -/
theorem C3_fails_after_finish :
    run (Sys.init 4 noStage (.queue NewQueue) 2) [.abort, .finish] = some abortThenFinish ∧
    (abortThenFinish.pool.Push 5).map Prod.snd = some none ∧
    abortThenFinish.pool.bucket.contents = [] ∧
    (abortThenFinish.pool.Push 5).map (fun r => r.1.bucket.contents) = some [5] ∧
    (abortThenFinish.pool.PushAll [5, 6]).map Prod.snd = some none ∧
    (abortThenFinish.pool.PushAll [5, 6]).map (fun r => r.1.bucket.contents) = some [5, 6] :=
  ⟨by rfl, by decide, by decide, by decide, by decide, by decide⟩

/-! ## One worker at a time: processing order -/

theorem flatMap_set_same (f : Worker I → List I) (ws : List (Worker I)) (i : Nat)
    (a b : Worker I) (h : ws[i]? = some a) (hf : f b = f a) :
    (ws.set i b).flatMap f = ws.flatMap f := by
  induction ws generalizing i with
  | nil => simp at h
  | cons w ws ih =>
    cases i with
    | zero =>
      simp at h
      subst h
      simp [List.flatMap_cons, hf]
    | succ i =>
      simp at h
      simp [List.flatMap_cons, ih i h]

theorem flatMap_eq_nil_of_total (f : Worker I → List I) (ws : List (Worker I))
    (hle : total (Worker.ind Pc.isLive) ws = 0)
    (hz : ∀ v ∈ ws, v.pc.isLive = false → f v = []) : ws.flatMap f = [] := by
  induction ws with
  | nil => rfl
  | cons w ws ih =>
    simp only [total, List.map_cons, List.sum_cons] at hle ih
    have hw : w.pc.isLive = false := by
      by_contra hne
      have : w.ind Pc.isLive = 1 := by simp [Worker.ind] ; simpa using hne
      omega
    have h0 : w.ind Pc.isLive = 0 := by simp [Worker.ind, hw]
    rw [List.flatMap_cons, hz w (List.mem_cons_self _ _) hw,
      ih (by omega) (fun v hv => hz v (List.mem_cons_of_mem _ hv))]
    rfl

/-- With at most one live worker, a measure that vanishes on retired workers is carried by
that worker alone. -/
theorem flatMap_unique_live (f : Worker I → List I) (ws : List (Worker I)) (i : Nat)
    (a : Worker I) (h : ws[i]? = some a) (hlive : a.pc.isLive = true)
    (hle : total (Worker.ind Pc.isLive) ws ≤ 1)
    (hz : ∀ v ∈ ws, v.pc.isLive = false → f v = []) : ws.flatMap f = f a := by
  induction ws generalizing i with
  | nil => simp at h
  | cons w ws ih =>
    simp only [total, List.map_cons, List.sum_cons] at hle ih
    cases i with
    | zero =>
      simp at h
      subst h
      have h1 : w.ind Pc.isLive = 1 := by simp [Worker.ind, hlive]
      rw [List.flatMap_cons, flatMap_eq_nil_of_total f ws (by simp only [total]; omega)
        (fun v hv => hz v (List.mem_cons_of_mem _ hv))]
      simp
    | succ i =>
      simp at h
      have hpos := total_ind_pos_of_mem Pc.isLive ws a (List.getElem?_mem h) hlive
      simp only [total] at hpos
      have hw : w.pc.isLive = false := by
        by_contra hne
        have : w.ind Pc.isLive = 1 := by simp [Worker.ind]; simpa using hne
        omega
      have h0 : w.ind Pc.isLive = 0 := by simp [Worker.ind, hw]
      rw [List.flatMap_cons, hz w (List.mem_cons_self _ _) hw,
        ih i h (by omega) (fun v hv => hz v (List.mem_cons_of_mem _ hv))]
      rfl

theorem flatMap_wake (f : Worker I → List I) (sel : Nat → Bool) (ws : List (Worker I))
    (hf : ∀ w, f (w.wakeIf sel) = f w) :
    (ws.map (Worker.wakeIf sel)).flatMap f = ws.flatMap f := by
  induction ws with
  | nil => rfl
  | cons w ws ih => simp [List.flatMap_cons, hf, ih]

theorem Pushed.flatMap_eq [Inhabited I] {pool p1 : Pool I} {xs : List I} {j : Nat}
    (h : Pushed pool xs j p1) (f : Worker I → List I)
    (hf : ∀ sel w, f (Worker.wakeIf sel w) = f w) (hfresh : f Worker.fresh = []) :
    p1.workers.flatMap f = pool.workers.flatMap f := by
  obtain ⟨sel, he⟩ := h.workers_eq
  rw [he, flatMap_wake f sel _ (hf sel), List.flatMap_append]
  have : (List.replicate j (Worker.fresh : Worker I)).flatMap f = [] := by
    induction j with
    | zero => rfl
    | succ j ih => simp [List.replicate_succ, List.flatMap_cons, hfresh, ih]
  rw [this, List.append_nil]

theorem popped_of_not_live (v : Worker I) (h : v.pc.isLive = false) : v.popped = [] := by
  obtain ⟨pc, hd⟩ := v
  cases pc <;> simp_all [Pc.isLive, Worker.popped]

theorem Inv.live_le_one {s : Sys I} (hi : Inv 1 s) :
    total (Worker.ind Pc.isLive) s.pool.workers ≤ 1 := by
  have h1 := hi.num_eq
  have h2 := hi.num_le
  omega

theorem getElem?_set_self_of_some (ws : List (Worker I)) (i : Nat) (a b : Worker I)
    (h : ws[i]? = some a) : (ws.set i b)[i]? = some b := by
  have hi : i < ws.length := by
    rcases Nat.lt_or_ge i ws.length with h1 | h1
    · exact h1
    · rw [List.getElem?_eq_none h1] at h; cases h
  simp [List.getElem?_set, hi]

/-- A measure that vanishes on retired workers, before and after a step of worker `w`, when
at most one worker is live. -/
theorem flatMap_step (f : Worker I → List I) {ws : List (Worker I)} {w : Nat}
    {wk : Worker I} (b : Worker I)
    (hw : ws[w]? = some wk) (hlive : wk.pc.isLive = true)
    (hle : total (Worker.ind Pc.isLive) ws ≤ 1)
    (hz : ∀ v ∈ ws, v.pc.isLive = false → f v = [])
    (hzb : b.pc.isLive = false → f b = []) :
    ws.flatMap f = f wk ∧ (ws.set w b).flatMap f = f b := by
  have h1 := flatMap_unique_live f ws w wk hw hlive hle hz
  refine ⟨h1, ?_⟩
  have hz1 : ∀ v ∈ ws.set w b, v.pc.isLive = false → f v = [] := by
    intro v hv hl
    rcases List.mem_or_eq_of_mem_set hv with h | h
    · exact hz v h hl
    · subst h; exact hzb hl
  have ht := total_set (Worker.ind Pc.isLive) ws w wk b hw
  have e1 : wk.ind Pc.isLive = 1 := by simp [Worker.ind, hlive]
  by_cases hb : b.pc.isLive = true
  · have e2 : b.ind Pc.isLive = 1 := by simp [Worker.ind, hb]
    exact flatMap_unique_live f _ w b (getElem?_set_self_of_some ws w wk b hw) hb
      (by omega) hz1
  · have e2 : b.ind Pc.isLive = 0 := by simp [Worker.ind, hb]
    have hb0 : b.pc.isLive = false := by simpa using hb
    rw [hzb hb0]
    exact flatMap_eq_nil_of_total f _ (by omega) hz1

/-- The items in flight before and after a step of worker `w`, when at most one worker is
live. -/
theorem inFlight_step {ws : List (Worker I)} {w : Nat} {wk b : Worker I}
    (hw : ws[w]? = some wk) (hlive : wk.pc.isLive = true)
    (hle : total (Worker.ind Pc.isLive) ws ≤ 1) :
    inFlight ws = wk.popped ∧ inFlight (ws.set w b) = b.popped :=
  flatMap_step Worker.popped b hw hlive hle (fun v _ hv => popped_of_not_live v hv)
    (fun hv => popped_of_not_live b hv)

/-- On a queue with a maximum of one worker, every step keeps the items in the order they
entered the bucket. -/
theorem FifoInv.kept_fifo [Inhabited I] {s s1 : Sys I} {a : Action I} (hi : Inv 1 s)
    (hk : FifoInv s) (h : step s a = some s1) : FifoInv s1 := by
  obtain ⟨hn32, hm32⟩ := hi.isInt32 (by decide)
  have hle := hi.live_le_one
  have hq := hk.queue
  have ho := hk.order
  have pushCase : ∀ (xs : List I) (j : Nat) (p1 : Pool I) (off : List I),
      Pushed s.pool xs j p1 →
      FifoInv { s with pool := p1, offered := off, inserted := s.inserted ++ xs } := by
    intro xs j p1 off hp
    constructor
    · dsimp only; rw [hp.kind]; exact hq
    · dsimp only
      have : inFlight p1.workers = inFlight s.pool.workers :=
        hp.flatMap_eq Worker.popped (fun sel w => popped_wakeIf sel w) rfl
      rw [this, hp.contents, ho]
      simp
  have sameCase : ∀ (w : Nat) (wk b : Worker I) (cond : Nat) (n : Int) (wg : WaitGroup),
      s.pool.workers[w]? = some wk → b.popped = wk.popped →
      FifoInv { s with pool := { s.pool with
        cond := cond, numWorkers := n, wg := wg, workers := s.pool.workers.set w b } } := by
    intro w wk b cond n wg hw hb
    constructor
    · exact hq
    · dsimp only
      have : inFlight (s.pool.workers.set w b) = inFlight s.pool.workers :=
        flatMap_set_same Worker.popped _ w wk b hw hb
      rw [this]; exact ho
  cases step_spec s s1 a hn32 hm32 h with
  | pushOk x j p1 hp => exact pushCase _ _ _ _ hp
  | pushRejected x hs => exact ⟨hq, ho⟩
  | pushAllOk xs j p1 hp => exact pushCase _ _ _ _ hp
  | pushAllRejected xs hs => exact ⟨hq, ho⟩
  | finish =>
    constructor
    · exact hq
    · dsimp only
      have : inFlight (s.pool.workers.map (Worker.wakeIf (fun _ => true)))
          = inFlight s.pool.workers := flatMap_wake _ _ _ (fun w => popped_wakeIf _ w)
      rw [this]; exact ho
  | abort =>
    constructor
    · exact hq
    · dsimp only
      have : inFlight (s.pool.workers.map (Worker.wakeIf (fun _ => true)))
          = inFlight s.pool.workers := flatMap_wake _ _ _ (fun w => popped_wakeIf _ w)
      rw [this]; exact ho
  | nextItem w wk x b hw hpc hpop =>
    obtain ⟨hkind, hc, _⟩ := Bucket.Pop_spec _ _ _ hpop
    obtain ⟨h1, h2⟩ := inFlight_step (b := { wk with pc := .gotItem x }) hw
      (by simp [hpc, Pc.isLive]) hle
    constructor
    · dsimp only; rw [hkind]; exact hq
    · dsimp only
      rw [h2, ho, h1, hc hq]
      simp [Worker.popped, hpc]
  | nextRetire w wk hw hpc he hs =>
    exact sameCase w wk _ _ _ _ hw (by simp [Worker.popped, hpc])
  | nextWait w wk hw hpc he hs =>
    exact sameCase w wk _ _ _ _ hw (by simp [Worker.popped, hpc])
  | task w wk x hw hpc =>
    obtain ⟨h1, h2⟩ := inFlight_step
      (b := { pc := .flush, handle := { item := x, items := wk.handle.items ++ s.pool.task x } })
      hw (by simp [hpc, Pc.isLive]) hle
    constructor
    · exact hq
    · dsimp only
      rw [h2, ho, h1]
      simp [Worker.popped, hpc]
  | syncOk w wk j p1 hw hpc hp =>
    have hw1 := hp.getElem hw (by intro t ht; rw [hpc] at ht; cases ht)
    have hb := pushCase _ _ _ s.offered hp
    constructor
    · exact hb.queue
    · dsimp only
      have : inFlight (p1.workers.set w { pc := .fetch, handle := { wk.handle with items := [] } })
          = inFlight p1.workers :=
        flatMap_set_same Worker.popped _ w wk _ hw1 (by simp [Worker.popped, hpc])
      rw [this]; exact hb.order
  | syncRejected w wk hw hpc hs =>
    exact sameCase w wk _ _ _ _ hw (by simp [Worker.popped, hpc])
  | dec w wk hw hpc =>
    exact sameCase w wk _ _ _ _ hw (by simp [Worker.popped, hpc])
  | wgDone w wk hw hpc h0 =>
    exact sameCase w wk _ _ _ _ hw (by simp [Worker.popped, hpc])
  | wgWait wg hc hstate => exact ⟨hk.queue, hk.order⟩
  | wgRelease wg hc => exact ⟨hk.queue, hk.order⟩
  | wgResume wg hc => exact ⟨hk.queue, hk.order⟩

theorem staged_of_not_live {m : Int} {s : Sys I} (hi : Inv m s) :
    ∀ v ∈ s.pool.workers, v.pc.isLive = false → v.handle.items = [] := by
  intro v hv hl
  apply hi.staged v hv
  intro hf
  rw [hf] at hl
  simp [Pc.isLive] at hl

theorem quiet_state [Inhabited I] {s s1 : Sys I} {a : Action I} (h : step s a = some s1)
    (hq : a.isQuiet = true) (hna : s.pool.state ≠ PoolAbort) : s1.pool.state ≠ PoolAbort := by
  by_cases hf : a = .finish
  · subst hf
    simp only [step, Option.some.injEq] at h
    subst h
    simp [Pool.Finish, Pool.Broadcast]
  · have ha : a ≠ .abort := by intro he; subst he; simp [Action.isQuiet] at hq
    rw [step_state h hf ha]; exact hna

/-- With a maximum of one worker, a worker step or `Finish` in a pool that is not aborted keeps
the discovery order: what entered the bucket or is staged is the outside pushes followed by
what the task staged for each processed item. -/
theorem DiscoveryInv.kept_found [Inhabited I] {task : Task I} {ext : List I} {s s1 : Sys I}
    {a : Action I} (hi : Inv 1 s) (hj : DiscoveryInv task ext s) (hq : a.isQuiet = true)
    (hna : s.pool.state ≠ PoolAbort) (h : step s a = some s1) : DiscoveryInv task ext s1 := by
  obtain ⟨hn32, hm32⟩ := hi.isInt32 (by decide)
  have hi1 := hi.preserved_step (by decide) h
  have hle := hi.live_le_one
  have hle1 := hi1.live_le_one
  have hz1 := staged_of_not_live hi1
  have ht := hj.task_eq
  have hf := hj.found
  have sameCase : ∀ (w : Nat) (wk b : Worker I) (bucket : Bucket I) (cond : Nat) (n : Int)
      (wg : WaitGroup),
      s.pool.workers[w]? = some wk → b.handle.items = wk.handle.items →
      DiscoveryInv task ext { s with pool := { s.pool with
        bucket := bucket, cond := cond, numWorkers := n, wg := wg,
        workers := s.pool.workers.set w b } } := by
    intro w wk b bucket cond n wg hw hb
    constructor
    · exact ht
    · dsimp only
      have : stagedItems (s.pool.workers.set w b) = stagedItems s.pool.workers :=
        flatMap_set_same (fun w => w.handle.items) _ w wk b hw hb
      rw [this]; exact hf
  cases step_spec s s1 a hn32 hm32 h with
  | pushOk x j p1 hp => simp [Action.isQuiet] at hq
  | pushRejected x hs => simp [Action.isQuiet] at hq
  | pushAllOk xs j p1 hp => simp [Action.isQuiet] at hq
  | pushAllRejected xs hs => simp [Action.isQuiet] at hq
  | finish =>
    constructor
    · exact ht
    · dsimp only
      have : stagedItems (s.pool.workers.map (Worker.wakeIf (fun _ => true)))
          = stagedItems s.pool.workers :=
        flatMap_wake _ _ _ (fun w => by rw [Worker.wakeIf_handle])
      rw [this]; exact hf
  | abort => simp [Action.isQuiet] at hq
  | nextItem w wk x b hw hpc hpop => exact sameCase w wk _ _ _ _ _ hw rfl
  | nextRetire w wk hw hpc he hs => exact sameCase w wk _ _ _ _ _ hw rfl
  | nextWait w wk hw hpc he hs => exact sameCase w wk _ _ _ _ _ hw rfl
  | task w wk x hw hpc =>
    obtain ⟨h1, h2⟩ := flatMap_step (fun w => w.handle.items)
      { pc := .flush, handle := { item := x, items := wk.handle.items ++ s.pool.task x } }
      hw (by simp [hpc, Pc.isLive]) hle (staged_of_not_live hi) (by simp [Pc.isLive])
    constructor
    · exact ht
    · dsimp only
      have e2 : stagedItems (s.pool.workers.set w
          { pc := .flush, handle := { item := x, items := wk.handle.items ++ s.pool.task x } })
          = wk.handle.items ++ s.pool.task x := h2
      have e1 : stagedItems s.pool.workers = wk.handle.items := h1
      rw [e2, List.flatMap_append, ← List.append_assoc, ← List.append_assoc, ← hf, e1, ht]
      simp
  | syncOk w wk j p1 hw hpc hp =>
    have hw1 := hp.getElem hw (by intro t ht; rw [hpc] at ht; cases ht)
    have e1 : stagedItems s.pool.workers = wk.handle.items :=
      flatMap_unique_live _ _ w wk hw (by simp [hpc, Pc.isLive]) hle (staged_of_not_live hi)
    have e2 : stagedItems (p1.workers.set w
        { pc := .fetch, handle := { wk.handle with items := [] } }) = [] :=
      flatMap_unique_live (fun w => w.handle.items) _ w _
        (getElem?_set_self_of_some _ w wk _ hw1) (by simp [Pc.isLive]) hle1 hz1
    constructor
    · dsimp only; rw [hp.task_eq]; exact ht
    · dsimp only
      rw [e2, List.append_nil, ← e1]; exact hf
  | syncRejected w wk hw hpc hs => exact absurd hs hna
  | dec w wk hw hpc => exact sameCase w wk _ _ _ _ _ hw rfl
  | wgDone w wk hw hpc h0 => exact sameCase w wk _ _ _ _ _ hw rfl
  | wgWait wg hc hstate => exact ⟨hj.task_eq, hj.found⟩
  | wgRelease wg hc => exact ⟨hj.task_eq, hj.found⟩
  | wgResume wg hc => exact ⟨hj.task_eq, hj.found⟩

/-- With a maximum of one worker and a task that stages nothing, a step that is no push from
outside and no abort keeps the stack order. -/
theorem LifoInv.kept_lifo [Inhabited I] {target : List I} {s s1 : Sys I} {a : Action I}
    (hi : Inv 1 s) (hl : LifoInv target s) (hq : a.isQuiet = true)
    (h : step s a = some s1) : LifoInv target s1 := by
  obtain ⟨hn32, hm32⟩ := hi.isInt32 (by decide)
  have hle := hi.live_le_one
  have hk := hl.stack
  have hns := hl.no_stage
  have hu := hl.unstaged
  have ho := hl.order
  have sameCase : ∀ (w : Nat) (wk b : Worker I) (cond : Nat) (n : Int) (wg : WaitGroup),
      s.pool.workers[w]? = some wk → b.popped = wk.popped → b.handle.items = [] →
      LifoInv target { s with pool := { s.pool with
        cond := cond, numWorkers := n, wg := wg, workers := s.pool.workers.set w b } } := by
    intro w wk b cond n wg hw hb hbi
    constructor
    · exact hk
    · exact hns
    · exact forall_mem_set _ _ hu hbi
    · dsimp only
      have : inFlight (s.pool.workers.set w b) = inFlight s.pool.workers :=
        flatMap_set_same Worker.popped _ w wk b hw hb
      rw [this]; exact ho
  have hmem : ∀ {w : Nat} {wk : Worker I}, s.pool.workers[w]? = some wk → wk ∈ s.pool.workers :=
    fun hw => List.getElem?_mem hw
  cases step_spec s s1 a hn32 hm32 h with
  | pushOk x j p1 hp => simp [Action.isQuiet] at hq
  | pushRejected x hs => simp [Action.isQuiet] at hq
  | pushAllOk xs j p1 hp => simp [Action.isQuiet] at hq
  | pushAllRejected xs hs => simp [Action.isQuiet] at hq
  | finish =>
    constructor
    · exact hk
    · exact hns
    · exact forall_mem_wake _ hu (fun w hw => by rw [Worker.wakeIf_handle]; exact hw)
    · dsimp only
      have : inFlight (s.pool.workers.map (Worker.wakeIf (fun _ => true)))
          = inFlight s.pool.workers := flatMap_wake _ _ _ (fun w => popped_wakeIf _ w)
      rw [this]; exact ho
  | abort => simp [Action.isQuiet] at hq
  | nextItem w wk x b hw hpc hpop =>
    obtain ⟨hkind, _, hc⟩ := Bucket.Pop_spec _ _ _ hpop
    obtain ⟨h1, h2⟩ := inFlight_step (b := { wk with pc := .gotItem x }) hw
      (by simp [hpc, Pc.isLive]) hle
    constructor
    · dsimp only; rw [hkind]; exact hk
    · exact hns
    · exact forall_mem_set _ _ hu (hu wk (hmem hw))
    · dsimp only
      rw [h2, ← ho, h1, hc hk]
      simp [Worker.popped, hpc]
  | nextRetire w wk hw hpc he hs =>
    exact sameCase w wk _ _ _ _ hw (by simp [Worker.popped, hpc]) (hu wk (hmem hw))
  | nextWait w wk hw hpc he hs =>
    exact sameCase w wk _ _ _ _ hw (by simp [Worker.popped, hpc]) (hu wk (hmem hw))
  | task w wk x hw hpc =>
    obtain ⟨h1, h2⟩ := inFlight_step
      (b := { pc := .flush, handle := { item := x, items := wk.handle.items ++ s.pool.task x } })
      hw (by simp [hpc, Pc.isLive]) hle
    constructor
    · exact hk
    · exact hns
    · exact forall_mem_set _ _ hu (by simp [hu wk (hmem hw), hns x])
    · dsimp only
      rw [h2, ← ho, h1]
      simp [Worker.popped, hpc]
  | syncOk w wk j p1 hw hpc hp =>
    have hw1 := hp.getElem hw (by intro t ht; rw [hpc] at ht; cases ht)
    have hu1 : ∀ v ∈ p1.workers, v.handle.items = [] :=
      hp.forall_mem _ hu rfl (fun v sel hv => by rw [Worker.wakeIf_handle]; exact hv)
    constructor
    · dsimp only; rw [hp.kind]; exact hk
    · intro y; dsimp only; rw [hp.task_eq]; exact hns y
    · exact forall_mem_set _ _ hu1 rfl
    · dsimp only
      have e1 : inFlight (p1.workers.set w
          { pc := .fetch, handle := { wk.handle with items := [] } }) = inFlight p1.workers :=
        flatMap_set_same Worker.popped _ w wk _ hw1 (by simp [Worker.popped, hpc])
      have e2 : inFlight p1.workers = inFlight s.pool.workers :=
        hp.flatMap_eq Worker.popped (fun sel w => popped_wakeIf sel w) rfl
      rw [e1, e2, hp.contents, hu wk (hmem hw), List.append_nil]; exact ho
  | syncRejected w wk hw hpc hs =>
    exact sameCase w wk _ _ _ _ hw (by simp [Worker.popped, hpc]) rfl
  | dec w wk hw hpc =>
    exact sameCase w wk _ _ _ _ hw (by simp [Worker.popped, hpc]) (hu wk (hmem hw))
  | wgDone w wk hw hpc h0 =>
    exact sameCase w wk _ _ _ _ hw (by simp [Worker.popped, hpc]) (hu wk (hmem hw))
  | wgWait wg hc hstate => exact ⟨hl.stack, hl.no_stage, hl.unstaged, hl.order⟩
  | wgRelease wg hc => exact ⟨hl.stack, hl.no_stage, hl.unstaged, hl.order⟩
  | wgResume wg hc => exact ⟨hl.stack, hl.no_stage, hl.unstaged, hl.order⟩

/-! ## Schedules in two phases -/

theorem run_append [Inhabited I] (t1 t2 : List (Action I)) (s s2 : Sys I)
    (h : run s (t1 ++ t2) = some s2) : ∃ s1, run s t1 = some s1 ∧ run s1 t2 = some s2 := by
  induction t1 generalizing s with
  | nil => exact ⟨s, rfl, h⟩
  | cons a as ih =>
    simp only [List.cons_append, run] at h ⊢
    cases hs : step s a with
    | none => simp [hs] at h
    | some s1 =>
      simp only [hs] at h
      exact ih s1 h

theorem drains_of_quiet (fin : Bool) (tr : List (Action I))
    (hq : ∀ a ∈ tr, a.isQuiet = true) : drains fin tr = true := by
  induction tr generalizing fin with
  | nil => rfl
  | cons a as ih =>
    have ha := hq a (List.mem_cons_self _ _)
    have has : ∀ b ∈ as, b.isQuiet = true := fun b hb => hq b (List.mem_cons_of_mem _ hb)
    cases a with
    | push x => simp [Action.isQuiet] at ha
    | pushAll xs => simp [Action.isQuiet] at ha
    | abort => simp [Action.isQuiet] at ha
    | finish => simp only [drains]; exact ih true has
    | next w => simp only [drains]; exact ih fin has
    | task w => simp only [drains]; exact ih fin has
    | sync w => simp only [drains]; exact ih fin has
    | dec w => simp only [drains]; exact ih fin has
    | wgDone w => simp only [drains]; exact ih fin has
    | wgWait => simp only [drains]; exact ih fin has
    | wgRelease => simp only [drains]; exact ih fin has
    | wgResume => simp only [drains]; exact ih fin has

theorem drains_pushes (xs : List I) (tr : List (Action I))
    (hq : ∀ a ∈ tr, a.isQuiet = true) : drains false (xs.map Action.push ++ tr) = true := by
  induction xs with
  | nil => exact drains_of_quiet false tr hq
  | cons x xs ih => simpa [drains] using ih

theorem DrainInv.holds_init (numCPU : Int) (task : Task I) (bucket : Bucket I) (m : Int)
    (hb : bucket.contents = []) : DrainInv (Sys.init numCPU task bucket m) := by
  constructor
  · simp [Sys.init, New, Pool.SetMaxWorkers]
  · simp [Sys.init, New, Pool.SetMaxWorkers, total, hb]
  · intro _ w hw; simp [Sys.init, New, Pool.SetMaxWorkers] at hw
  · intro hne; exact absurd hb hne

/-- When the wait group of a draining schedule is at zero, the bucket is empty, every goroutine
has returned and no worker holds an item. -/
theorem DrainInv.drained {m : Int} {s : Sys I} (hi : Inv m s) (hd : DrainInv s)
    (hwg : s.pool.wg.counter = 0) :
    s.pool.bucket.contents = [] ∧ (∀ w ∈ s.pool.workers, w.pc = .exited) ∧
    inFlight s.pool.workers = [] ∧ stagedItems s.pool.workers = [] := by
  have hex := hi.all_exited hwg
  have hempty : s.pool.bucket.contents = [] := by
    by_contra hne
    obtain ⟨w, hw, hact⟩ := exists_of_total_ind_pos _ _ (hd.covered hne)
    rw [hex w hw] at hact
    simp [Pc.isActive] at hact
  refine ⟨hempty, hex, ?_, ?_⟩
  · apply List.flatMap_eq_nil_iff.mpr
    intro w hw
    simp [Worker.popped, hex w hw]
  · apply List.flatMap_eq_nil_iff.mpr
    intro w hw
    exact hi.staged w hw (by rw [hex w hw]; simp)

/-- Every schedule on a queue with a maximum of one worker keeps the order of entry. -/
theorem FifoInv.kept_run_fifo [Inhabited I] (tr : List (Action I)) {s s1 : Sys I}
    (hi : Inv 1 s) (hk : FifoInv s) (h : run s tr = some s1) : FifoInv s1 := by
  induction tr generalizing s with
  | nil => simp [run] at h; subst h; exact hk
  | cons a as ih =>
    simp only [run] at h
    cases hs : step s a with
    | none => simp [hs] at h
    | some s2 =>
      simp only [hs] at h
      exact ih (hi.preserved_step (by decide) hs) (hk.kept_fifo hi hs) h

theorem DiscoveryInv.kept_run_found [Inhabited I] {task : Task I} {ext : List I}
    (tr : List (Action I)) {s s1 : Sys I} (hi : Inv 1 s) (hj : DiscoveryInv task ext s)
    (hq : ∀ a ∈ tr, a.isQuiet = true) (hna : s.pool.state ≠ PoolAbort)
    (h : run s tr = some s1) : DiscoveryInv task ext s1 := by
  induction tr generalizing s with
  | nil => simp [run] at h; subst h; exact hj
  | cons a as ih =>
    simp only [run] at h
    cases hs : step s a with
    | none => simp [hs] at h
    | some s2 =>
      simp only [hs] at h
      have ha := hq a (List.mem_cons_self _ _)
      exact ih (hi.preserved_step (by decide) hs) (hj.kept_found hi ha hna hs)
        (fun b hb => hq b (List.mem_cons_of_mem _ hb)) (quiet_state hs ha hna) h

theorem LifoInv.kept_run_lifo [Inhabited I] {target : List I}
    (tr : List (Action I)) {s s1 : Sys I} (hi : Inv 1 s) (hl : LifoInv target s)
    (hq : ∀ a ∈ tr, a.isQuiet = true) (h : run s tr = some s1) : LifoInv target s1 := by
  induction tr generalizing s with
  | nil => simp [run] at h; subst h; exact hl
  | cons a as ih =>
    simp only [run] at h
    cases hs : step s a with
    | none => simp [hs] at h
    | some s2 =>
      simp only [hs] at h
      exact ih (hi.preserved_step (by decide) hs)
        (hl.kept_lifo hi (hq a (List.mem_cons_self _ _)) hs)
        (fun b hb => hq b (List.mem_cons_of_mem _ hb)) h

/-- Before the first call from outside there is no goroutine and nobody waits on the wait
group, so no worker step and no wait-group step is enabled. -/
theorem step_none_of_no_workers [Inhabited I] (s : Sys I) (a : Action I)
    (hw : s.pool.workers = []) (hs : s.pool.state = PoolRun)
    (hwt : s.pool.wg.waiters = 0) (hrl : s.pool.wg.released = 0)
    (ha : a.isExternal = false) : step s a = none := by
  cases a <;> simp_all [step, Action.isExternal, WaitGroup.release, WaitGroup.resume]

theorem isQuiet_of_not_external (a : Action I) (ha : a.isExternal = false) :
    a.isQuiet = true := by
  cases a <;> simp_all [Action.isExternal, Action.isQuiet]

/-! ## The scenario on a queue -/

theorem abTask_fixpoint (P : List String) (h : P = "" :: P.flatMap abTask) :
    P = ["", "a", "b", "aa", "ab", "ba", "bb"] := by
  have e0 : abTask "" = ["a", "b"] := by decide
  have e1 : abTask "a" = ["aa", "ab"] := by decide
  have e2 : abTask "b" = ["ba", "bb"] := by decide
  have e3 : abTask "aa" = [] := by decide
  have e4 : abTask "ab" = [] := by decide
  have e5 : abTask "ba" = [] := by decide
  have e6 : abTask "bb" = [] := by decide
  have la : "a".length = 1 := by decide
  have lb : "b".length = 1 := by decide
  obtain ⟨Q, hQ⟩ : ∃ Q, Q = P.flatMap abTask := ⟨_, rfl⟩
  rw [← hQ] at h
  subst h
  simp only [List.flatMap_cons, e0, List.cons_append, List.nil_append] at hQ
  obtain ⟨R, hR⟩ : ∃ R, R = Q.flatMap abTask := ⟨_, rfl⟩
  rw [← hR] at hQ
  subst hQ
  simp only [List.flatMap_cons, e1, e2, List.cons_append, List.nil_append] at hR
  obtain ⟨T, hT⟩ : ∃ T, T = R.flatMap abTask := ⟨_, rfl⟩
  rw [← hT] at hR
  subst hR
  simp only [List.flatMap_cons, e3, e4, e5, e6, List.nil_append] at hT
  have hlen : ∀ n : Nat, ∀ y ∈ T, n ≤ y.length := by
    intro n
    induction n with
    | zero => intro y _; exact Nat.zero_le _
    | succ n ih =>
      intro y hy
      rw [hT, List.mem_flatMap] at hy
      obtain ⟨z, hz, hyz⟩ := hy
      have := ih z hz
      unfold abTask at hyz
      split at hyz
      · simp only [List.mem_cons, List.mem_singleton, List.not_mem_nil, or_false] at hyz
        rcases hyz with rfl | rfl <;> rw [String.length_append] <;> omega
      · simp at hyz
  have hT0 : T = [] := by
    cases hc : T with
    | nil => rfl
    | cons y ys =>
      exfalso
      have hy : y ∈ T := by rw [hc]; exact List.mem_cons_self _ _
      have h3 := hlen 3 y hy
      rw [hT, List.mem_flatMap] at hy
      obtain ⟨z, hz, hyz⟩ := hy
      unfold abTask at hyz
      split at hyz
      · rename_i hlt
        simp only [List.mem_cons, List.mem_singleton, List.not_mem_nil, or_false] at hyz
        rcases hyz with rfl | rfl <;> rw [String.length_append] at h3 <;> omega
      · simp at hyz
  rw [hT0]

theorem FifoInv.queue_init (numCPU : Int) (task : Task I) (m : Int) :
    FifoInv (Sys.init numCPU task (.queue NewQueue) m) := by
  constructor <;>
    simp [Sys.init, New, Pool.SetMaxWorkers, Bucket.isQueue, inFlight, Bucket.contents,
      NewQueue, NewList, LinkedList.Init]

/-- C7: on a queue with a maximum of one worker, for every task and every schedule, the items
entered the bucket in the order: handed to the task, in flight, still queued; so the task
receives the items in the order they were discovered. For the task that stages `item+"a"`
and `item+"b"` when the item is shorter than two, in every schedule whose calls from outside
are `Push("")` and then `Finish()`, once `Finish()` returns the task has been called on
exactly `""`, `"a"`, `"b"`, `"aa"`, `"ab"`, `"ba"`, `"bb"`, in that order. -/
theorem C7_queue_single_worker_breadth_first :
    (∀ (I : Type) [Inhabited I] (numCPU : Int) (task : Task I) (tr : List (Action I))
        (s : Sys I),
      run (Sys.init numCPU task (.queue NewQueue) 1) tr = some s →
        s.inserted = s.processed ++ inFlight s.pool.workers ++ s.pool.bucket.contents ∧
        s.processed <+: s.inserted) ∧
    (∀ (numCPU : Int) (tr : List (Action String)) (s : Sys String),
      tr.filter Action.isExternal = [.push "", .finish] →
      run (Sys.init numCPU abTask (.queue NewQueue) 1) tr = some s →
      s.pool.waitReturns = true →
        s.processed = ["", "a", "b", "aa", "ab", "ba", "bb"] ∧
        s.pool.bucket.IsEmpty = true) := by
  constructor
  · intro I _ numCPU task tr s h
    have hk := (FifoInv.queue_init numCPU task 1).kept_run_fifo tr (Inv.at_init numCPU task _ 1) h
    exact ⟨hk.order, ⟨_, by rw [hk.order, List.append_assoc]⟩⟩
  · intro numCPU tr s hext h hret
    have hi0 := Inv.at_init numCPU abTask (.queue NewQueue) 1
    have hd0 := DrainInv.holds_init numCPU abTask (.queue NewQueue) 1 rfl
    have hk0 := FifoInv.queue_init numCPU abTask 1
    -- the schedule starts with the push: no worker exists before it
    cases tr with
    | nil => simp at hext
    | cons a tr2 =>
      have hae : a.isExternal = true := by
        by_contra hne
        have hne1 : a.isExternal = false := by simpa using hne
        have := step_none_of_no_workers (Sys.init numCPU abTask (.queue NewQueue) 1) a rfl rfl rfl rfl hne1
        simp [run, this] at h
      simp only [List.filter_cons, hae, if_true, List.cons.injEq] at hext
      obtain ⟨rfl, hext2⟩ := hext
      have hq : ∀ b ∈ tr2, b.isQuiet = true := by
        intro b hb
        by_cases hbe : b.isExternal = true
        · have : b ∈ tr2.filter Action.isExternal := List.mem_filter.mpr ⟨hb, hbe⟩
          rw [hext2] at this
          simp at this
          subst this
          rfl
        · exact isQuiet_of_not_external b (by simpa using hbe)
      simp only [run] at h
      cases hs : step (Sys.init numCPU abTask (.queue NewQueue) 1) (.push "") with
      | none => simp [hs] at h
      | some sa =>
        simp only [hs] at h
        have hia := hi0.preserved_step (by decide) hs
        have hda := hd0.kept_step (by decide) (by decide) hi0 (by simp) (fun _ => rfl) hs
        have hka := hk0.kept_fifo hi0 hs
        have hja : DiscoveryInv abTask [""] sa := by
          obtain ⟨hn32, hm32⟩ := hi0.isInt32 (by decide)
          cases step_spec _ _ _ hn32 hm32 hs with
          | pushOk x j p1 hp =>
            constructor
            · exact hp.task_eq
            · dsimp only
              have : stagedItems p1.workers = [] :=
                hp.flatMap_eq (fun w => w.handle.items)
                  (fun sel w => by simp only [Worker.wakeIf_handle]) rfl
              rw [this]
              simp [Sys.init]
          | pushRejected x hst => simp [Sys.init, New, Pool.SetMaxWorkers] at hst
        have hi := hia.preserved_run (by decide) tr2 h
        have hd := hda.kept_run (by decide) (by decide) tr2 true hia (by simp)
          (drains_of_quiet true tr2 hq) h
        have hk := hka.kept_run_fifo tr2 hia h
        have hj := hja.kept_run_found tr2 hia hq hda.not_aborted h
        have hwg : s.pool.wg.counter = 0 := by simpa [Pool.waitReturns] using hret
        obtain ⟨hempty, _, hfl, hstg⟩ := hd.drained hi hwg
        have e1 := hk.order
        have e2 := hj.found
        rw [hfl, hempty, List.append_nil, List.append_nil] at e1
        rw [hstg, List.append_nil, e1] at e2
        exact ⟨abTask_fixpoint _ (by simpa using e2), (Bucket.IsEmpty_iff _).mpr hempty⟩

theorem C7_queue_single_worker_breadth_first_witness :
    abSchedule.filter Action.isExternal = [.push "", .finish] ∧
    run (Sys.init 4 abTask (.queue NewQueue) 1) abSchedule
      = some (finalState (Sys.init 4 abTask (.queue NewQueue) 1) abSchedule) ∧
    (finalState (Sys.init 4 abTask (.queue NewQueue) 1) abSchedule).pool.waitReturns = true ∧
    ((finalState (Sys.init 4 abTask (.queue NewQueue) 1) abSchedule).processed
        = ["", "a", "b", "aa", "ab", "ba", "bb"] ∧
      (finalState (Sys.init 4 abTask (.queue NewQueue) 1) abSchedule).pool.bucket.IsEmpty
        = true) :=
  ⟨by decide, by rfl, by decide,
   C7_queue_single_worker_breadth_first.2 4 abSchedule _ (by decide) (by rfl) (by decide)⟩

/-! ## A stack with one worker -/

/-- A push from outside before any worker step: nothing is processed or in flight, and the
item lands on top of the stack. -/
theorem push_before_fetch [Inhabited I] {t : List I} {s s1 : Sys I} (x : I) (hi : Inv 1 s)
    (hrun : s.pool.state = PoolRun) (hl : LifoInv t s) (hp : s.processed = [])
    (hf : inFlight s.pool.workers = []) (h : step s (.push x) = some s1) :
    s1.pool.state = PoolRun ∧ LifoInv (x :: t) s1 ∧ s1.processed = [] ∧
    inFlight s1.pool.workers = [] := by
  obtain ⟨hn32, hm32⟩ := hi.isInt32 (by decide)
  have ho := hl.order
  rw [hp, hf] at ho
  simp only [List.nil_append] at ho
  cases step_spec s s1 _ hn32 hm32 h with
  | pushOk x j p1 hpu =>
    have e2 : inFlight p1.workers = inFlight s.pool.workers :=
      hpu.flatMap_eq Worker.popped (fun sel w => popped_wakeIf sel w) rfl
    refine ⟨by dsimp only; rw [hpu.state_eq]; exact hrun, ?_, hp, by dsimp only; rw [e2]; exact hf⟩
    constructor
    · dsimp only; rw [hpu.kind]; exact hl.stack
    · intro y; dsimp only; rw [hpu.task_eq]; exact hl.no_stage y
    · exact hpu.forall_mem _ hl.unstaged rfl
        (fun v sel hv => by rw [Worker.wakeIf_handle]; exact hv)
    · dsimp only
      rw [e2, hf, hp, hpu.contents, ← ho]
      simp
  | pushRejected x hst => rw [hrun] at hst; cases hst

theorem run_pushes_before_fetch [Inhabited I] (xs : List I) {t : List I} {s s1 : Sys I}
    (hi : Inv 1 s) (hrun : s.pool.state = PoolRun) (hl : LifoInv t s) (hp : s.processed = [])
    (hf : inFlight s.pool.workers = []) (h : run s (xs.map Action.push) = some s1) :
    LifoInv (xs.reverse ++ t) s1 := by
  induction xs generalizing s t with
  | nil => simp [run] at h; subst h; simpa using hl
  | cons x xs ih =>
    simp only [List.map_cons, run] at h
    cases hs : step s (.push x) with
    | none => simp [hs] at h
    | some s2 =>
      simp only [hs] at h
      obtain ⟨h1, h2, h3, h4⟩ := push_before_fetch x hi hrun hl hp hf hs
      have := ih (hi.preserved_step (by decide) hs) h1 h2 h3 h4 h
      simpa using this

/-- C10 (amended): on a stack with a maximum of one worker and a task that never stages items,
when every `Push` call completes before the worker fetches its first item and only worker
steps and `Finish()` follow, the items handed to the task, then the item in flight, then the
stack read from its top are the pushed items in reverse order at every moment; once
`Finish()` returns the task has received all items in strict reverse of the push order. -/
theorem C10_stack_reverse_when_pushed_first [Inhabited I] (numCPU : Int) (task : Task I)
    (xs : List I) (tr : List (Action I)) (s : Sys I)
    (htask : ∀ x, task x = []) (hq : ∀ a ∈ tr, a.isQuiet = true)
    (h : run (Sys.init numCPU task (.stack NewStack) 1) (xs.map Action.push ++ tr) = some s) :
    s.processed ++ inFlight s.pool.workers ++ s.pool.bucket.contents.reverse = xs.reverse ∧
    (s.pool.waitReturns = true → s.processed = xs.reverse ∧ s.pool.bucket.IsEmpty = true) := by
  have hi0 := Inv.at_init numCPU task (.stack NewStack) 1
  have hd0 := DrainInv.holds_init numCPU task (.stack NewStack) 1 rfl
  have hl0 : LifoInv [] (Sys.init numCPU task (.stack NewStack) 1) := by
    constructor
    · rfl
    · exact htask
    · intro w hw; simp [Sys.init, New, Pool.SetMaxWorkers] at hw
    · simp [Sys.init, New, Pool.SetMaxWorkers, inFlight, Bucket.contents, NewStack]
  obtain ⟨sm, h1, h2⟩ := run_append _ _ _ _ h
  have hlm := run_pushes_before_fetch xs hi0 rfl hl0 rfl rfl h1
  rw [List.append_nil] at hlm
  have him := hi0.preserved_run (by decide) _ h1
  have hl := hlm.kept_run_lifo tr him hq h2
  have hi := hi0.preserved_run (by decide) _ h
  have hd := hd0.kept_run (by decide) (by decide) _ false hi0 (fun _ => rfl)
    (drains_pushes xs tr hq) h
  refine ⟨hl.order, fun hret => ?_⟩
  have hwg : s.pool.wg.counter = 0 := by simpa [Pool.waitReturns] using hret
  obtain ⟨hempty, _, hfl, _⟩ := hd.drained hi hwg
  have e := hl.order
  rw [hfl, hempty] at e
  exact ⟨by simpa using e, (Bucket.IsEmpty_iff _).mpr hempty⟩

theorem C10_stack_reverse_when_pushed_first_witness :
    (∀ x, noStage x = []) ∧
    (∀ a ∈ lateSchedule, a.isQuiet = true) ∧
    run (Sys.init 4 noStage (.stack NewStack) 1) ([1, 2, 3].map Action.push ++ lateSchedule)
      = some (finalState (Sys.init 4 noStage (.stack NewStack) 1)
          ([1, 2, 3].map Action.push ++ lateSchedule)) ∧
    (finalState (Sys.init 4 noStage (.stack NewStack) 1)
      ([1, 2, 3].map Action.push ++ lateSchedule)).pool.waitReturns = true ∧
    (finalState (Sys.init 4 noStage (.stack NewStack) 1)
      ([1, 2, 3].map Action.push ++ lateSchedule)).processed = [3, 2, 1] :=
  ⟨fun _ => rfl, by decide, by rfl, by decide,
   ((C10_stack_reverse_when_pushed_first 4 noStage [1, 2, 3] lateSchedule _ (fun _ => rfl)
      (by decide) (by rfl)).2 (by decide)).1⟩

/-- C10 as stated fails: the worker started by the first `Push` may fetch before the second
`Push` arrives. With the calls `Push(1)`, `Push(2)`, `Finish()` in this order and the worker
running in between, `Finish()` returns after the task received `1` and then `2`: the push
order, not its reverse. -/
theorem C10_fails_when_worker_runs_between_pushes :
    eagerSchedule.filter Action.isExternal = [.push 1, .push 2, .finish] ∧
    run (Sys.init 4 noStage (.stack NewStack) 1) eagerSchedule = some eagerFinal ∧
    eagerFinal.pool.state = PoolFinish ∧
    eagerFinal.pool.waitReturns = true ∧
    eagerFinal.processed = [1, 2] ∧
    eagerFinal.processed ≠ [1, 2].reverse :=
  ⟨by decide, by rfl, by decide, by decide, by decide, by decide⟩

/-! ## The handle and the fetch of the next item -/

theorem Pool.spawnLoop_bucket [Inhabited I] (k : Nat) (pool p1 : Pool I)
    (h : Pool.spawnLoop k pool = some p1) : p1.bucket = pool.bucket := by
  induction k generalizing pool with
  | zero =>
    simp only [Pool.spawnLoop, Option.some.injEq] at h
    rw [← h]
  | succ k ih =>
    unfold Pool.spawnLoop at h
    split at h
    · simp only [Option.some.injEq] at h
      rw [← h]
    · cases hp : pool.spawn with
      | none => simp [hp] at h
      | some p2 =>
        simp only [hp] at h
        refine (ih p2 h).trans ?_
        unfold Pool.spawn at hp
        split at hp
        · cases hp
        · simp only [Option.some.injEq] at hp
          rw [← hp]

theorem Pool.PushAll_bucket [Inhabited I] (pool : Pool I) (xs : List I)
    (hs : pool.state ≠ PoolAbort) (r : Pool I × Option PoolError)
    (h : pool.PushAll xs = some r) :
    r.1.bucket = pool.bucket.PushAll xs := by
  unfold Pool.PushAll at h
  rw [if_neg hs] at h
  cases hp : Pool.spawnLoop xs.length pool with
  | none => simp [hp] at h
  | some p1 =>
    simp only [hp, Option.some.injEq] at h
    rw [← h]
    simp only [Pool.Broadcast, Pool.spawnLoop_bucket _ pool p1 hp]

/-- Outside the window in which `wg.Add` panics, `PushAll` returns. -/
theorem Pool.PushAll_isSome [Inhabited I] (pool : Pool I) (xs : List I)
    (hsafe : pool.wg.waiters = 0 ∨ pool.wg.counter ≠ 0) : ∃ r, pool.PushAll xs = some r := by
  unfold Pool.PushAll
  split
  · exact ⟨_, rfl⟩
  · obtain ⟨p, hp⟩ := Pool.spawnLoop_isSome xs.length pool hsafe
    rw [hp]
    exact ⟨_, rfl⟩

theorem Handle.foldl_stage (xs : List I) (handle : Handle I) :
    xs.foldl Handle.Push handle = { handle with items := handle.items ++ xs } := by
  induction xs generalizing handle with
  | nil => simp
  | cons x xs ih => simp [ih, Handle.Push]

/-- C11: `Sync()` is the one call `PushAll(staged)` followed by the clearing of the staged list:
it has no error result, and whenever it returns the staged list of the handle is empty and the
bound item is kept. It returns whenever the wait group is not at zero with a waiter registered,
which holds in every reachable state in which a worker runs it, so there the worker step that
runs it is enabled. In a state that is not `PoolAbort` the bucket gains exactly the staged
items, in staged order; in `PoolAbort` the pool (bucket, worker count, lifecycle state) is
unchanged and the staged items are dropped. -/
theorem C11_sync_flushes_or_drops [Inhabited I] (handle : Handle I) (pool : Pool I) :
    (handle.Sync pool).map Prod.snd = (pool.PushAll handle.items).map Prod.fst ∧
    (∀ r, handle.Sync pool = some r → r.1.items = [] ∧ r.1.item = handle.item) ∧
    (pool.wg.waiters = 0 ∨ pool.wg.counter ≠ 0 → ∃ r, handle.Sync pool = some r) ∧
    (pool.state ≠ PoolAbort →
      ∀ r, handle.Sync pool = some r →
        r.2.bucket = pool.bucket.PushAll handle.items ∧
        r.2.bucket.contents = pool.bucket.contents ++ handle.items ∧
        r.2.state = pool.state) ∧
    (pool.state = PoolAbort →
      handle.Sync pool = some ({ handle with items := [] }, pool)) ∧
    (∀ (numCPU : Int) (task : Task I) (bucket : Bucket I) (m : Int) (tr : List (Action I))
        (s : Sys I) (w : Nat) (wk : Worker I),
      IsInt32 m → run (Sys.init numCPU task bucket m) tr = some s →
      s.pool.workers[w]? = some wk → wk.pc = .flush →
      ∃ s1, step s (.sync w) = some s1 ∧
        s1.pool.workers[w]? = some { pc := .fetch, handle := { wk.handle with items := [] } }) := by
  have hsync : ∀ (h : Handle I) (p : Pool I) (r : Handle I × Pool I), h.Sync p = some r →
      ∃ q, p.PushAll h.items = some q ∧ r = ({ h with items := [] }, q.1) := by
    intro h p r hr
    unfold Handle.Sync at hr
    cases hp : p.PushAll h.items with
    | none => simp [hp] at hr
    | some q =>
      simp only [hp, Option.some.injEq] at hr
      exact ⟨q, rfl, hr.symm⟩
  refine ⟨?_, ?_, ?_, ?_, ?_, ?_⟩
  · unfold Handle.Sync
    cases pool.PushAll handle.items <;> rfl
  · intro r hr
    obtain ⟨q, _, rfl⟩ := hsync handle pool r hr
    exact ⟨rfl, rfl⟩
  · intro hsafe
    obtain ⟨q, hq⟩ := Pool.PushAll_isSome pool handle.items hsafe
    exact ⟨({ handle with items := [] }, q.1), by simp [Handle.Sync, hq]⟩
  · intro hs r hr
    obtain ⟨q, hq, rfl⟩ := hsync handle pool r hr
    have hb : q.1.bucket = pool.bucket.PushAll handle.items :=
      Pool.PushAll_bucket pool handle.items hs q hq
    refine ⟨hb, ?_, Pool.PushAll_state pool handle.items q hq⟩
    dsimp only
    rw [hb, Bucket.contents_PushAll]
  · intro hs
    simp [Handle.Sync, Pool.PushAll_aborted _ _ hs]
  · intro numCPU task bucket m tr s w wk hm hrun hw hpc
    have hi := (Inv.at_init numCPU task bucket m).preserved_run hm tr hrun
    obtain ⟨hn32, hm32⟩ := hi.isInt32 hm
    have hmem : wk ∈ s.pool.workers := List.getElem?_mem hw
    have hpos := total_ind_pos_of_mem Pc.isOutstanding _ wk hmem
      (by simp [hpc, Pc.isOutstanding])
    have hc : s.pool.wg.counter ≠ 0 := by
      have := hi.wg_eq
      omega
    obtain ⟨q, hq⟩ := Pool.PushAll_isSome s.pool wk.handle.items (Or.inr hc)
    have hstep : step s (.sync w) = some
        { s with
          pool := q.1.setWorker w { pc := .fetch, handle := { wk.handle with items := [] } }
          inserted :=
            if s.pool.state = PoolAbort then s.inserted else s.inserted ++ wk.handle.items } := by
      simp only [step, hw, hpc, Handle.Sync, hq]
    refine ⟨_, hstep, ?_⟩
    simp only [Pool.setWorker]
    have hw1 : q.1.workers[w]? = some wk := by
      by_cases hs : s.pool.state = PoolAbort
      · rw [Pool.PushAll_aborted _ _ hs, Option.some.injEq] at hq
        rw [← hq]; exact hw
      · obtain ⟨j, hj⟩ := Pool.PushAll_pushed s.pool wk.handle.items hn32 hm32 hs q hq
        exact hj.getElem hw (by intro t ht; rw [hpc] at ht; cases ht)
    exact getElem?_set_self_of_some _ _ _ _ hw1

theorem C11_sync_flushes_or_drops_witness :
    stackPool.state ≠ PoolAbort ∧
    (({ item := 7, items := [8, 9] } : Handle Nat).Sync stackPool).map (fun r => r.1.items)
      = some [] ∧
    (({ item := 7, items := [8, 9] } : Handle Nat).Sync stackPool).map
      (fun r => r.2.bucket.contents) = some [7, 8, 9] ∧
    (∀ r, ({ item := 7, items := [8, 9] } : Handle Nat).Sync stackPool = some r →
      r.2.bucket.contents = stackPool.bucket.contents ++ [8, 9]) :=
  ⟨by decide, by decide, by decide,
   fun r hr =>
     ((C11_sync_flushes_or_drops ({ item := 7, items := [8, 9] } : Handle Nat)
        stackPool).2.2.2.1 (by decide) r hr).2.1⟩

/-- C12: `Handle.Push(x)` appends `x` at the end of the staged list of the handle and changes
nothing else: the bound item returned by `Item()` is the same after any number of pushes, and
the worker step in which a task stages its items leaves the bucket, the live-worker count, the
lifecycle state, the wait group and the goroutines of the pool as they were. -/
theorem C12_handle_push_is_local [Inhabited I] (handle : Handle I) (x : I) (xs : List I) :
    (handle.Push x).items = handle.items ++ [x] ∧
    (handle.Push x).Item = handle.Item ∧
    (xs.foldl Handle.Push handle).items = handle.items ++ xs ∧
    (xs.foldl Handle.Push handle).Item = handle.Item ∧
    (∀ (s s1 : Sys I) (w : Nat), step s (.task w) = some s1 →
      s1.pool.bucket = s.pool.bucket ∧ s1.pool.numWorkers = s.pool.numWorkers ∧
      s1.pool.state = s.pool.state ∧ s1.pool.wg = s.pool.wg ∧
      s1.pool.maxWorkers = s.pool.maxWorkers ∧ s1.inserted = s.inserted ∧
      s1.pool.workers.length = s.pool.workers.length) := by
  refine ⟨rfl, rfl, ?_, ?_, ?_⟩
  · rw [Handle.foldl_stage]
  · rw [Handle.foldl_stage]; rfl
  · intro s s1 w h
    simp only [step] at h
    cases hw : s.pool.workers[w]? with
    | none => simp [hw] at h
    | some wk =>
      simp only [hw] at h
      cases hpc : wk.pc with
      | gotItem y =>
        simp only [hpc, Option.some.injEq] at h
        subst h
        simp [Pool.setWorker]
      | _ => simp [hpc] at h

theorem C12_handle_push_is_local_witness :
    step secondFetchFinal (.task 0) = some (finalState secondFetchFinal [.task 0]) ∧
    (finalState secondFetchFinal [.task 0]).pool.bucket = secondFetchFinal.pool.bucket ∧
    (finalState secondFetchFinal [.task 0]).pool.numWorkers
      = secondFetchFinal.pool.numWorkers :=
  ⟨by rfl,
   ((C12_handle_push_is_local ({ item := 0, items := [] } : Handle Nat) 1 []).2.2.2.2
      secondFetchFinal _ 0 (by rfl)).1,
   ((C12_handle_push_is_local ({ item := 0, items := [] } : Handle Nat) 1 []).2.2.2.2
      secondFetchFinal _ 0 (by rfl)).2.1⟩

/-- C16: the fetch of a worker returns "no more work" exactly when the bucket is empty and the
state is `PoolFinish` or `PoolAbort`; it suspends exactly when the bucket is empty and the
state is `PoolRun`; in both cases the pool is untouched. Whenever the bucket is not empty it
pops one item and returns it, in every lifecycle state, so a worker retires only after it has
seen an empty bucket and items queued at an abort are still handed out. -/
theorem C16_next_outcomes (pool : Pool I) :
    ((pool.next).map Prod.fst = some NextResult.noMoreWork ↔
      pool.bucket.IsEmpty = true ∧ (pool.state = PoolFinish ∨ pool.state = PoolAbort)) ∧
    ((pool.next).map Prod.fst = some NextResult.wait ↔
      pool.bucket.IsEmpty = true ∧ pool.state = PoolRun) ∧
    (∀ p, pool.next = some (NextResult.noMoreWork, p) ∨ pool.next = some (NextResult.wait, p) →
      p = pool) ∧
    (pool.bucket.IsEmpty = false →
      ∃ x b, pool.bucket.Pop = some (x, b) ∧
        pool.next = some (NextResult.item x, { pool with bucket := b })) := by
  by_cases he : pool.bucket.IsEmpty = true
  · have hc := (Bucket.IsEmpty_iff _).mp he
    cases hst : pool.state <;> simp [Pool.next, he, hst]
  · have hc : pool.bucket.contents ≠ [] := fun hc => he ((Bucket.IsEmpty_iff _).mpr hc)
    obtain ⟨⟨x, b⟩, hp⟩ := Bucket.Pop_isSome _ hc
    simp [Pool.next, he, hp]

/-- C17: `Pop` is only called on a non-empty bucket: for every pool state the fetch never
panics, it returns an item only when `IsEmpty()` was false, that item is the one `Pop`
returns, and on an empty bucket the bucket is not touched; on a non-empty stack the index
`len(data)-1` is in range and on a non-empty queue `Front()` is not nil, so both `Pop`
methods return. A worker standing at the fetch can always take the step. -/
theorem C17_pop_only_when_non_empty [Inhabited I] (pool : Pool I) :
    pool.next ≠ none ∧
    (∀ x p, pool.next = some (NextResult.item x, p) →
      pool.bucket.IsEmpty = false ∧ pool.bucket.Pop = some (x, p.bucket)) ∧
    (pool.bucket.IsEmpty = true → ∀ r p, pool.next = some (r, p) → p.bucket = pool.bucket) ∧
    (∀ st : Stack I, st.IsEmpty = false →
      st.data.length - 1 < st.data.length ∧ ∃ r, st.Pop = some r) ∧
    (∀ q : Queue I, q.IsEmpty = false → (∃ e, q.data.Front = some e) ∧ ∃ r, q.Pop = some r) ∧
    (∀ (s : Sys I) (w : Nat) (wk : Worker I), s.pool.workers[w]? = some wk → wk.pc = .fetch →
      ∃ s1, step s (.next w) = some s1) := by
  refine ⟨?_, ?_, ?_, ?_, ?_, ?_⟩
  · by_cases he : pool.bucket.IsEmpty = true
    · unfold Pool.next; rw [if_pos he]; split <;> simp
    · have hc : pool.bucket.contents ≠ [] := fun hc => he ((Bucket.IsEmpty_iff _).mpr hc)
      obtain ⟨⟨x, b⟩, hp⟩ := Bucket.Pop_isSome _ hc
      simp [Pool.next, he, hp]
  · intro x p h
    by_cases he : pool.bucket.IsEmpty = true
    · unfold Pool.next at h; rw [if_pos he] at h; split at h <;> simp at h
    · have hc : pool.bucket.contents ≠ [] := fun hc => he ((Bucket.IsEmpty_iff _).mpr hc)
      obtain ⟨⟨y, b⟩, hp⟩ := Bucket.Pop_isSome _ hc
      simp [Pool.next, he, hp] at h
      obtain ⟨rfl, rfl⟩ := h
      exact ⟨by simpa using he, hp⟩
  · intro he r p h
    unfold Pool.next at h; rw [if_pos he] at h
    split at h <;> (simp at h; rw [← h.2])
  · intro st he
    have hl : st.data.length ≠ 0 := by simpa [Stack.IsEmpty] using he
    have h1 : st.data.length - 1 < st.data.length := by omega
    exact ⟨h1, by simp [Stack.Pop, hl, List.getElem?_eq_getElem h1]⟩
  · intro q he
    have hl : q.data.elems.length ≠ 0 := by simpa [Queue.IsEmpty, LinkedList.Len] using he
    refine ⟨⟨0, by simp [LinkedList.Front, hl]⟩, ?_⟩
    rw [Queue.Pop_eq]
    cases hq : q.data.elems with
    | nil => simp [hq] at hl
    | cons y rest => exact ⟨_, rfl⟩
  · intro s w wk hw hpc
    simp only [step, hw, hpc]
    by_cases he : s.pool.bucket.IsEmpty = true
    · by_cases hfa : s.pool.state = PoolFinish ∨ s.pool.state = PoolAbort
      · simp [Pool.next, he, hfa]
      · simp [Pool.next, he, hfa]
    · have hc : s.pool.bucket.contents ≠ [] := fun hc => he ((Bucket.IsEmpty_iff _).mpr hc)
      obtain ⟨⟨x, b⟩, hp⟩ := Bucket.Pop_isSome _ hc
      simp [Pool.next, he, hp]

/-! ## The lifecycle state machine -/

theorem step_finish_state [Inhabited I] {s s1 : Sys I} (h : step s .finish = some s1) :
    s1.pool.state = PoolFinish := by
  simp only [step, Option.some.injEq] at h
  subst h
  rfl

theorem step_not_running [Inhabited I] {s s1 : Sys I} {a : Action I}
    (h : step s a = some s1) (hs : s.pool.state ≠ PoolRun) : s1.pool.state ≠ PoolRun := by
  by_cases hf : a = .finish
  · subst hf; rw [step_finish_state h]; simp
  · by_cases ha : a = .abort
    · subst ha; rw [step_abort_state h]; simp
    · rw [step_state h hf ha]; exact hs

/-- C13: a pool made by `New` is in state `PoolRun`; once the state is `PoolFinish` or
`PoolAbort`, which is what `Finish()` and `Abort()` set, no schedule of `Push`, `PushAll`,
`Finish`, `Abort` and worker steps makes it `PoolRun` again. -/
theorem C13_never_running_again [Inhabited I] (numCPU : Int) (task : Task I)
    (bucket : Bucket I) (s s1 : Sys I) (tr : List (Action I))
    (hs : s.pool.state ≠ PoolRun) (h : run s tr = some s1) :
    (New numCPU task bucket).state = PoolRun ∧
    (∀ s2, step s .finish = some s2 → s2.pool.state = PoolFinish) ∧
    (∀ s2, step s .abort = some s2 → s2.pool.state = PoolAbort) ∧
    s1.pool.state ≠ PoolRun := by
  refine ⟨rfl, fun _ h2 => step_finish_state h2, fun _ h2 => step_abort_state h2, ?_⟩
  induction tr generalizing s with
  | nil => simp [run] at h; subst h; exact hs
  | cons a as ih =>
    simp only [run] at h
    cases hst : step s a with
    | none => simp [hst] at h
    | some s2 =>
      simp only [hst] at h
      exact ih s2 (step_not_running hst hs) h

theorem C13_never_running_again_witness :
    abortCalled.pool.state ≠ PoolRun ∧
    run abortCalled abortSchedule = some abortLater ∧
    abortLater.pool.state ≠ PoolRun :=
  ⟨by decide, by rfl,
   (C13_never_running_again 4 noStage (.queue NewQueue) abortCalled abortLater abortSchedule
      (by decide) (by rfl)).2.2.2⟩

theorem run_state_finish [Inhabited I] (tr : List (Action I)) {s s1 : Sys I}
    (hs : s.pool.state = PoolFinish) (hna : Action.abort ∉ tr) (h : run s tr = some s1) :
    s1.pool.state = PoolFinish := by
  induction tr generalizing s with
  | nil => simp [run] at h; subst h; exact hs
  | cons a as ih =>
    simp only [run] at h
    cases hst : step s a with
    | none => simp [hst] at h
    | some s2 =>
      simp only [hst] at h
      have hne : a ≠ .abort := fun he => hna (by simp [he])
      have has : Action.abort ∉ as := fun hm => hna (List.mem_cons_of_mem _ hm)
      by_cases hf : a = .finish
      · subst hf
        exact ih (step_finish_state hst) has h
      · exact ih ((step_state hst hf hne).trans hs) has h

/-- C14 (amended): once the lifecycle state is `PoolFinish`, every schedule of `Push`,
`PushAll`, `Finish` and worker steps leaves it `PoolFinish`; only `Abort()` changes it, to
`PoolAbort`, and it never returns to `PoolRun`. -/
theorem C14_finishing_until_abort [Inhabited I] (s s1 : Sys I) (tr : List (Action I))
    (hs : s.pool.state = PoolFinish) (h : run s tr = some s1) :
    (Action.abort ∉ tr → s1.pool.state = PoolFinish) ∧
    (s1.pool.state = PoolFinish ∨ s1.pool.state = PoolAbort) := by
  refine ⟨fun hna => run_state_finish tr hs hna h, ?_⟩
  have hnr : s1.pool.state ≠ PoolRun := by
    have hs0 : s.pool.state ≠ PoolRun := by rw [hs]; simp
    clear hs
    induction tr generalizing s with
    | nil => simp [run] at h; subst h; exact hs0
    | cons a as ih =>
      simp only [run] at h
      cases hst : step s a with
      | none => simp [hst] at h
      | some s2 =>
        simp only [hst] at h
        exact ih s2 h (step_not_running hst hs0)
  cases hc : s1.pool.state with
  | PoolRun => exact absurd hc hnr
  | PoolFinish => exact Or.inl rfl
  | PoolAbort => exact Or.inr rfl

theorem C14_finishing_until_abort_witness :
    strandBefore.pool.state = PoolFinish ∧
    run strandBefore [.push 2, .dec 0, .finish, .wgDone 0]
      = some (finalState strandBefore [.push 2, .dec 0, .finish, .wgDone 0]) ∧
    Action.abort ∉ ([.push 2, .dec 0, .finish, .wgDone 0] : List (Action Nat)) ∧
    (finalState strandBefore [.push 2, .dec 0, .finish, .wgDone 0]).pool.state = PoolFinish :=
  ⟨by decide, by rfl, by decide,
   (C14_finishing_until_abort strandBefore _ [.push 2, .dec 0, .finish, .wgDone 0]
      (by decide) (by rfl)).1 (by decide)⟩

/-- C14 as stated fails: `Abort()` after `Finish()` sets the state to `PoolAbort`. -/
theorem C14_fails_on_abort :
    run (Sys.init 4 noStage (.queue NewQueue) 2) [.finish] =
      some (finalState (Sys.init 4 noStage (.queue NewQueue) 2) [.finish]) ∧
    (finalState (Sys.init 4 noStage (.queue NewQueue) 2) [.finish]).pool.state = PoolFinish ∧
    step (finalState (Sys.init 4 noStage (.queue NewQueue) 2) [.finish]) .abort
      = some finishThenAbort ∧
    finishThenAbort.pool.state = PoolAbort ∧
    finishThenAbort.pool.state ≠ PoolFinish :=
  ⟨by rfl, by decide, by rfl, by decide, by decide⟩

/-- C15: on a pool on which `Finish()` has returned (state `PoolFinish`, wait group at zero), a
second `Finish()` leaves the whole pool, its bucket, live-worker count and lifecycle state
included, exactly as it was, and its `wg.Wait()` returns at once, without registering a
waiter. -/
theorem C15_finish_idempotent [Inhabited I] (numCPU : Int) (task : Task I)
    (bucket : Bucket I) (m : Int) (tr : List (Action I)) (s : Sys I) (hm : IsInt32 m)
    (h : run (Sys.init numCPU task bucket m) tr = some s)
    (hfin : s.pool.state = PoolFinish) (hret : s.pool.waitReturns = true) :
    s.pool.Finish = s.pool ∧
    step s .finish = some s ∧
    s.pool.Finish.bucket = s.pool.bucket ∧
    s.pool.Finish.numWorkers = s.pool.numWorkers ∧
    s.pool.Finish.state = s.pool.state ∧
    s.pool.Finish.waitReturns = true ∧
    s.pool.Finish.wg.Wait = s.pool.wg ∧
    step s .wgWait = some s := by
  have hi := (Inv.at_init numCPU task bucket m).preserved_run hm tr h
  have hwg : s.pool.wg.counter = 0 := by simpa [Pool.waitReturns] using hret
  have hex := hi.all_exited hwg
  have hmap : s.pool.workers.map (Worker.wakeIf (fun _ => true)) = s.pool.workers := by
    conv_rhs => rw [← List.map_id s.pool.workers]
    apply List.map_congr_left
    intro w hw
    exact Worker.wakeIf_of_not_waiting _ w (by intro t ht; rw [hex w hw] at ht; cases ht)
  have he : s.pool.Finish = s.pool := by
    unfold Pool.Finish Pool.Broadcast
    simp only [hmap]
    rw [← hfin]
  have hwait : s.pool.wg.Wait = s.pool.wg := by
    unfold WaitGroup.Wait
    rw [if_pos hwg]
  refine ⟨he, ?_, ?_, ?_, ?_, ?_, ?_, ?_⟩
  · simp only [step, he]
  · rw [he]
  · rw [he]
  · rw [he]
  · rw [he]; exact hret
  · rw [he]; exact hwait
  · have hnr : ¬ s.pool.state = PoolRun := by rw [hfin]; decide
    simp only [step, if_neg hnr, hwait]

theorem C15_finish_idempotent_witness :
    IsInt32 2 ∧
    run (Sys.init 4 noStage (.stack NewStack) 2) finishedSchedule = some finishedFinal ∧
    finishedFinal.pool.state = PoolFinish ∧
    finishedFinal.pool.waitReturns = true ∧
    finishedFinal.pool.Finish = finishedFinal.pool ∧
    finishedFinal.pool.Finish.waitReturns = true :=
  ⟨by decide, by rfl, by decide, by decide,
   (C15_finish_idempotent 4 noStage (.stack NewStack) 2 finishedSchedule finishedFinal
      (by decide) (by rfl) (by decide) (by decide)).1,
   (C15_finish_idempotent 4 noStage (.stack NewStack) 2 finishedSchedule finishedFinal
      (by decide) (by rfl) (by decide) (by decide)).2.2.2.2.2.1⟩

/-! ## A push while the last worker retires -/

/-- C18 at its failing schedule: on a queue with a maximum of one worker, the worker decides to
retire after `Finish()`, and `Push(2)` arrives before the worker decrements the counter. The
push is accepted (nil error) in state `PoolFinish`, starts no worker because the counter
still stands at the maximum, and the bucket is non-empty while the only worker has decided to
retire. When the worker is done the wait group is at zero, so `Finish()` returns, with item
`2` still in the bucket and never passed to the task; no worker step is enabled any more. -/
theorem C18_push_while_retiring_is_stranded :
    run (Sys.init 4 noStage (.queue NewQueue) 1)
        [.push 1, .next 0, .task 0, .sync 0, .finish, .next 0] = some strandBefore ∧
    strandBefore.pool.state = PoolFinish ∧
    strandBefore.pool.maxWorkers = 1 ∧
    strandBefore.pool.numWorkers = 1 ∧
    strandBefore.pool.workers.map (fun w => w.pc) = [.retiring] ∧
    (strandBefore.pool.Push 2).map Prod.snd = some none ∧
    (strandBefore.pool.Push 2).map (fun r => r.1.bucket.contents) = some [2] ∧
    (strandBefore.pool.Push 2).map (fun r => r.1.workers.map (fun w => w.pc))
      = some [.retiring] ∧
    (strandBefore.pool.Push 2).map (fun r => total (Worker.ind Pc.isActive) r.1.workers)
      = some 0 ∧
    run (Sys.init 4 noStage (.queue NewQueue) 1) strandSchedule = some strandFinal ∧
    strandFinal.pool.state = PoolFinish ∧
    strandFinal.pool.waitReturns = true ∧
    strandFinal.pool.workers.map (fun w => w.pc) = [.exited] ∧
    strandFinal.pool.bucket.contents = [2] ∧
    strandFinal.offered = [1, 2] ∧
    strandFinal.inserted = [1, 2] ∧
    strandFinal.processed = [1] ∧
    (∀ w, step strandFinal (.next w) = none) := by
  refine ⟨by rfl, by decide, by decide, by decide, by decide, by decide, by decide, by decide,
    by decide, by rfl, by decide, by decide, by decide, by decide, by decide, by decide,
    by decide, ?_⟩
  intro w
  cases w with
  | zero => rfl
  | succ n => rfl

/-! ## The handle across invocations -/

/-- C19: in every state reached from a new pool, when the task is invoked the handle it gets
carries the item just popped for this invocation and an empty staged list; after the
invocation the staged list holds exactly what this invocation staged, and outside the window
between an invocation and its flush every handle has an empty staged list. The one handle
of a worker therefore behaves as a fresh handle for each item. -/
theorem C19_task_sees_fresh_handle [Inhabited I] (numCPU : Int) (task : Task I)
    (bucket : Bucket I) (m : Int) (tr : List (Action I)) (s s1 : Sys I) (w : Nat)
    (hm : IsInt32 m)
    (h : run (Sys.init numCPU task bucket m) tr = some s)
    (ht : step s (.task w) = some s1) :
    (∀ v ∈ s.pool.workers, v.pc ≠ .flush → v.handle.items = []) ∧
    ∃ wk x, s.pool.workers[w]? = some wk ∧ wk.pc = .gotItem x ∧
      wk.handle.items = [] ∧
      ({ wk.handle with item := x } : Handle I).Item = x ∧
      ({ wk.handle with item := x } : Handle I).items = [] ∧
      s1.pool.workers[w]? =
        some { pc := .flush, handle := { item := x, items := s.pool.task x } } ∧
      s1.processed = s.processed ++ [x] := by
  have hi := (Inv.at_init numCPU task bucket m).preserved_run hm tr h
  obtain ⟨hn32, hm32⟩ := hi.isInt32 hm
  refine ⟨hi.staged, ?_⟩
  cases step_spec s s1 _ hn32 hm32 ht with
  | task w wk x hw hpc =>
    have hnil : wk.handle.items = [] :=
      hi.staged wk (List.getElem?_mem hw) (by rw [hpc]; simp)
    refine ⟨wk, x, hw, hpc, hnil, rfl, hnil, ?_, rfl⟩
    dsimp only
    rw [getElem?_set_self_of_some _ w wk _ hw, hnil, List.nil_append]

theorem C19_task_sees_fresh_handle_witness :
    IsInt32 1 ∧
    run (Sys.init 4 countUp (.stack NewStack) 1) secondFetch = some secondFetchFinal ∧
    step secondFetchFinal (.task 0) = some (finalState secondFetchFinal [.task 0]) ∧
    ((∀ v ∈ secondFetchFinal.pool.workers, v.pc ≠ .flush → v.handle.items = []) ∧
      ∃ wk x, secondFetchFinal.pool.workers[0]? = some wk ∧ wk.pc = .gotItem x ∧
        wk.handle.items = [] ∧
        ({ wk.handle with item := x } : Handle Nat).Item = x ∧
        ({ wk.handle with item := x } : Handle Nat).items = [] ∧
        (finalState secondFetchFinal [.task 0]).pool.workers[0]? =
          some { pc := .flush,
                 handle := { item := x, items := secondFetchFinal.pool.task x } } ∧
        (finalState secondFetchFinal [.task 0]).processed
          = secondFetchFinal.processed ++ [x]) :=
  ⟨by decide, by rfl, by rfl,
   C19_task_sees_fresh_handle 4 countUp (.stack NewStack) 1 secondFetch secondFetchFinal
     (finalState secondFetchFinal [.task 0]) 0 (by decide) (by rfl) (by rfl)⟩

/-! ## `PushAll` against repeated `Push` -/

theorem Bucket.PushAll_cons (b : Bucket I) (x : I) (xs : List I) :
    (b.Push x).PushAll xs = b.PushAll (x :: xs) := by
  cases b with
  | stack s => simp [Bucket.Push, Bucket.PushAll, Stack.Push, Stack.PushAll]
  | queue q => simp [Bucket.Push, Bucket.PushAll, Queue.PushAll]

theorem Bucket.PushAll_singleton (b : Bucket I) (x : I) : b.PushAll [x] = b.Push x := by
  cases b with
  | stack s => simp [Bucket.Push, Bucket.PushAll, Stack.Push, Stack.PushAll]
  | queue q => simp [Bucket.Push, Bucket.PushAll, Queue.PushAll]

/-- The spawn loop reads and writes only the two counters, the wait group and the list of
goroutines: pools that agree on them agree on them afterwards, and one panics when the other
does. -/
theorem Pool.spawnLoop_congr [Inhabited I] (k : Nat) (p q : Pool I)
    (hn : p.numWorkers = q.numWorkers) (hm : p.maxWorkers = q.maxWorkers)
    (hw : p.wg = q.wg) (hl : p.workers.length = q.workers.length) :
    (Pool.spawnLoop k p).map (fun r => (r.numWorkers, r.maxWorkers, r.wg, r.workers.length))
      = (Pool.spawnLoop k q).map
          (fun r => (r.numWorkers, r.maxWorkers, r.wg, r.workers.length)) := by
  induction k generalizing p q with
  | zero => simp [Pool.spawnLoop, hn, hm, hw, hl]
  | succ k ih =>
    unfold Pool.spawnLoop
    rw [hn, hm]
    split
    · simp [hn, hm, hw, hl]
    · by_cases hmis : q.wg.waiters ≠ 0 ∧ q.wg.counter = 0
      · rw [Pool.spawn_of_misuse q hmis.1 hmis.2,
          Pool.spawn_of_misuse p (by rw [hw]; exact hmis.1) (by rw [hw]; exact hmis.2)]
      · have hq : q.wg.waiters = 0 ∨ q.wg.counter ≠ 0 := by
          by_cases h0 : q.wg.waiters = 0
          · exact Or.inl h0
          · exact Or.inr (fun hc => hmis ⟨h0, hc⟩)
        rw [Pool.spawn_of_safe q hq, Pool.spawn_of_safe p (by rw [hw]; exact hq)]
        exact ih _ _ (by simp [hn]) hm (by simp [hw]) (by simp [hl])

theorem Pool.spawnLoop_succ [Inhabited I] (k : Nat) (p : Pool I) :
    Pool.spawnLoop (k + 1) p = (Pool.spawnLoop 1 p).bind (Pool.spawnLoop k) := by
  by_cases hge : p.numWorkers ≥ p.maxWorkers
  · rw [Pool.spawnLoop_of_full 1 p hge, Pool.spawnLoop_of_full (k + 1) p hge, Option.some_bind,
      Pool.spawnLoop_of_full k p hge]
  · have hlt : p.numWorkers < p.maxWorkers := by omega
    rw [Pool.spawnLoop_one, if_pos hlt]
    conv_lhs => unfold Pool.spawnLoop
    rw [if_neg hge]
    cases p.spawn <;> rfl

/-- An accepted `Push` is one round of the spawn loop, then the push on the bucket and the
signal. -/
theorem Pool.Push_eq [Inhabited I] (pool : Pool I) (x : I) (hs : pool.state ≠ PoolAbort) :
    pool.Push x = (Pool.spawnLoop 1 pool).map
      (fun p1 => (({ p1 with bucket := p1.bucket.Push x } : Pool I).Signal, none)) := by
  unfold Pool.Push
  rw [if_neg hs, ← Pool.spawnLoop_one]
  cases Pool.spawnLoop 1 pool <;> rfl

/-- Repeated `Push` of a non-empty list in a state that is not `PoolAbort`: the error, the
bucket, the lifecycle state and the counters it leaves, or the panic, read off the spawn
loop of `PushAll`. -/
theorem Pool.pushEach_accepts [Inhabited I] (x : I) (xs : List I) (pool : Pool I)
    (hs : pool.state ≠ PoolAbort) :
    (pool.pushEach (x :: xs)).map
        (fun r => (r.2, r.1.bucket, r.1.state,
          (r.1.numWorkers, r.1.maxWorkers, r.1.wg, r.1.workers.length)))
      = ((Pool.spawnLoop (x :: xs).length pool).map
          (fun r => (r.numWorkers, r.maxWorkers, r.wg, r.workers.length))).map
          (fun c => ((none : Option PoolError), pool.bucket.PushAll (x :: xs), pool.state, c)) := by
  induction xs generalizing x pool with
  | nil =>
    have e : pool.pushEach [x] = pool.Push x := rfl
    have el : [x].length = 1 := rfl
    rw [e, Pool.Push_eq pool x hs, el]
    cases hp : Pool.spawnLoop 1 pool with
    | none => rfl
    | some p1 =>
      obtain ⟨sel, he⟩ := Pool.Signal_eq ({ p1 with bucket := p1.bucket.Push x } : Pool I)
      simp only [Option.map_some']
      rw [he]
      dsimp only
      rw [Pool.spawnLoop_bucket 1 pool p1 hp, Pool.spawnLoop_state 1 pool p1 hp,
        Bucket.PushAll_singleton, List.length_map]
  | cons y rest ih =>
    have e : pool.pushEach (x :: y :: rest)
        = (pool.Push x).bind (fun r => r.1.pushEach (y :: rest)) := by
      show (match pool.Push x with
        | none => none
        | some r => Pool.pushEach r.1 (y :: rest)) = _
      cases pool.Push x <;> rfl
    have el : (x :: y :: rest).length = (y :: rest).length + 1 := rfl
    rw [e, el, Pool.spawnLoop_succ, Pool.Push_eq pool x hs]
    cases hp : Pool.spawnLoop 1 pool with
    | none => rfl
    | some p1 =>
      obtain ⟨sel, he⟩ := Pool.Signal_eq ({ p1 with bucket := p1.bucket.Push x } : Pool I)
      simp only [Option.map_some', Option.some_bind]
      rw [he]
      dsimp only
      have hst : p1.state = pool.state := Pool.spawnLoop_state 1 pool p1 hp
      have hbk : p1.bucket = pool.bucket := Pool.spawnLoop_bucket 1 pool p1 hp
      have hc := Pool.spawnLoop_congr (y :: rest).length
        ({ p1 with bucket := p1.bucket.Push x,
                   workers := p1.workers.map (Worker.wakeIf sel) } : Pool I) p1
        rfl rfl rfl (by simp)
      rw [ih y _ (by dsimp only; rw [hst]; exact hs), hc]
      dsimp only
      rw [hst, hbk, Bucket.PushAll_cons]

theorem Pool.pushEach_aborted [Inhabited I] (x : I) (xs : List I) (pool : Pool I)
    (hs : pool.state = PoolAbort) :
    pool.pushEach (x :: xs) = some (pool, some PoolAbortedErr) := by
  induction xs generalizing x with
  | nil => exact Pool.Push_aborted pool x hs
  | cons y rest ih =>
    have e : pool.pushEach (x :: y :: rest)
        = (match pool.Push x with
          | none => none
          | some r => Pool.pushEach r.1 (y :: rest)) := rfl
    rw [e, Pool.Push_aborted pool x hs]
    exact ih y

/-- An accepted `PushAll`: the error, the bucket, the lifecycle state and the counters it
leaves, or the panic, read off its spawn loop. -/
theorem Pool.PushAll_accepts [Inhabited I] (xs : List I) (pool : Pool I)
    (hs : pool.state ≠ PoolAbort) :
    (pool.PushAll xs).map
        (fun r => (r.2, r.1.bucket, r.1.state,
          (r.1.numWorkers, r.1.maxWorkers, r.1.wg, r.1.workers.length)))
      = ((Pool.spawnLoop xs.length pool).map
          (fun r => (r.numWorkers, r.maxWorkers, r.wg, r.workers.length))).map
          (fun c => ((none : Option PoolError), pool.bucket.PushAll xs, pool.state, c)) := by
  unfold Pool.PushAll
  rw [if_neg hs]
  cases hp : Pool.spawnLoop xs.length pool with
  | none => rfl
  | some p1 =>
    simp only [Option.map_some', Pool.Broadcast_eq, List.length_map,
      Pool.spawnLoop_bucket _ pool p1 hp, Pool.spawnLoop_state _ pool p1 hp]

/-- C20: for every pool state and every non-empty list, `PushAll(xs)` and `Push` called on
each item of `xs` in order, with no other step in between, give the same error result, the
same bucket, the same lifecycle state, the same live-worker count, the same maximum, the same
wait group and the same number of goroutines; and the one panics in `wg.Add` exactly when the
other does. -/
theorem C20_pushAll_is_repeated_push [Inhabited I] (pool : Pool I) (xs : List I)
    (hne : xs ≠ []) :
    (pool.PushAll xs).map Prod.snd = (pool.pushEach xs).map Prod.snd ∧
    (pool.PushAll xs).map (fun r => r.1.bucket) = (pool.pushEach xs).map (fun r => r.1.bucket) ∧
    (pool.PushAll xs).map (fun r => r.1.bucket.contents)
      = (pool.pushEach xs).map (fun r => r.1.bucket.contents) ∧
    (pool.PushAll xs).map (fun r => r.1.state) = (pool.pushEach xs).map (fun r => r.1.state) ∧
    (pool.PushAll xs).map (fun r => r.1.numWorkers)
      = (pool.pushEach xs).map (fun r => r.1.numWorkers) ∧
    (pool.PushAll xs).map (fun r => r.1.maxWorkers)
      = (pool.pushEach xs).map (fun r => r.1.maxWorkers) ∧
    (pool.PushAll xs).map (fun r => r.1.wg) = (pool.pushEach xs).map (fun r => r.1.wg) ∧
    (pool.PushAll xs).map (fun r => r.1.workers.length)
      = (pool.pushEach xs).map (fun r => r.1.workers.length) ∧
    (pool.PushAll xs = none ↔ pool.pushEach xs = none) := by
  cases xs with
  | nil => exact absurd rfl hne
  | cons x rest =>
    by_cases hs : pool.state = PoolAbort
    · rw [Pool.pushEach_aborted x rest pool hs, Pool.PushAll_aborted pool _ hs]
      exact ⟨rfl, rfl, rfl, rfl, rfl, rfl, rfl, rfl, by simp⟩
    · have h := (Pool.PushAll_accepts (x :: rest) pool hs).trans
        (Pool.pushEach_accepts x rest pool hs).symm
      cases ha : pool.PushAll (x :: rest) with
      | none =>
        cases he : pool.pushEach (x :: rest) with
        | none => simp
        | some r2 => simp [ha, he] at h
      | some r1 =>
        cases he : pool.pushEach (x :: rest) with
        | none => simp [ha, he] at h
        | some r2 =>
          simp only [ha, he, Option.map_some', Option.some.injEq, Prod.mk.injEq] at h
          obtain ⟨h1, h2, h3, h4, h5, h6, h7⟩ := h
          simp [h1, h2, h3, h4, h5, h6, h7]

theorem C20_pushAll_is_repeated_push_witness :
    ([1, 2, 3] : List Nat) ≠ [] ∧
    (queuePool.pushEach [1, 2, 3]).map Prod.snd = some none ∧
    (queuePool.pushEach [1, 2, 3]).map (fun r => r.1.numWorkers) = some 2 ∧
    (queuePool.pushEach [1, 2, 3]).map (fun r => r.1.bucket.contents) = some [1, 2, 3] ∧
    (queuePool.PushAll [1, 2, 3]).map (fun r => r.1.bucket.contents)
      = (queuePool.pushEach [1, 2, 3]).map (fun r => r.1.bucket.contents) ∧
    (queuePool.PushAll [1, 2, 3]).map (fun r => r.1.numWorkers)
      = (queuePool.pushEach [1, 2, 3]).map (fun r => r.1.numWorkers) :=
  ⟨by decide, by decide, by decide, by decide,
   (C20_pushAll_is_repeated_push queuePool [1, 2, 3] (by decide)).2.2.1,
   (C20_pushAll_is_repeated_push queuePool [1, 2, 3] (by decide)).2.2.2.2.1⟩

end Cuba
